import Mathlib

/-!
BCM, a BWT-based file compressor (src/bcm.cpp).

Shallow embedding of the range coder (`Encoder`), the adaptive counters
(`Counter`), the context-mixing predictor (`CM`), and the block drivers
`compress` / `decompress` with the inverse BWT.

Conventions of the embedding.
* `uint` values are naturals reduced `% 2^32` at every operation that can
  overflow; `ulonglong` products are reduced `% 2^64`.
* `int` values that the code compares with zero or subtracts (`n`, `idx`,
  the counters, the SSE interpolation) are `Int`; `int` values that are never
  negative (`ctx`, `c1`, `c2`, `run`, the argument of `Encode`) are naturals.
* The files `in` and `out` are lists of bytes; `getc` yields `-1` at the end.
* Loops whose trip count is not syntactically bounded carry a fuel argument and
  return `none` when the fuel is exhausted; the theorems show that the fuel
  supplied is enough.
-/

namespace BCM

/-- One byte of a file. -/
abbrev Byte := Fin 256

/-- Two to the 32: the modulus of `uint`. -/
def W32 : Nat := 4294967296

/-- Two to the 64: the modulus of `ulonglong`. -/
def W64 : Nat := 18446744073709551616

/-- Conversion of an `int` to `uint`. -/
def toU32 (x : Int) : Nat := (x % 4294967296).toNat

/-- Reinterpretation of a 32-bit pattern as an `int`. -/
def toI32 (x : Nat) : Int :=
  if x % 4294967296 < 2147483648 then ((x % 4294967296 : Nat) : Int)
  else ((x % 4294967296 : Nat) : Int) - 4294967296

/-- The stream header `magic[]="BCM1"`. -/
def magic : List Byte := [0x42, 0x43, 0x4D, 0x31]

/-- Result of `getc(in)`: the next byte as an `int`, or `-1` at end of file,
together with the rest of the file. -/
def getc : List Byte → Int × List Byte
  | [] => (-1, [])
  | b :: rest => ((b.val : Int), rest)

/-- The byte written by `putc(x, out)`: `x` converted to `unsigned char`. -/
def putc (x : Nat) : Byte := Fin.ofNat x

/-! ## Encoder (lines 44-124) -/

/-- The fields of `struct Encoder`. -/
structure Encoder where
  code : Nat
  low : Nat
  high : Nat
deriving DecidableEq

/-- The constructor `Encoder()`. -/
def Encoder.new : Encoder := { code := 0, low := 0, high := 4294967295 }

/-- The range offset `(ulonglong(high-low)*p)>>18` of the `_WIN64` build. -/
def splitWin64 (low high p : Nat) : Nat :=
  ((((high + W32 - low) % W32) * p) % W64) >>> 18

/-- The range offset `(ulonglong(high-low)*(p<<14))>>32` of the other builds;
`p<<14` is a `uint` shift. -/
def split32 (low high p : Nat) : Nat :=
  ((((high + W32 - low) % W32) * ((p <<< 14) % W32)) % W64) >>> 32

/-- The range offset as selected by `#ifdef _WIN64`. -/
def split (win64 : Bool) (low high p : Nat) : Nat :=
  if win64 then splitWin64 low high p else split32 low high p

/-- The loop `while ((low^high)<(1<<24)) { putc(low>>24, out); low<<=8;
high=(high<<8)|255; }` with a fuel bound; returns the new `low`, `high` and the
bytes written. -/
def encRenorm : Nat → Nat → Nat → Nat × Nat × List Byte
  | 0, low, high => (low, high, [])
  | fuel + 1, low, high =>
    if low ^^^ high < 16777216 then
      let r := encRenorm fuel ((low <<< 8) % W32) (((high <<< 8) % W32) ||| 255)
      (r.1, r.2.1, putc (low >>> 24) :: r.2.2)
    else (low, high, [])

/-- The method `Encoder::EncodeBit0(p)`: new state and the bytes written. -/
def Encoder.EncodeBit0 (win64 : Bool) (e : Encoder) (p : Nat) : Encoder × List Byte :=
  let low := (e.low + (split win64 e.low e.high p + 1)) % W32
  let r := encRenorm 4 low e.high
  ({ e with low := r.1, high := r.2.1 }, r.2.2)

/-- The method `Encoder::EncodeBit1(p)`: new state and the bytes written. -/
def Encoder.EncodeBit1 (win64 : Bool) (e : Encoder) (p : Nat) : Encoder × List Byte :=
  let high := (e.low + split win64 e.low e.high p) % W32
  let r := encRenorm 4 e.low high
  ({ e with low := r.1, high := r.2.1 }, r.2.2)

/-- The loop of `Encoder::Flush()`, `k` iterations left. -/
def flushLoop : Nat → Nat → Nat × List Byte
  | 0, low => (low, [])
  | k + 1, low =>
    let r := flushLoop k ((low <<< 8) % W32)
    (r.1, putc (low >>> 24) :: r.2)

/-- The method `Encoder::Flush()`. -/
def Encoder.Flush (e : Encoder) : Encoder × List Byte :=
  let r := flushLoop 4 e.low
  ({ e with low := r.1 }, r.2)

/-- The statement `code=(code<<8)|getc(in)`. -/
def shiftIn (code : Nat) (inp : List Byte) : Nat × List Byte :=
  let g := getc inp
  (((code <<< 8) % W32) ||| toU32 g.1, g.2)

/-- The loop of `Encoder::Init()`, `k` iterations left. -/
def initLoop : Nat → Nat → List Byte → Nat × List Byte
  | 0, code, inp => (code, inp)
  | k + 1, code, inp =>
    let r := shiftIn code inp
    initLoop k r.1 r.2

/-- The method `Encoder::Init()`. -/
def Encoder.Init (e : Encoder) (inp : List Byte) : Encoder × List Byte :=
  let r := initLoop 4 e.code inp
  ({ e with code := r.1 }, r.2)

/-- The renormalisation loop of `DecodeBit` with a fuel bound: returns the new
`code`, `low`, `high` and the rest of the input. -/
def decRenorm : Nat → Nat → Nat → Nat → List Byte → Nat × Nat × Nat × List Byte
  | 0, code, low, high, inp => (code, low, high, inp)
  | fuel + 1, code, low, high, inp =>
    if low ^^^ high < 16777216 then
      let r := shiftIn code inp
      decRenorm fuel r.1 ((low <<< 8) % W32) (((high <<< 8) % W32) ||| 255) r.2
    else (code, low, high, inp)

/-- The method `Encoder::DecodeBit(p)`: the decoded bit, the new state and the
rest of the input. -/
def Encoder.DecodeBit (win64 : Bool) (e : Encoder) (p : Nat) (inp : List Byte) :
    Nat × Encoder × List Byte :=
  let mid := (e.low + split win64 e.low e.high p) % W32
  let bit := if e.code ≤ mid then 1 else 0
  let high := if bit ≠ 0 then mid else e.high
  let low := if bit ≠ 0 then e.low else (mid + 1) % W32
  let r := decRenorm 4 e.code low high inp
  (bit, { code := r.1, low := r.2.1, high := r.2.2.1 }, r.2.2.2)

/-! ## Counter (lines 126-145) -/

/-- The method `Counter<rate>::UpdateBit0` applied to the field `p`. -/
def UpdateBit0 (rate : Nat) (p : Int) : Int := p - (p >>> rate)

/-- The method `Counter<rate>::UpdateBit1` applied to the field `p`. -/
def UpdateBit1 (rate : Nat) (p : Int) : Int := p + ((Int.xor p 65535) >>> rate)

/-- Update of a counter with the observed bit. -/
def updateBit (rate : Nat) (bit : Nat) (p : Int) : Int :=
  if bit ≠ 0 then UpdateBit1 rate p else UpdateBit0 rate p

/-! ## CM (lines 147-264) -/

/-- The fields of `struct CM` (the `Encoder` base is the field `enc`); arrays
are total functions of the index, and the theorems show which indices occur. -/
structure CM where
  enc : Encoder
  counter0 : Nat → Int
  counter1 : Nat → Nat → Int
  counter2 : Nat → Nat → Nat → Int
  c1 : Nat
  c2 : Nat
  run : Nat

/-- The constructor `CM()`: counters of `counter0` and `counter1` start at
`1<<15`, those of `counter2` at `(k-(k==16))<<12`. -/
def CM.new : CM :=
  { enc := Encoder.new
    counter0 := fun _ => 32768
    counter1 := fun _ _ => 32768
    counter2 := fun _ _ k => (((k : Int) - (if k = 16 then 1 else 0)) * 4096)
    c1 := 0
    c2 := 0
    run := 0 }

/-- The locals `p`, `j`, `ssep` computed at the head of the bit loop. -/
structure Mix where
  p : Int
  j : Int
  x1 : Int
  x2 : Int
  ssep : Int
deriving DecidableEq

/-- Lines 183-191 (and 231-239): the mixed estimate and its SSE refinement. -/
def CM.mix (m : CM) (f ctx : Nat) : Mix :=
  let p0 := m.counter0 ctx
  let p1 := m.counter1 m.c1 ctx
  let p2 := m.counter1 m.c2 ctx
  let p := (p0 + p0 + p0 + p0 + p1 + p1 + p1 + p2) >>> (3 : Nat)
  let j := p >>> (12 : Nat)
  let x1 := m.counter2 f ctx j.toNat
  let x2 := m.counter2 f ctx (j + 1).toNat
  let ssep := x1 + (((x2 - x1) * (Int.land p 4095)) >>> (12 : Nat))
  { p := p, j := j, x1 := x1, x2 := x2, ssep := ssep }

/-- The argument `p+ssep+ssep+ssep` handed to the range coder. -/
def Mix.prob (x : Mix) : Int := x.p + x.ssep + x.ssep + x.ssep

/-- Assignment to one cell of a one-dimensional array. -/
def set1 (a : Nat → Int) (i : Nat) (v : Int) : Nat → Int :=
  fun i' => if i' = i then v else a i'

/-- Assignment to one cell of a two-dimensional array. -/
def set2 (a : Nat → Nat → Int) (i j : Nat) (v : Int) : Nat → Nat → Int :=
  fun i' j' => if i' = i ∧ j' = j then v else a i' j'

/-- Assignment to one cell of a three-dimensional array. -/
def set3 (a : Nat → Nat → Nat → Int) (i j k : Nat) (v : Int) : Nat → Nat → Nat → Int :=
  fun i' j' k' => if i' = i ∧ j' = j ∧ k' = k then v else a i' j' k'

/-- The four counter updates of one bit (lines 199-202, 208-211, 245-248,
253-256), in source order. -/
def CM.update (m : CM) (f ctx : Nat) (j : Int) (bit : Nat) : CM :=
  let v0 := updateBit 2 bit (m.counter0 ctx)
  let m1 := { m with counter0 := set1 m.counter0 ctx v0 }
  let v1 := updateBit 4 bit (m1.counter1 m1.c1 ctx)
  let m2 := { m1 with counter1 := set2 m1.counter1 m1.c1 ctx v1 }
  let v2 := updateBit 6 bit (m2.counter2 f ctx j.toNat)
  let m3 := { m2 with counter2 := set3 m2.counter2 f ctx j.toNat v2 }
  let v3 := updateBit 6 bit (m3.counter2 f ctx (j + 1).toNat)
  { m3 with counter2 := set3 m3.counter2 f ctx (j + 1).toNat v3 }

/-- The body of the loop of `CM::Encode` (lines 183-213): returns the new
state, the new `ctx`, the new `c` and the bytes written. The argument `c` is
doubled without reduction; only its bit 7 is read. -/
def CM.encodeStep (win64 : Bool) (m : CM) (f ctx c : Nat) : CM × Nat × Nat × List Byte :=
  let x := m.mix f ctx
  let bit := c &&& 128
  let c := c + c
  if bit ≠ 0 then
    let r := m.enc.EncodeBit1 win64 (toU32 x.prob)
    (({ m with enc := r.1 }).update f ctx x.j 1, ctx + (ctx + 1), c, r.2)
  else
    let r := m.enc.EncodeBit0 win64 (toU32 x.prob)
    (({ m with enc := r.1 }).update f ctx x.j 0, ctx + ctx, c, r.2)

/-- The loop `while (ctx<256)` of `CM::Encode` with a fuel bound: returns the
new state, the final `ctx` and the bytes written. -/
def CM.encodeLoop (win64 : Bool) : Nat → CM → Nat → Nat → Nat → CM × Nat × List Byte
  | 0, m, _, ctx, _ => (m, ctx, [])
  | fuel + 1, m, f, ctx, c =>
    if ctx < 256 then
      let s := m.encodeStep win64 f ctx c
      let r := CM.encodeLoop win64 fuel s.1 f s.2.1 s.2.2.1
      (r.1, r.2.1, s.2.2.2 ++ r.2.2)
    else (m, ctx, [])

/-- The update of `run` at the head of `Encode` and `Decode`. -/
def CM.nextRun (m : CM) : Nat := if m.c1 = m.c2 then m.run + 1 else 0

/-- The value `f=(run>2)` computed at the head of `Encode` and `Decode`. -/
def CM.flag (m : CM) : Nat := if m.nextRun > 2 then 1 else 0

/-- The method `CM::Encode(c)`: new state and the bytes written. -/
def CM.Encode (win64 : Bool) (m : CM) (c : Nat) : CM × List Byte :=
  let s := CM.encodeLoop win64 8 { m with run := m.nextRun } m.flag 1 c
  ({ s.1 with c2 := s.1.c1, c1 := s.2.1 &&& 255 }, s.2.2)

/-- The body of the loop of `CM::Decode` (lines 231-258): returns the new
state, the new `ctx` and the rest of the input. -/
def CM.decodeStep (win64 : Bool) (m : CM) (f ctx : Nat) (inp : List Byte) :
    CM × Nat × List Byte :=
  let x := m.mix f ctx
  let r := m.enc.DecodeBit win64 (toU32 x.prob) inp
  if r.1 ≠ 0 then
    (({ m with enc := r.2.1 }).update f ctx x.j 1, ctx + (ctx + 1), r.2.2)
  else
    (({ m with enc := r.2.1 }).update f ctx x.j 0, ctx + ctx, r.2.2)

/-- The loop `while (ctx<256)` of `CM::Decode` with a fuel bound: returns the
new state, the final `ctx` and the rest of the input. -/
def CM.decodeLoop (win64 : Bool) : Nat → CM → Nat → Nat → List Byte → CM × Nat × List Byte
  | 0, m, _, ctx, inp => (m, ctx, inp)
  | fuel + 1, m, f, ctx, inp =>
    if ctx < 256 then
      let s := m.decodeStep win64 f ctx inp
      CM.decodeLoop win64 fuel s.1 f s.2.1 s.2.2
    else (m, ctx, inp)

/-- The method `CM::Decode()`: the decoded value, the new state and the rest of
the input. -/
def CM.Decode (win64 : Bool) (m : CM) (inp : List Byte) : Nat × CM × List Byte :=
  let s := CM.decodeLoop win64 8 { m with run := m.nextRun } m.flag 1 inp
  (s.2.1 &&& 255, { s.1 with c2 := s.1.c1, c1 := s.2.1 &&& 255 }, s.2.2)

/-! ## compress (lines 268-326) -/

/-- The call `calloc(count, 5)`: `count` is an `int` converted to `size_t`; the
request succeeds when the product `5 * count` does not overflow `size_t`
(64 bits) and fits in the `cap` bytes the allocator can supply. -/
def callocOk (cap : Nat) (count : Int) : Bool :=
  decide (5 * (count % 18446744073709551616).toNat ≤ cap ∧
    5 * (count % 18446744073709551616).toNat < 18446744073709551616)

/-- How `compress` ends. -/
inductive CompressResult where
  | ok (out : List Byte)
  | outOfMemory
  | divbwtFailed (out : List Byte)
deriving DecidableEq

/-- Successive `cm.Encode` calls on a list of arguments: the new state and the
bytes written. -/
def CM.encodeList (win64 : Bool) (m : CM) : List Nat → CM × List Byte
  | [] => (m, [])
  | c :: cs =>
    let r := m.Encode win64 c
    let s := CM.encodeList win64 r.1 cs
    (s.1, r.2 ++ s.2)

/-- The eight header calls `cm.Encode(n>>24)` ... `cm.Encode(idx)` of lines
307-314. -/
def headerArgs (n idx : Nat) : List Nat :=
  [n >>> 24, n >>> 16, n >>> 8, n, idx >>> 24, idx >>> 16, idx >>> 8, idx]

/-- The loop `while ((n=fread(buf, 1, bsize, in))>0)` of `compress` with a fuel
bound: `rest` is the unread part of the input; `divbwt` is the external
transform, returning the rewritten block and the primary index. Returns `none`
when the fuel runs out. -/
def compressLoop (win64 : Bool) (divbwt : List Byte → List Byte × Int) (bsize : Nat) :
    Nat → CM → List Byte → Option (CM × List Byte × Bool)
  | 0, _, _ => none
  | fuel + 1, m, rest =>
    let block := rest.take bsize
    let n := block.length
    if n > 0 then
      let t := divbwt block
      let idx := t.2
      if idx < 1 then some (m, [], false)
      else
        let r := m.encodeList win64 (headerArgs n idx.toNat)
        let d := r.1.encodeList win64 ((t.1.take n).map (fun b => b.val))
        match compressLoop win64 divbwt bsize fuel d.1 (rest.drop bsize) with
        | none => none
        | some s => some (s.1, r.2 ++ d.2 ++ s.2.1, s.2.2)
    else some (m, [], true)

/-- The function `compress(bsize)` on the input file `s`, with fuel for the
block loop. -/
def compressFuel (win64 : Bool) (cap : Nat) (divbwt : List Byte → List Byte × Int)
    (fuel : Nat) (s : List Byte) (bsize : Nat) : Option CompressResult :=
  let flen := s.length
  let bsize := if bsize > flen then flen else bsize
  if !callocOk cap bsize then some CompressResult.outOfMemory
  else
    match compressLoop win64 divbwt bsize fuel CM.new s with
    | none => none
    | some r =>
      if r.2.2 then
        let e := r.1.encodeList win64 [0, 0, 0, 0]
        let fl := e.1.enc.Flush
        some (CompressResult.ok (magic ++ r.2.1 ++ e.2 ++ fl.2))
      else some (CompressResult.divbwtFailed (magic ++ r.2.1))

/-- The function `compress(bsize)`: the block loop runs at most once per input
byte, plus the final empty read. -/
def compress (win64 : Bool) (cap : Nat) (divbwt : List Byte → List Byte × Int)
    (s : List Byte) (bsize : Nat) : Option CompressResult :=
  compressFuel win64 cap divbwt (s.length + 1) s bsize

/-! ## decompress (lines 328-384) -/

/-- How `decompress` ends; `outOfBounds` stands for an access outside `buf`,
`next` or `t`, which the C code would perform unchecked. -/
inductive Outcome where
  | success
  | notBCM
  | outOfMemory
  | corrupt
  | outOfBounds
deriving DecidableEq

/-- The expression `(cm.Decode()<<24)|(cm.Decode()<<16)|(cm.Decode()<<8)|cm.Decode()`
with its operands evaluated left to right; the result is an `int`. -/
def decodeInt (win64 : Bool) (m : CM) (inp : List Byte) : Int × CM × List Byte :=
  let a := m.Decode win64 inp
  let b := a.2.1.Decode win64 a.2.2
  let c := b.2.1.Decode win64 b.2.2
  let d := c.2.1.Decode win64 c.2.2
  (toI32 ((a.1 <<< 24) ||| (b.1 <<< 16) ||| (c.1 <<< 8) ||| d.1), d.2.1, d.2.2)

/-- The memory of one `decompress` run: the capacity `bsize` of `buf` (and of
`next`), and both arrays. -/
structure Mem where
  bsize : Int
  buf : Nat → Nat
  next : Nat → Int

/-- The statement `++t[i]`. -/
def bump (t : Nat → Int) (i : Nat) : Nat → Int :=
  fun x => if x = i then t x + 1 else t x

/-- Lines 371-372: `for (i<n) ++t[(buf[i]=cm.Decode())+1]`, from index `i` for
`k` more iterations; `cap` is the allocated length of `buf`. Returns `none` on
an access out of bounds. -/
def fillLoop (win64 : Bool) (cap : Int) :
    Nat → Nat → CM → List Byte → (Nat → Nat) → (Nat → Int) →
      Option (CM × List Byte × (Nat → Nat) × (Nat → Int))
  | 0, _, m, inp, buf, t => some (m, inp, buf, t)
  | k + 1, i, m, inp, buf, t =>
    let d := m.Decode win64 inp
    if (i : Int) < cap ∧ d.1 + 1 < 257 then
      fillLoop win64 cap k (i + 1) d.2.1 d.2.2
        (fun x => if x = i then d.1 else buf x) (bump t (d.1 + 1))
    else none

/-- Lines 373-374: `for (i=1; i<256; ++i) t[i]+=t[i-1]`, from index `i` for `k`
more iterations. -/
def sumLoop : Nat → Nat → (Nat → Int) → (Nat → Int)
  | 0, _, t => t
  | k + 1, i, t => sumLoop k (i + 1) (fun x => if x = i then t i + t (i - 1) else t x)

/-- Lines 376-377: `for (i<n) next[t[buf[i]]++]=i+(i>=idx)`, from index `i` for
`k` more iterations; `cap` is the allocated length of `buf` and of `next`.
Returns `none` on an access out of bounds. -/
def nextLoop (cap : Int) (idx : Int) :
    Nat → Nat → (Nat → Nat) → (Nat → Int) → (Nat → Int) → Option ((Nat → Int) × (Nat → Int))
  | 0, _, _, t, next => some (t, next)
  | k + 1, i, buf, t, next =>
    let c := buf i
    let q := t c
    if (i : Int) < cap ∧ c < 257 ∧ 0 ≤ q ∧ q < cap then
      nextLoop cap idx k (i + 1) buf (bump t c)
        (fun x => if x = q.toNat then (i : Int) + (if (i : Int) ≥ idx then 1 else 0) else next x)
    else none

/-- Lines 378-382: `for (p=idx; p;) { p=next[p-1]; putc(buf[p-(p>=idx)], out); }`
with a fuel bound. Returns the bytes written; `none` when the fuel runs out,
`some none` on an access out of bounds. -/
def emitLoop (cap : Int) (idx : Int) (buf : Nat → Nat) (next : Nat → Int) :
    Nat → Int → Option (Option (List Byte))
  | 0, p => if p ≠ 0 then none else some (some [])
  | fuel + 1, p =>
    if p ≠ 0 then
      if 0 ≤ p - 1 ∧ p - 1 < cap then
        let p1 := next (p - 1).toNat
        let k := p1 - (if p1 ≥ idx then 1 else 0)
        if 0 ≤ k ∧ k < cap then
          match emitLoop cap idx buf next fuel p1 with
          | none => none
          | some none => some none
          | some (some out) => some (some (putc (buf k.toNat) :: out))
        else some none
      else some none
    else some (some [])

/-- Lines 373-382, the inverse BWT of a block of `n` bytes held in `buf` with
its byte counts in `t`: the new `next` array and the bytes written. Returns
`none` when the fuel of the last loop runs out, `some none` on an access out of
bounds. -/
def inverseBWT (cap : Int) (n : Nat) (idx : Int) (buf : Nat → Nat) (t : Nat → Int)
    (next : Nat → Int) (fuel : Nat) : Option (Option ((Nat → Int) × List Byte)) :=
  match nextLoop cap idx n 0 buf (sumLoop 255 1 t) next with
  | none => some none
  | some nx =>
    match emitLoop cap idx buf nx.2 fuel idx with
    | none => none
    | some none => some none
    | some (some out) => some (some (nx.2, out))

/-- The loop `for (;;)` of `decompress` with a fuel bound: returns the outcome,
the bytes written and the unread rest of the input, or `none` when the fuel
runs out. -/
def decompressLoop (win64 : Bool) (cap : Nat) :
    Nat → CM → List Byte → Mem → Option (Outcome × List Byte × List Byte)
  | 0, _, _, _ => none
  | fuel + 1, m, inp, mem =>
    let hn := decodeInt win64 m inp
    let n := hn.1
    if n = 0 then some (Outcome.success, [], hn.2.2)
    else
      let alloc := decide (mem.bsize = 0)
      if alloc && !callocOk cap n then some (Outcome.outOfMemory, [], hn.2.2)
      else
        let bsize := if alloc then n else mem.bsize
        let hi := decodeInt win64 hn.2.1 hn.2.2
        let idx := hi.1
        if n < 1 ∨ n > bsize ∨ idx < 1 ∨ idx > n then some (Outcome.corrupt, [], hi.2.2)
        else
          match fillLoop win64 bsize n.toNat 0 hi.2.1 hi.2.2 mem.buf (fun _ => 0) with
          | none => some (Outcome.outOfBounds, [], hi.2.2)
          | some fl =>
            match inverseBWT bsize n.toNat idx fl.2.2.1 fl.2.2.2 mem.next fuel with
            | none => none
            | some none => some (Outcome.outOfBounds, [], fl.2.1)
            | some (some iv) =>
              match decompressLoop win64 cap fuel fl.1 fl.2.1
                  { bsize := bsize, buf := fl.2.2.1, next := iv.1 } with
              | none => none
              | some r => some (r.1, iv.2 ++ r.2.1, r.2.2)

/-- The check of the four magic bytes (lines 330-333); `||` stops reading at
the first mismatch. Returns the rest of the input when the magic matches. -/
def checkMagic (inp : List Byte) : Option (List Byte) :=
  let g0 := getc inp
  if g0.1 ≠ 0x42 then none else
  let g1 := getc g0.2
  if g1.1 ≠ 0x43 then none else
  let g2 := getc g1.2
  if g2.1 ≠ 0x4D then none else
  let g3 := getc g2.2
  if g3.1 ≠ 0x31 then none else some g3.2

/-- The function `decompress()` on the input file `inp`, with fuel for its
unbounded loops: the outcome, the bytes written and the unread rest of the
input, or `none` when the fuel runs out. -/
def decompress (win64 : Bool) (cap : Nat) (fuel : Nat) (inp : List Byte) :
    Option (Outcome × List Byte × List Byte) :=
  match checkMagic inp with
  | none => some (Outcome.notBCM, [], inp)
  | some rest =>
    let e := CM.new.enc.Init rest
    decompressLoop win64 cap fuel { CM.new with enc := e.1 } e.2
      { bsize := 0, buf := fun _ => 0, next := fun _ => 0 }

/-- Successive `EncodeBit0`/`EncodeBit1` calls on a list of pairs
(probability, bit): the final state and the bytes written. -/
def encodeBits (win64 : Bool) (e : Encoder) : List (Nat × Nat) → Encoder × List Byte
  | [] => (e, [])
  | x :: rest =>
    let r := if x.2 ≠ 0 then e.EncodeBit1 win64 x.1 else e.EncodeBit0 win64 x.1
    let s := encodeBits win64 r.1 rest
    (s.1, r.2 ++ s.2)

/-- Successive `DecodeBit` calls on a list of probabilities: the decoded bits,
the final state and the rest of the input. -/
def decodeBits (win64 : Bool) (e : Encoder) : List Nat → List Byte → List Nat × Encoder × List Byte
  | [], inp => ([], e, inp)
  | p :: ps, inp =>
    let r := e.DecodeBit win64 p inp
    let s := decodeBits win64 r.2.1 ps r.2.2
    (r.1 :: s.1, s.2.1, s.2.2)

/-- The 32-bit big-endian value of the first four bytes of a stream. -/
def window : List Byte → Nat
  | a :: b :: c :: d :: _ => a.val * 16777216 + b.val * 65536 + c.val * 256 + d.val
  | _ => 0

/-- The interval of a coder between two calls: ordered, 32-bit, top bytes
different. -/
def EncInv (low high : Nat) : Prop :=
  low ≤ high ∧ high < 4294967296 ∧ low / 16777216 ≠ high / 16777216

/-- The bytes a coder in state `e` writes from now on when it codes the pairs
`l` and is flushed. -/
def streamOf (win64 : Bool) (e : Encoder) (l : List (Nat × Nat)) : List Byte :=
  (encodeBits win64 e l).2 ++ ((encodeBits win64 e l).1.Flush).2

/-- A stream that starts with what a coder in state `e` writes for some list of
pairs with 18-bit probabilities, followed by its flush. -/
def Tail (win64 : Bool) (e : Encoder) (S : List Byte) : Prop :=
  ∃ l : List (Nat × Nat), (∀ x ∈ l, x.1 < 262144) ∧ ∃ extra, S = streamOf win64 e l ++ extra

/-- Coding of one bit: `EncodeBit1` for a non-zero bit, `EncodeBit0` otherwise. -/
def encodeBit (win64 : Bool) (e : Encoder) (p b : Nat) : Encoder × List Byte :=
  if b ≠ 0 then e.EncodeBit1 win64 p else e.EncodeBit0 win64 p

/-- Every counter of the model holds a 16-bit value (`counter2` has 17 bins). -/
def CM.Inv (m : CM) : Prop :=
  (∀ i, 0 ≤ m.counter0 i ∧ m.counter0 i ≤ 65535) ∧
  (∀ a i, 0 ≤ m.counter1 a i ∧ m.counter1 a i ≤ 65535) ∧
  (∀ f i k, k ≤ 16 → 0 ≤ m.counter2 f i k ∧ m.counter2 f i k ≤ 65535)

/-- The bounds of the locals of one bit: `p`, `j`, `ssep` and the coder
probability. -/
def MixOk (x : Mix) : Prop :=
  (0 ≤ x.p ∧ x.p ≤ 65535) ∧ (0 ≤ x.j ∧ x.j ≤ 15) ∧
  (min x.x1 x.x2 ≤ x.ssep ∧ x.ssep ≤ max x.x1 x.x2) ∧
  (0 ≤ x.ssep ∧ x.ssep ≤ 65535) ∧ (0 ≤ x.prob ∧ x.prob < 262144)

/-- The states of `CM` that arise from the constructor by `Encode` and `Decode`
calls with any arguments and any input. -/
inductive CM.Reachable (win64 : Bool) : CM → Prop where
  | new : CM.Reachable win64 CM.new
  | encode (m : CM) (c : Nat) : CM.Reachable win64 m → CM.Reachable win64 (m.Encode win64 c).1
  | decode (m : CM) (inp : List Byte) :
      CM.Reachable win64 m → CM.Reachable win64 (m.Decode win64 inp).2.1

/-- The state `m` with the field `code` of its coder replaced: the decoder's
view of an encoder state. -/
def CM.withCode (m : CM) (code : Nat) : CM :=
  { m with enc := { m.enc with code := code } }

/-- The bit at position 7 of the argument of `Encode`, as 0 or 1. -/
def topBit (c : Nat) : Nat := if c &&& 128 ≠ 0 then 1 else 0

/-- The bytes a predictor in state `m` writes from now on when it encodes the
arguments `cs` and is flushed, followed by `extra`. -/
def CM.stream (win64 : Bool) (m : CM) (cs : List Nat) (extra : List Byte) : List Byte :=
  (m.encodeList win64 cs).2 ++ (m.encodeList win64 cs).1.enc.Flush.2 ++ extra

/-- The number of positions below `n` whose byte is less than `c`. -/
def cntLt (buf : Nat → Nat) (n c : Nat) : Nat :=
  ((Finset.range n).filter (fun i => buf i < c)).card

/-- The number of positions below `n` whose byte equals `c`. -/
def cntEq (buf : Nat → Nat) (n c : Nat) : Nat :=
  ((Finset.range n).filter (fun i => buf i = c)).card

/-- The place of position `i` in the stable sort of the block by byte value:
the index at which the loop of lines 376-377 writes for `i`. -/
def sigma (buf : Nat → Nat) (n i : Nat) : Nat :=
  cntLt buf n (buf i) + cntEq buf i (buf i)

/-- The successive values of `p` in the loop of lines 378-382. -/
def emitOrbit (next : Nat → Int) (idx : Int) : Nat → Int
  | 0 => idx
  | j + 1 => next (emitOrbit next idx j - 1).toNat

/-- The index `p-(p>=idx)` at which the loop of lines 378-382 reads `buf`. -/
def emitPos (idx p : Int) : Int := p - (if p ≥ idx then 1 else 0)

/-- What the first three loops of the inverse BWT leave in `next` for a block
of `n` bytes with primary index `idx`: the first `n` entries are distinct
values of `0..n` other than `idx`. -/
def NextOk (next : Nat → Int) (n : Nat) (idx : Int) : Prop :=
  (∀ x, x < n → 0 ≤ next x ∧ next x ≤ n ∧ next x ≠ idx) ∧
  (∀ x y, x < n → y < n → next x = next y → x = y)

/-! ## The forward BWT of the external library -/

/-- The order of two suffixes of `s`, given by their start positions: the
lexicographic order of byte strings, a proper prefix coming first. -/
def suffixLe (s : List Byte) (a b : Nat) : Prop := s.drop a ≤ s.drop b

/-- Decision procedure for the order of suffixes. -/
instance suffixLeDecidable (s : List Byte) : DecidableRel (suffixLe s) :=
  fun a b => inferInstanceAs (Decidable (s.drop a ≤ s.drop b))

/-- The suffix array of `s`: the start positions `0..n-1` sorted by suffix. -/
def suffixArray (s : List Byte) : List Nat :=
  (List.range s.length).insertionSort (suffixLe s)

/-- Modelled from the spec: the forward BWT of libdivsufsort (`divbwt`), which
is not part of the source file. The transformed block is the last byte of `s`
followed by the bytes that precede the sorted suffixes other than the whole
string; the primary index is one more than the rank of the whole string among
the sorted suffixes. -/
def bwtSpec (s : List Byte) : List Byte × Int :=
  (s.getD (s.length - 1) 0 ::
      ((suffixArray s).filter (fun k => decide (k ≠ 0))).map (fun k => s.getD (k - 1) 0),
    (((suffixArray s).indexOf 0 + 1 : Nat) : Int))

/-- The number of non-empty suffixes of `s` that are smaller than the suffix
at `k`. -/
def sufRank (s : List Byte) (k : Nat) : Nat :=
  ((Finset.range s.length).filter (fun j => s.drop j < s.drop k)).card

/-- The row of the suffix at `k` among all suffixes of `s`, the empty suffix
(at `k = n`) included: row 0 is the empty suffix. -/
def sufRow (s : List Byte) (k : Nat) : Nat :=
  if k < s.length then sufRank s k + 1 else 0

/-- The content of `buf` after a block `L` has been stored in it. -/
def bufOf (L : List Byte) : Nat → Nat := fun i => (L.getD i 0).val

/-- The histogram `t` of lines 371-372 for a block `L`. -/
def histogram (L : List Byte) : Nat → Int :=
  L.foldl (fun t c => bump t (c.val + 1)) (fun _ => 0)

/-- The relation between a string and its transformed block in `buf` with
primary index `idx`: `idx` is the row of the whole string, and the byte before
the suffix at `k+1` stands in `buf` at the place of the row of that suffix. -/
def IsBWT (s : List Byte) (buf : Nat → Nat) (idx : Int) : Prop :=
  idx = (sufRow s 0 : Int) ∧
  ∀ k, k < s.length → buf (emitPos idx (sufRow s (k + 1))).toNat = (s.getD k 0).val

/-- The place in `buf` of the byte `s[k]`: the place of the row of the suffix
at `k+1`. -/
def bwtPos (s : List Byte) (k : Nat) : Nat :=
  (emitPos (sufRow s 0 : Int) (sufRow s (k + 1) : Int)).toNat

/-- A decoder that has read past the end of its input: `getc` has returned
`-1`, which fills `code` with ones. -/
def Dead (e : Encoder) (inp : List Byte) : Prop :=
  inp = [] ∧ e.code = 4294967295

/-- Decision procedure for `Dead`. -/
instance deadDecidable (e : Encoder) (inp : List Byte) : Decidable (Dead e inp) :=
  inferInstanceAs (Decidable (inp = [] ∧ e.code = 4294967295))

/-- A bound on the number of bits a decoder can still decode before it has
read past the end of its input: each bit narrows the interval or consumes
input. -/
def decRank (e : Encoder) (inp : List Byte) : Nat :=
  if Dead e inp then 0 else 1 + inp.length * 4294967296 + (e.high - e.low)

/-- A decoder state `d` with input `inp` is in step with an encoder state `m`
that still has the arguments `cs` to encode: same model and interval, `code`
holds the next four bytes the encoder writes, and `inp` is what follows them
(`extra` stands after the encoder's flush). -/
def Sync (win64 : Bool) (d : CM) (inp : List Byte) (m : CM) (cs : List Nat)
    (extra : List Byte) : Prop :=
  m.Inv ∧ EncInv m.enc.low m.enc.high ∧
  d = m.withCode (window (m.stream win64 cs extra)) ∧ inp = (m.stream win64 cs extra).drop 4

/-- The arguments of the `cm.Encode` calls of one block (lines 307-317). -/
def blockArgs (divbwt : List Byte → List Byte × Int) (blk : List Byte) : List Nat :=
  headerArgs blk.length (divbwt blk).2.toNat ++
    ((divbwt blk).1.take blk.length).map (fun b => b.val)

/-- The arguments of all `cm.Encode` calls of `compress` for a list of blocks:
the blocks in order, then four zeros. -/
def frameArgs (divbwt : List Byte → List Byte × Int) : List (List Byte) → List Nat
  | [] => [0, 0, 0, 0]
  | blk :: rest => blockArgs divbwt blk ++ frameArgs divbwt rest

/-- The consecutive chunks of `b` bytes of a string, the last one possibly
shorter; `k` bounds the number of chunks. -/
def chunks (b : Nat) : Nat → List Byte → List (List Byte)
  | 0, _ => []
  | k + 1, l => if l = [] then [] else l.take b :: chunks b k (l.drop b)

/-- The blocks into which `compress` cuts its input: chunks of
`min(bsize, |s|)` bytes. -/
def blocksOf (s : List Byte) (bsize : Nat) : List (List Byte) :=
  chunks (min bsize s.length) s.length s

/-- Fuel that is enough for `decompress` on the input `inp`. -/
def fuelFor (inp : List Byte) : Nat :=
  (inp.length + 1) * 4294967296 + 2147483648

/-- The four big-endian bytes of a 32-bit value. -/
def bigEndian (n : Nat) : List Nat :=
  [n / 16777216 % 256, n / 65536 % 256, n / 256 % 256, n % 256]

/-- The bytes that frame one block: the big-endian bytes of its length `n`,
the big-endian bytes of its primary index, and its `n` transformed bytes. -/
def blockBytes (divbwt : List Byte → List Byte × Int) (blk : List Byte) : List Nat :=
  bigEndian blk.length ++ bigEndian (divbwt blk).2.toNat ++
    ((divbwt blk).1.take blk.length).map (fun b => b.val)

/-- The byte sequence that frames a list of blocks: the blocks in order, then
four zero bytes. -/
def frameBytes (divbwt : List Byte → List Byte × Int) : List (List Byte) → List Nat
  | [] => [0, 0, 0, 0]
  | blk :: rest => blockBytes divbwt blk ++ frameBytes divbwt rest

/-- The arguments of the `cm.Encode` calls inside the block loop of `compress`
for a list of blocks. -/
def dataArgs (divbwt : List Byte → List Byte × Int) : List (List Byte) → List Nat
  | [] => []
  | blk :: rest => blockArgs divbwt blk ++ dataArgs divbwt rest

/-- The field `code` of a decoder that reads the stream `S` without its last
byte, when `S` is what the encoder still writes: the next four bytes, or all
ones once `getc` has returned -1 in place of the missing byte. -/
def twindow (S : List Byte) : Nat :=
  if 5 ≤ S.length then window S else 4294967295

/-- The unread input of a decoder that reads the stream `S` without its last
byte, when `S` is what the encoder still writes. -/
def tinput (S : List Byte) : List Byte := (S.drop 4).dropLast

/-- A decoder state `d` with input `inp` that reads the stream of an encoder
in state `m` (which still has the arguments `cs` to encode) without its last
byte, and has followed the encoder so far. -/
def TSync (win64 : Bool) (d : CM) (inp : List Byte) (m : CM) (cs : List Nat) : Prop :=
  m.Inv ∧ EncInv m.enc.low m.enc.high ∧
  d = m.withCode (twindow (m.stream win64 cs [])) ∧ inp = tinput (m.stream win64 cs [])

/-- A decoder state that has read past the end of its input. -/
def PastEnd (d : CM) (inp : List Byte) : Prop :=
  d.Inv ∧ EncInv d.enc.low d.enc.high ∧ decRank d.enc inp = 0

/-- A sequence of `UpdateBit0`/`UpdateBit1` calls on one counter of rate
`rate`, one call per element of `bits` (`UpdateBit1` for a non-zero element),
starting from the value `p`. -/
def updates (rate : Nat) (bits : List Nat) (p : Int) : Int :=
  bits.foldl (fun q b => updateBit rate b q) p

/-- The states of an `Encoder` that arise from the constructor by `Init`,
`EncodeBit0`, `EncodeBit1` and `DecodeBit` calls with probabilities below
`2^18` and any input. -/
inductive Encoder.Reachable (win64 : Bool) : Encoder → Prop where
  | new : Encoder.Reachable win64 Encoder.new
  | init (e : Encoder) (inp : List Byte) :
      Encoder.Reachable win64 e → Encoder.Reachable win64 (e.Init inp).1
  | bit0 (e : Encoder) (p : Nat) : p < 262144 →
      Encoder.Reachable win64 e → Encoder.Reachable win64 (e.EncodeBit0 win64 p).1
  | bit1 (e : Encoder) (p : Nat) : p < 262144 →
      Encoder.Reachable win64 e → Encoder.Reachable win64 (e.EncodeBit1 win64 p).1
  | decode (e : Encoder) (p : Nat) (inp : List Byte) : p < 262144 →
      Encoder.Reachable win64 e → Encoder.Reachable win64 (e.DecodeBit win64 p inp).2.1

/-- The bit that `DecodeBit` returns in the loop body of `Decode`, in state `d`
with context `ctx` on the input `inp`. -/
def CM.decodedBit (win64 : Bool) (d : CM) (f ctx : Nat) (inp : List Byte) : Nat :=
  (d.enc.DecodeBit win64 (toU32 (d.mix f ctx).prob) inp).1

/-- Two states of `CM` with the same model: all counters, `c1`, `c2` and
`run` agree (the coder fields may differ). -/
def CM.SameModel (a b : CM) : Prop :=
  a.counter0 = b.counter0 ∧ a.counter1 = b.counter1 ∧ a.counter2 = b.counter2 ∧
  a.c1 = b.c1 ∧ a.c2 = b.c2 ∧ a.run = b.run

/-- Successive `Decode` calls, `n` of them: the values returned, the final
state and the rest of the input. -/
def CM.decodeList (win64 : Bool) : Nat → CM → List Byte → List Nat × CM × List Byte
  | 0, d, inp => ([], d, inp)
  | n + 1, d, inp =>
    let r := d.Decode win64 inp
    let s := CM.decodeList win64 n r.2.1 r.2.2
    (r.1 :: s.1, s.2.1, s.2.2)

/-- The byte value `b_i` of a session in which the values `cs` are coded: the
low eight bits of `cs[i]`, and 0 for `i < 0`. -/
def byteAt (cs : List Nat) (i : Int) : Nat :=
  if i < 0 then 0 else cs.getD i.toNat 0 % 256

/-- The number of consecutive most recent byte starts `k, k-1, ...` (at most
`k + 1` of them) at which `c1 = c2` held, that is `b_(j-1) = b_(j-2)` at the
start of byte `j`. -/
def runCount (cs : List Nat) (k : Nat) : Nat :=
  ((List.range (k + 1)).takeWhile
    (fun (i : Nat) =>
      decide (byteAt cs ((k : Int) - (i : Int) - 1) = byteAt cs ((k : Int) - (i : Int) - 2)))).length

/-- The order of suffixes is total. -/
instance suffixLe_total (s : List Byte) : IsTotal Nat (suffixLe s) :=
  ⟨fun a b => le_total (s.drop a) (s.drop b)⟩

/-- The order of suffixes is transitive. -/
instance suffixLe_trans (s : List Byte) : IsTrans Nat (suffixLe s) :=
  ⟨fun _ _ _ h1 h2 => le_trans h1 h2⟩

/-! ## Bit-level arithmetic -/

theorem xor_lt_iff (a b k : Nat) : a ^^^ b < 2 ^ k ↔ a / 2 ^ k = b / 2 ^ k := by
  constructor
  · intro h
    apply Nat.eq_of_testBit_eq
    intro i
    have h1 : (a ^^^ b).testBit (k + i) = false :=
      Nat.testBit_lt_two_pow (lt_of_lt_of_le h (Nat.pow_le_pow_right (by norm_num) (by omega)))
    rw [Nat.testBit_xor] at h1
    rw [← Nat.shiftRight_eq_div_pow, ← Nat.shiftRight_eq_div_pow, Nat.testBit_shiftRight,
      Nat.testBit_shiftRight]
    revert h1
    cases a.testBit (k + i) <;> cases b.testBit (k + i) <;> simp
  · intro h
    apply Nat.lt_pow_two_of_testBit
    intro i hi
    have h2 : (a / 2 ^ k).testBit (i - k) = (b / 2 ^ k).testBit (i - k) := by rw [h]
    rw [← Nat.shiftRight_eq_div_pow, ← Nat.shiftRight_eq_div_pow, Nat.testBit_shiftRight,
      Nat.testBit_shiftRight] at h2
    have h3 : k + (i - k) = i := by omega
    rw [h3] at h2
    rw [Nat.testBit_xor, h2]
    simp

theorem renorm_cond (a b : Nat) : a ^^^ b < 16777216 ↔ a / 16777216 = b / 16777216 :=
  xor_lt_iff a b 24

theorem or_255 (x : Nat) : ((x <<< 8) % W32) ||| 255 = (x * 256) % 4294967296 + 255 := by
  have h1 : (x <<< 8) % W32 = 2 ^ 8 * (x % 16777216) := by
    simp only [Nat.shiftLeft_eq, W32]
    omega
  rw [h1, ← Nat.mul_add_lt_is_or (by norm_num : 255 < 2 ^ 8)]
  omega

theorem or_byte (x b : Nat) (hb : b < 256) :
    ((x <<< 8) % W32) ||| b = (x * 256) % 4294967296 + b := by
  have h1 : (x <<< 8) % W32 = 2 ^ 8 * (x % 16777216) := by
    simp only [Nat.shiftLeft_eq, W32]
    omega
  rw [h1, ← Nat.mul_add_lt_is_or (by simpa using hb)]
  omega

theorem or_ones (x : Nat) (hx : x < 4294967296) : x ||| 4294967295 = 4294967295 := by
  apply Nat.eq_of_testBit_eq
  intro i
  rw [Nat.testBit_or]
  have h : (4294967295 : Nat) = 2 ^ 32 - 1 := by norm_num
  rw [h, Nat.testBit_two_pow_sub_one]
  by_cases hi : i < 32
  · simp [hi]
  · have : x.testBit i = false :=
      Nat.testBit_lt_two_pow (lt_of_lt_of_le hx (by
        have : (4294967296 : Nat) = 2 ^ 32 := by norm_num
        rw [this]; exact Nat.pow_le_pow_right (by norm_num) (by omega)))
    simp [hi, this]

theorem shl8 (x : Nat) : (x <<< 8) % W32 = (x * 256) % 4294967296 := by
  simp [Nat.shiftLeft_eq, W32]

theorem shr24 (x : Nat) : x >>> 24 = x / 16777216 := by
  simp [Nat.shiftRight_eq_div_pow]

theorem toU32_neg_one : toU32 (-1) = 4294967295 := by decide

theorem toU32_ofNat (b : Nat) (hb : b < 4294967296) : toU32 (b : Int) = b := by
  unfold toU32
  omega

theorem putc_val (x : Nat) (hx : x < 256) : (putc x).val = x := by
  unfold putc
  simp [Fin.ofNat, Nat.mod_eq_of_lt hx]

/-! ## The split point -/

theorem splitWin64_eq (low high p : Nat) (hl : low ≤ high) (hh : high < 4294967296)
    (hp : p < 262144) : splitWin64 low high p = (high - low) * p / 262144 := by
  unfold splitWin64 W32 W64
  have h1 : (high + 4294967296 - low) % 4294967296 = high - low := by omega
  rw [h1, Nat.shiftRight_eq_div_pow]
  have h2 : (high - low) * p < 4294967296 * 262144 :=
    Nat.mul_lt_mul'' (by omega) hp
  rw [Nat.mod_eq_of_lt (by omega)]

theorem split32_eq (low high p : Nat) (hl : low ≤ high) (hh : high < 4294967296)
    (hp : p < 262144) : split32 low high p = (high - low) * p / 262144 := by
  unfold split32 W32 W64
  have h1 : (high + 4294967296 - low) % 4294967296 = high - low := by omega
  have h3 : (p <<< 14) % 4294967296 = p * 16384 := by
    rw [Nat.shiftLeft_eq]; omega
  rw [h1, h3, Nat.shiftRight_eq_div_pow]
  have h2 : (high - low) * p < 4294967296 * 262144 :=
    Nat.mul_lt_mul'' (by omega) hp
  have h4 : (high - low) * (p * 16384) = (high - low) * p * 16384 := by ring
  rw [h4, Nat.mod_eq_of_lt (by omega)]
  have h5 : (2 : Nat) ^ 32 = 262144 * 16384 := by norm_num
  rw [h5, Nat.mul_div_mul_right _ _ (by norm_num)]

theorem split_eq (w : Bool) (low high p : Nat) (hl : low ≤ high) (hh : high < 4294967296)
    (hp : p < 262144) : split w low high p = (high - low) * p / 262144 := by
  unfold split
  cases w
  · simp [split32_eq low high p hl hh hp]
  · simp [splitWin64_eq low high p hl hh hp]

theorem split_le (w : Bool) (low high p : Nat) (hl : low ≤ high) (hh : high < 4294967296)
    (hp : p < 262144) : split w low high p ≤ high - low := by
  rw [split_eq w low high p hl hh hp]
  apply Nat.div_le_of_le_mul
  calc (high - low) * p ≤ (high - low) * 262144 := Nat.mul_le_mul_left _ (by omega)
    _ = 262144 * (high - low) := by ring

theorem split_lt (w : Bool) (low high p : Nat) (hl : low < high) (hh : high < 4294967296)
    (hp : p < 262144) : split w low high p < high - low := by
  rw [split_eq w low high p (by omega) hh hp]
  apply Nat.div_lt_of_lt_mul
  calc (high - low) * p < (high - low) * 262144 :=
        Nat.mul_lt_mul_of_pos_left hp (by omega)
    _ = 262144 * (high - low) := by ring

theorem or_255_mod (x : Nat) :
    (x * 256 % 4294967296) ||| 255 = x * 256 % 4294967296 + 255 := by
  rw [← or_255, shl8]

theorem or_byte_mod (x b : Nat) (hb : b < 256) :
    (x * 256 % 4294967296) ||| b = x * 256 % 4294967296 + b := by
  rw [← or_byte x b hb, shl8]

theorem encRenorm_zero (low high : Nat) : encRenorm 0 low high = (low, high, []) := rfl

theorem decRenorm_zero (code low high : Nat) (inp : List Byte) :
    decRenorm 0 code low high inp = (code, low, high, inp) := rfl

theorem encRenorm_succ (k low high : Nat) :
    encRenorm (k + 1) low high =
      if low / 16777216 = high / 16777216 then
        ((encRenorm k (low * 256 % 4294967296) (high * 256 % 4294967296 + 255)).1,
         (encRenorm k (low * 256 % 4294967296) (high * 256 % 4294967296 + 255)).2.1,
         putc (low / 16777216) ::
           (encRenorm k (low * 256 % 4294967296) (high * 256 % 4294967296 + 255)).2.2)
      else (low, high, []) := by
  rw [encRenorm]
  simp only [renorm_cond, shl8, or_255_mod, shr24]

theorem decRenorm_succ (k code low high : Nat) (inp : List Byte) :
    decRenorm (k + 1) code low high inp =
      if low / 16777216 = high / 16777216 then
        decRenorm k (shiftIn code inp).1 (low * 256 % 4294967296)
          (high * 256 % 4294967296 + 255) (shiftIn code inp).2
      else (code, low, high, inp) := by
  rw [decRenorm]
  simp only [renorm_cond, shl8, or_255_mod]

theorem encRenorm_inv (low high : Nat) (h1 : low ≤ high) (h2 : high < 4294967296) :
    EncInv (encRenorm 4 low high).1 (encRenorm 4 low high).2.1 := by
  unfold EncInv
  simp only [encRenorm_succ, encRenorm_zero]
  split_ifs <;> simp only <;> omega

theorem decRenorm_inv (code low high : Nat) (inp : List Byte) (h1 : low ≤ high)
    (h2 : high < 4294967296) :
    EncInv (decRenorm 4 code low high inp).2.1 (decRenorm 4 code low high inp).2.2.1 := by
  unfold EncInv
  simp only [decRenorm_succ, decRenorm_zero]
  split_ifs <;> simp only <;> omega

theorem window_cons5 (a b c d x : Byte) (rest : List Byte) :
    shiftIn (window (a :: b :: c :: d :: x :: rest)) (x :: rest) =
      (window (b :: c :: d :: x :: rest), rest) := by
  unfold shiftIn getc window
  simp only
  rw [shl8, toU32_ofNat _ (by omega), or_byte_mod _ _ x.isLt]
  have := a.isLt
  have := b.isLt
  have := c.isLt
  have := d.isLt
  congr 1
  omega

theorem window_lt (S : List Byte) : window S < 4294967296 := by
  unfold window
  split
  · rename_i a b c d _
    have := a.isLt
    have := b.isLt
    have := c.isLt
    have := d.isLt
    omega
  · norm_num

theorem flush_stream (low : Nat) (h : low < 4294967296) (extra : List Byte) :
    window ((flushLoop 4 low).2 ++ extra) = low ∧ (flushLoop 4 low).2.length = 4 := by
  simp only [flushLoop, shl8, shr24, List.cons_append, List.nil_append, window, List.length_cons,
    List.length_nil]
  refine ⟨?_, trivial⟩
  rw [putc_val _ (by omega), putc_val _ (by omega), putc_val _ (by omega), putc_val _ (by omega)]
  omega

/-- Renormalisation turns a bound on the window of the later stream into a
bound on the window of the stream that starts with the bytes it writes. -/
theorem encRenorm_window (k : Nat) : ∀ (l1 h1 : Nat) (S2 : List Byte),
    l1 ≤ h1 → h1 < 4294967296 → 4 ≤ S2.length →
    (encRenorm k l1 h1).1 ≤ window S2 → window S2 ≤ (encRenorm k l1 h1).2.1 →
    l1 ≤ window ((encRenorm k l1 h1).2.2 ++ S2) ∧
      window ((encRenorm k l1 h1).2.2 ++ S2) ≤ h1 := by
  induction k with
  | zero =>
    intro l1 h1 S2 _ _ _ ha hb
    simp only [encRenorm_zero, List.nil_append] at *
    exact ⟨ha, hb⟩
  | succ k ih =>
    intro l1 h1 S2 hle hh hlen ha hb
    rw [encRenorm_succ] at ha hb ⊢
    by_cases hc : l1 / 16777216 = h1 / 16777216
    · simp only [hc, if_true] at ha hb ⊢
      have ih2 := ih (l1 * 256 % 4294967296) (h1 * 256 % 4294967296 + 255) S2
        (by omega) (by omega) hlen ha hb
      set T := (encRenorm k (l1 * 256 % 4294967296) (h1 * 256 % 4294967296 + 255)).2.2 ++ S2
        with hT
      have hTlen : 4 ≤ T.length := by
        rw [hT, List.length_append]; omega
      rw [List.cons_append]
      rw [← hT]
      match T, hTlen with
      | a :: b :: c :: d :: rest, _ =>
        have e1 : window (putc (h1 / 16777216) :: a :: b :: c :: d :: rest) =
            (h1 / 16777216) * 16777216 + window (a :: b :: c :: d :: rest) / 256 := by
          simp only [window]
          rw [putc_val _ (by omega)]
          have := a.isLt
          have := b.isLt
          have := c.isLt
          have := d.isLt
          omega
        rw [e1]
        omega
    · simp only [hc, if_false, List.nil_append] at ha hb ⊢
      exact ⟨ha, hb⟩

/-- The decoder's renormalisation follows the encoder's: it shifts in exactly
the bytes the encoder wrote. -/
theorem decRenorm_sync (k : Nat) : ∀ (l1 h1 : Nat) (S2 : List Byte),
    4 ≤ S2.length →
    decRenorm k (window ((encRenorm k l1 h1).2.2 ++ S2)) l1 h1
        (((encRenorm k l1 h1).2.2 ++ S2).drop 4) =
      (window S2, (encRenorm k l1 h1).1, (encRenorm k l1 h1).2.1, S2.drop 4) := by
  induction k with
  | zero =>
    intro l1 h1 S2 _
    simp [encRenorm_zero, decRenorm_zero]
  | succ k ih =>
    intro l1 h1 S2 hlen
    rw [encRenorm_succ, decRenorm_succ]
    by_cases hc : l1 / 16777216 = h1 / 16777216
    · simp only [hc, if_true]
      have ih2 := ih (l1 * 256 % 4294967296) (h1 * 256 % 4294967296 + 255) S2 hlen
      set T := (encRenorm k (l1 * 256 % 4294967296) (h1 * 256 % 4294967296 + 255)).2.2 ++ S2
        with hT
      have hTlen : 4 ≤ T.length := by
        rw [hT, List.length_append]; omega
      rw [List.cons_append, ← hT]
      match T, hTlen, ih2 with
      | a :: b :: c :: d :: rest, _, ih2 =>
        simp only [List.drop_succ_cons, List.drop_zero] at ih2 ⊢
        rw [window_cons5]
        exact ih2
    · simp only [hc, if_false, List.nil_append]

theorem encodeBit_pos (w : Bool) (e : Encoder) (p b : Nat) (hb : b ≠ 0) :
    encodeBit w e p b = e.EncodeBit1 w p := by
  rw [encodeBit, if_pos hb]

theorem encodeBit_neg (w : Bool) (e : Encoder) (p b : Nat) (hb : ¬ b ≠ 0) :
    encodeBit w e p b = e.EncodeBit0 w p := by
  rw [encodeBit, if_neg hb]

theorem encodeBits_cons (w : Bool) (e : Encoder) (x : Nat × Nat) (rest : List (Nat × Nat)) :
    encodeBits w e (x :: rest) =
      ((encodeBits w (encodeBit w e x.1 x.2).1 rest).1,
        (encodeBit w e x.1 x.2).2 ++ (encodeBits w (encodeBit w e x.1 x.2).1 rest).2) := by
  simp only [encodeBits, encodeBit]

theorem encInv_lt {low high : Nat} (h : EncInv low high) : low < high := by
  obtain ⟨h1, _, h3⟩ := h
  rcases Nat.lt_or_ge low high with h | h
  · exact h
  · exfalso; apply h3; have : low = high := by omega
    rw [this]

theorem encodeBit_inv (w : Bool) (e : Encoder) (p b : Nat)
    (hinv : EncInv e.low e.high) (hp : p < 262144) :
    EncInv (encodeBit w e p b).1.low (encodeBit w e p b).1.high := by
  have hlt := encInv_lt hinv
  obtain ⟨h1, h2, h3⟩ := hinv
  have hd := split_lt w e.low e.high p hlt h2 hp
  by_cases hb : b ≠ 0
  · rw [encodeBit_pos w e p b hb]
    simp only [Encoder.EncodeBit1, W32]
    apply encRenorm_inv <;> omega
  · rw [encodeBit_neg w e p b hb]
    simp only [Encoder.EncodeBit0, W32]
    apply encRenorm_inv <;> omega

theorem encodeBit_code (w : Bool) (e : Encoder) (p b : Nat) :
    (encodeBit w e p b).1.code = e.code := by
  by_cases hb : b ≠ 0
  · rw [encodeBit_pos w e p b hb]
    simp only [Encoder.EncodeBit1]
  · rw [encodeBit_neg w e p b hb]
    simp only [Encoder.EncodeBit0]

/-- The stream written from a bit on has its window on the side of the split
point that the bit selects. -/
theorem encodeBit_window (w : Bool) (e : Encoder) (p b : Nat) (S2 : List Byte)
    (hinv : EncInv e.low e.high) (hp : p < 262144) (hlen : 4 ≤ S2.length)
    (ia : (encodeBit w e p b).1.low ≤ window S2) (ib : window S2 ≤ (encodeBit w e p b).1.high) :
    e.low ≤ window ((encodeBit w e p b).2 ++ S2) ∧
      window ((encodeBit w e p b).2 ++ S2) ≤ e.high ∧
      (b ≠ 0 → window ((encodeBit w e p b).2 ++ S2) ≤ e.low + split w e.low e.high p) ∧
      (¬ b ≠ 0 → e.low + split w e.low e.high p < window ((encodeBit w e p b).2 ++ S2)) := by
  have hlt := encInv_lt hinv
  obtain ⟨h1, h2, h3⟩ := hinv
  have hd := split_lt w e.low e.high p hlt h2 hp
  revert ia ib
  by_cases hb : b ≠ 0
  · rw [encodeBit_pos w e p b hb]
    simp only [Encoder.EncodeBit1, W32]
    intro ia ib
    have := encRenorm_window 4 e.low ((e.low + split w e.low e.high p) % 4294967296) S2
      (by omega) (by omega) hlen ia ib
    refine ⟨by omega, by omega, fun _ => by omega, fun h => absurd hb h⟩
  · rw [encodeBit_neg w e p b hb]
    simp only [Encoder.EncodeBit0, W32]
    intro ia ib
    have := encRenorm_window 4 ((e.low + (split w e.low e.high p + 1)) % 4294967296)
      e.high S2 (by omega) (by omega) hlen ia ib
    refine ⟨by omega, by omega, fun h => absurd h hb, fun _ => by omega⟩

/-- The window of any later stream of a coder lies in its interval. -/
theorem tail_window (w : Bool) (l : List (Nat × Nat)) : ∀ (e : Encoder) (extra : List Byte),
    EncInv e.low e.high → (∀ x ∈ l, x.1 < 262144) →
    e.low ≤ window (streamOf w e l ++ extra) ∧ window (streamOf w e l ++ extra) ≤ e.high ∧
      4 ≤ (streamOf w e l ++ extra).length := by
  induction l with
  | nil =>
    intro e extra hinv _
    obtain ⟨h1, h2, h3⟩ := hinv
    have hf := flush_stream e.low (by omega) extra
    simp only [streamOf, encodeBits, Encoder.Flush, List.nil_append, List.length_append]
    rw [hf.1, hf.2]
    omega
  | cons x rest ih =>
    intro e extra hinv hp
    have hpx : x.1 < 262144 := hp x (List.mem_cons_self _ _)
    have hinv2 := encodeBit_inv w e x.1 x.2 hinv hpx
    have ih2 := ih (encodeBit w e x.1 x.2).1 extra hinv2
      (fun y hy => hp y (List.mem_cons_of_mem _ hy))
    have hS : streamOf w e (x :: rest) ++ extra =
        (encodeBit w e x.1 x.2).2 ++ (streamOf w (encodeBit w e x.1 x.2).1 rest ++ extra) := by
      simp only [streamOf, encodeBits_cons, List.append_assoc]
    rw [hS]
    obtain ⟨ia, ib, ic⟩ := ih2
    have := encodeBit_window w e x.1 x.2 _ hinv hpx ic ia ib
    refine ⟨this.1, this.2.1, ?_⟩
    rw [List.length_append]; omega

theorem tail_bounds (w : Bool) (e : Encoder) (S : List Byte)
    (hinv : EncInv e.low e.high) (ht : Tail w e S) :
    e.low ≤ window S ∧ window S ≤ e.high ∧ 4 ≤ S.length := by
  obtain ⟨l, hl, extra, rfl⟩ := ht
  exact tail_window w l e extra hinv hl

theorem tail_cons (w : Bool) (e : Encoder) (p b : Nat) (S2 : List Byte) (hp : p < 262144)
    (ht : Tail w (encodeBit w e p b).1 S2) : Tail w e ((encodeBit w e p b).2 ++ S2) := by
  obtain ⟨l, hl, extra, rfl⟩ := ht
  refine ⟨(p, b) :: l, ?_, extra, ?_⟩
  · intro x hx
    rcases List.mem_cons.mp hx with h | h
    · rw [h]; exact hp
    · exact hl x h
  · simp only [streamOf, encodeBits_cons, List.append_assoc]

theorem tail_flush (w : Bool) (e : Encoder) (extra : List Byte) :
    Tail w e (e.Flush.2 ++ extra) :=
  ⟨[], by simp, extra, by simp [streamOf, encodeBits]⟩

/-- One decoded bit: a decoder whose interval is the encoder's and whose code
is the window of the stream the encoder writes returns the coded bit and stays
in step. -/
theorem decodeBit_sync (w : Bool) (e : Encoder) (p b : Nat) (S2 : List Byte)
    (hinv : EncInv e.low e.high) (hp : p < 262144)
    (ht : Tail w (encodeBit w e p b).1 S2) :
    Encoder.DecodeBit w { code := window ((encodeBit w e p b).2 ++ S2), low := e.low, high := e.high }
        p (((encodeBit w e p b).2 ++ S2).drop 4) =
      ((if b ≠ 0 then 1 else 0),
        { code := window S2, low := (encodeBit w e p b).1.low, high := (encodeBit w e p b).1.high },
        S2.drop 4) := by
  have hinv2 := encodeBit_inv w e p b hinv hp
  obtain ⟨ia, ib, ic⟩ := tail_bounds w _ S2 hinv2 ht
  have hwin := encodeBit_window w e p b S2 hinv hp ic ia ib
  have hlt := encInv_lt hinv
  obtain ⟨h1, h2, h3⟩ := hinv
  have hd := split_lt w e.low e.high p hlt h2 hp
  have hm : (e.low + split w e.low e.high p) % 4294967296 = e.low + split w e.low e.high p := by
    omega
  revert hwin
  by_cases hb : b ≠ 0
  · rw [encodeBit_pos w e p b hb, if_pos hb]
    simp only [Encoder.EncodeBit1, W32, Encoder.DecodeBit, hm]
    intro hwin
    have hs := decRenorm_sync 4 e.low (e.low + split w e.low e.high p) S2 ic
    have hle := hwin.2.2.1 hb
    simp only [hle, if_true, ne_eq, one_ne_zero, not_false_eq_true]
    rw [hs]
  · rw [encodeBit_neg w e p b hb, if_neg hb]
    simp only [Encoder.EncodeBit0, W32, Encoder.DecodeBit]
    have hm1 : (e.low + (split w e.low e.high p + 1)) % 4294967296 =
        e.low + split w e.low e.high p + 1 := by
      omega
    simp only [hm1, hm]
    have hm2 : (e.low + split w e.low e.high p + 1) % 4294967296 =
        e.low + split w e.low e.high p + 1 := by
      omega
    simp only [hm2]
    intro hwin
    have hs := decRenorm_sync 4 (e.low + split w e.low e.high p + 1) e.high S2 ic
    have hn : ¬ (window ((encRenorm 4 (e.low + split w e.low e.high p + 1) e.high).2.2 ++ S2)
        ≤ e.low + split w e.low e.high p) := by
      have := hwin.2.2.2 hb
      omega
    simp only [hn, if_false, ne_eq, not_true_eq_false]
    rw [hs]

theorem init_window (S : List Byte) (h : 4 ≤ S.length) :
    Encoder.new.Init S = ({ code := window S, low := 0, high := 4294967295 }, S.drop 4) := by
  match S, h with
  | a :: b :: c :: d :: rest, _ =>
    simp only [Encoder.Init, Encoder.new, initLoop, shiftIn, getc, List.drop_succ_cons,
      List.drop_zero, window, shl8]
    rw [toU32_ofNat _ (by have := a.isLt; omega), toU32_ofNat _ (by have := b.isLt; omega),
      toU32_ofNat _ (by have := c.isLt; omega), toU32_ofNat _ (by have := d.isLt; omega)]
    rw [or_byte_mod _ _ a.isLt, or_byte_mod _ _ b.isLt, or_byte_mod _ _ c.isLt,
      or_byte_mod _ _ d.isLt]
    have := a.isLt
    have := b.isLt
    have := c.isLt
    have := d.isLt
    congr 2
    omega

theorem encInv_new : EncInv Encoder.new.low Encoder.new.high := by
  unfold EncInv Encoder.new
  decide

theorem flush_drop (e : Encoder) (extra : List Byte) : (e.Flush.2 ++ extra).drop 4 = extra := by
  simp [Encoder.Flush, flushLoop]

theorem flush_window (e : Encoder) (extra : List Byte) (h : e.low < 4294967296) :
    window (e.Flush.2 ++ extra) = e.low := by
  simp only [Encoder.Flush]
  exact (flush_stream e.low h extra).1

/-- Decoding follows encoding: from states in step, the decoder returns the
coded bits, ends in step with the encoder and has read the whole stream. -/
theorem decodeBits_sync (w : Bool) (l : List (Nat × Nat)) : ∀ (e : Encoder) (extra : List Byte),
    EncInv e.low e.high → (∀ x ∈ l, x.1 < 262144 ∧ x.2 ≤ 1) →
    decodeBits w { code := window (streamOf w e l ++ extra), low := e.low, high := e.high }
        (l.map Prod.fst) ((streamOf w e l ++ extra).drop 4) =
      (l.map Prod.snd,
        { code := (encodeBits w e l).1.low, low := (encodeBits w e l).1.low,
          high := (encodeBits w e l).1.high }, extra) := by
  induction l with
  | nil =>
    intro e extra hinv _
    simp only [decodeBits, List.map_nil, streamOf, encodeBits, List.nil_append]
    rw [flush_drop, flush_window e extra (by have := hinv.2.1; have := hinv.1; omega)]
  | cons x rest ih =>
    intro e extra hinv hl
    have hx := hl x (List.mem_cons_self _ _)
    have hrest : ∀ y ∈ rest, y.1 < 262144 ∧ y.2 ≤ 1 := fun y hy => hl y (List.mem_cons_of_mem _ hy)
    have hinv2 := encodeBit_inv w e x.1 x.2 hinv hx.1
    have hS : streamOf w e (x :: rest) ++ extra =
        (encodeBit w e x.1 x.2).2 ++ (streamOf w (encodeBit w e x.1 x.2).1 rest ++ extra) := by
      simp only [streamOf, encodeBits_cons, List.append_assoc]
    have ht : Tail w (encodeBit w e x.1 x.2).1
        (streamOf w (encodeBit w e x.1 x.2).1 rest ++ extra) :=
      ⟨rest, fun y hy => (hrest y hy).1, extra, rfl⟩
    have hstep := decodeBit_sync w e x.1 x.2 _ hinv hx.1 ht
    have ih2 := ih (encodeBit w e x.1 x.2).1 extra hinv2 hrest
    rw [hS]
    simp only [List.map_cons, decodeBits]
    rw [hstep]
    simp only
    rw [ih2, encodeBits_cons]
    have hb : (if x.2 ≠ 0 then 1 else 0) = x.2 := by
      have := hx.2
      by_cases h0 : x.2 = 0
      · simp [h0]
      · have : x.2 = 1 := by omega
        simp [this]
    rw [hb]

theorem nat_xor_65535 (n : Nat) (h : n ≤ 65535) : n ^^^ 65535 = 65535 - n := by
  apply Nat.eq_of_testBit_eq
  intro i
  have e1 : (65535 : Nat) = 2 ^ 16 - 1 := by norm_num
  have e2 : 65535 - n = 2 ^ 16 - (n + 1) := by omega
  rw [e2, Nat.testBit_two_pow_sub_succ (by omega), Nat.testBit_xor, e1,
    Nat.testBit_two_pow_sub_one]
  by_cases hi : i < 16
  · simp [hi]
  · have : n.testBit i = false :=
      Nat.testBit_lt_two_pow (lt_of_lt_of_le (by omega : n < 2 ^ 16)
        (Nat.pow_le_pow_right (by norm_num) (by omega)))
    simp [hi, this]

theorem int_xor_65535 (p : Int) (h0 : 0 ≤ p) (h1 : p ≤ 65535) : Int.xor p 65535 = 65535 - p := by
  obtain ⟨n, rfl⟩ := Int.eq_ofNat_of_zero_le h0
  have hn : n ≤ 65535 := by omega
  have : Int.xor (n : Int) 65535 = ((n ^^^ 65535 : Nat) : Int) := rfl
  rw [this, nat_xor_65535 n hn]
  omega

theorem int_land_4095 (p : Int) (h0 : 0 ≤ p) : Int.land p 4095 = p % 4096 := by
  obtain ⟨n, rfl⟩ := Int.eq_ofNat_of_zero_le h0
  have : Int.land (n : Int) 4095 = ((n &&& 4095 : Nat) : Int) := rfl
  rw [this]
  have e : (4095 : Nat) = 2 ^ 12 - 1 := by norm_num
  rw [e, Nat.and_pow_two_sub_one_eq_mod]
  norm_num

theorem shr_eq_div (p : Int) (k : Nat) : p >>> k = p / ((2 ^ k : Nat) : Int) :=
  Int.shiftRight_eq_div_pow p k

theorem updateBit0_range (r : Nat) (p : Int) (h0 : 0 ≤ p) (h1 : p ≤ 65535) :
    0 ≤ UpdateBit0 r p ∧ UpdateBit0 r p ≤ 65535 := by
  unfold UpdateBit0
  rw [shr_eq_div]
  have hpos : (0 : Int) < ((2 ^ r : Nat) : Int) := by positivity
  have ha : 0 ≤ p / ((2 ^ r : Nat) : Int) := Int.ediv_nonneg h0 (le_of_lt hpos)
  have hb : p / ((2 ^ r : Nat) : Int) ≤ p := Int.ediv_le_self _ h0
  omega

theorem updateBit1_range (r : Nat) (p : Int) (h0 : 0 ≤ p) (h1 : p ≤ 65535) :
    0 ≤ UpdateBit1 r p ∧ UpdateBit1 r p ≤ 65535 := by
  unfold UpdateBit1
  rw [int_xor_65535 p h0 h1, shr_eq_div]
  have hpos : (0 : Int) < ((2 ^ r : Nat) : Int) := by positivity
  have ha : 0 ≤ (65535 - p) / ((2 ^ r : Nat) : Int) := Int.ediv_nonneg (by omega) (le_of_lt hpos)
  have hb : (65535 - p) / ((2 ^ r : Nat) : Int) ≤ 65535 - p := Int.ediv_le_self _ (by omega)
  omega

theorem updateBit_range (r b : Nat) (p : Int) (h0 : 0 ≤ p) (h1 : p ≤ 65535) :
    0 ≤ updateBit r b p ∧ updateBit r b p ≤ 65535 := by
  unfold updateBit
  split
  · exact updateBit1_range r p h0 h1
  · exact updateBit0_range r p h0 h1

theorem inv_new : CM.new.Inv := by
  refine ⟨fun _ => by simp [CM.new], fun _ _ => by simp [CM.new], fun f i k hk => ?_⟩
  simp only [CM.new]
  split <;> omega

theorem mix_ok (m : CM) (f ctx : Nat) (h : m.Inv) : MixOk (m.mix f ctx) := by
  obtain ⟨h0, h1, h2⟩ := h
  have a0 := h0 ctx
  have a1 := h1 m.c1 ctx
  have a2 := h1 m.c2 ctx
  simp only [MixOk, CM.mix, Mix.prob, shr_eq_div]
  set s := m.counter0 ctx + m.counter0 ctx + m.counter0 ctx + m.counter0 ctx +
    m.counter1 m.c1 ctx + m.counter1 m.c1 ctx + m.counter1 m.c1 ctx + m.counter1 m.c2 ctx with hs
  have hp0 : 0 ≤ s / ((2 ^ 3 : Nat) : Int) := by norm_num; omega
  have hp1 : s / ((2 ^ 3 : Nat) : Int) ≤ 65535 := by norm_num; omega
  set p := s / ((2 ^ 3 : Nat) : Int) with hp
  have hj0 : 0 ≤ p / ((2 ^ 12 : Nat) : Int) := by norm_num; omega
  have hj1 : p / ((2 ^ 12 : Nat) : Int) ≤ 15 := by norm_num; omega
  set j := p / ((2 ^ 12 : Nat) : Int) with hj
  have b1 := h2 f ctx j.toNat (by omega)
  have b2 := h2 f ctx (j + 1).toNat (by omega)
  set x1 := m.counter2 f ctx j.toNat with hx1
  set x2 := m.counter2 f ctx (j + 1).toNat with hx2
  rw [int_land_4095 p hp0]
  have hw0 : 0 ≤ p % 4096 := by omega
  have hw1 : p % 4096 ≤ 4095 := by omega
  set wt := p % 4096 with hwt
  have hc : ((2 ^ 12 : Nat) : Int) = 4096 := by norm_num
  rw [hc]
  have key : min 0 (x2 - x1) ≤ (x2 - x1) * wt / 4096 ∧ (x2 - x1) * wt / 4096 ≤ max 0 (x2 - x1) := by
    rcases le_total x1 x2 with hle | hle
    · have d0 : 0 ≤ x2 - x1 := by omega
      rw [min_eq_left d0, max_eq_right d0]
      constructor
      · exact Int.ediv_nonneg (mul_nonneg d0 hw0) (by norm_num)
      · apply Int.ediv_le_of_le_mul (by norm_num)
        nlinarith
    · have d0 : x2 - x1 ≤ 0 := by omega
      rw [min_eq_right d0, max_eq_left d0]
      constructor
      · apply Int.le_ediv_of_mul_le (by norm_num)
        nlinarith
      · have : (x2 - x1) * wt ≤ 0 := mul_nonpos_of_nonpos_of_nonneg d0 hw0
        have h4 : (x2 - x1) * wt / 4096 < 1 := by
          apply Int.ediv_lt_of_lt_mul (by norm_num)
          omega
        omega
  obtain ⟨k1, k2⟩ := key
  set t := (x2 - x1) * wt / 4096 with ht
  have m1 : min x1 x2 ≤ x1 + t := by
    rcases le_total x1 x2 with hle | hle
    · rw [min_eq_left hle]
      rw [min_eq_left (by omega : (0 : Int) ≤ x2 - x1)] at k1
      omega
    · rw [min_eq_right hle]
      rw [min_eq_right (by omega : x2 - x1 ≤ (0 : Int))] at k1
      omega
  have m2 : x1 + t ≤ max x1 x2 := by
    rcases le_total x1 x2 with hle | hle
    · rw [max_eq_right hle]
      rw [max_eq_right (by omega : (0 : Int) ≤ x2 - x1)] at k2
      omega
    · rw [max_eq_left hle]
      rw [max_eq_left (by omega : x2 - x1 ≤ (0 : Int))] at k2
      omega
  have m3 : 0 ≤ min x1 x2 := le_min b1.1 b2.1
  have m4 : max x1 x2 ≤ 65535 := max_le b1.2 b2.2
  refine ⟨⟨hp0, hp1⟩, ⟨hj0, hj1⟩, ⟨m1, m2⟩, ⟨by omega, by omega⟩, ⟨by omega, by omega⟩⟩

theorem inv_enc (m : CM) (e : Encoder) (h : m.Inv) : ({ m with enc := e } : CM).Inv := h

theorem inv_run (m : CM) (r : Nat) (h : m.Inv) : ({ m with run := r } : CM).Inv := h

theorem inv_ctx (m : CM) (a b : Nat) (h : m.Inv) : ({ m with c2 := a, c1 := b } : CM).Inv := h

theorem inv_update (m : CM) (f ctx : Nat) (j : Int) (bit : Nat) (h : m.Inv)
    (hj0 : 0 ≤ j) (hj1 : j ≤ 15) : (m.update f ctx j bit).Inv := by
  obtain ⟨h0, h1, h2⟩ := h
  refine ⟨fun i => ?_, fun a i => ?_, fun g i k hk => ?_⟩
  · simp only [CM.update, set1]
    split
    · exact updateBit_range _ _ _ (h0 ctx).1 (h0 ctx).2
    · exact h0 i
  · simp only [CM.update, set2]
    split
    · exact updateBit_range _ _ _ (h1 m.c1 ctx).1 (h1 m.c1 ctx).2
    · exact h1 a i
  · simp only [CM.update, set3]
    have hb := h2 f ctx j.toNat (by omega)
    have hu := updateBit_range 6 bit _ hb.1 hb.2
    have hb' := h2 f ctx (j + 1).toNat (by omega)
    split
    · apply updateBit_range
      · split
        · exact hu.1
        · exact hb'.1
      · split
        · exact hu.2
        · exact hb'.2
    · split
      · exact hu
      · exact h2 g i k hk

theorem encodeStep_inv (w : Bool) (m : CM) (f ctx c : Nat) (h : m.Inv) :
    (m.encodeStep w f ctx c).1.Inv := by
  have hm := mix_ok m f ctx h
  unfold CM.encodeStep
  dsimp only
  split
  · exact inv_update _ _ _ _ _ (inv_enc m _ h) hm.2.1.1 hm.2.1.2
  · exact inv_update _ _ _ _ _ (inv_enc m _ h) hm.2.1.1 hm.2.1.2

theorem decodeStep_inv (w : Bool) (m : CM) (f ctx : Nat) (inp : List Byte) (h : m.Inv) :
    (m.decodeStep w f ctx inp).1.Inv := by
  have hm := mix_ok m f ctx h
  unfold CM.decodeStep
  dsimp only
  split
  · exact inv_update _ _ _ _ _ (inv_enc m _ h) hm.2.1.1 hm.2.1.2
  · exact inv_update _ _ _ _ _ (inv_enc m _ h) hm.2.1.1 hm.2.1.2

theorem encodeLoop_inv (w : Bool) (fuel : Nat) : ∀ (m : CM) (f ctx c : Nat),
    m.Inv → (CM.encodeLoop w fuel m f ctx c).1.Inv := by
  induction fuel with
  | zero => intro m f ctx c h; exact h
  | succ k ih =>
    intro m f ctx c h
    rw [CM.encodeLoop]
    split
    · exact ih _ _ _ _ (encodeStep_inv w m f ctx c h)
    · exact h

theorem decodeLoop_inv (w : Bool) (fuel : Nat) : ∀ (m : CM) (f ctx : Nat) (inp : List Byte),
    m.Inv → (CM.decodeLoop w fuel m f ctx inp).1.Inv := by
  induction fuel with
  | zero => intro m f ctx inp h; exact h
  | succ k ih =>
    intro m f ctx inp h
    rw [CM.decodeLoop]
    split
    · exact ih _ _ _ _ (decodeStep_inv w m f ctx inp h)
    · exact h

theorem encode_inv (w : Bool) (m : CM) (c : Nat) (h : m.Inv) : (m.Encode w c).1.Inv := by
  unfold CM.Encode
  exact inv_ctx _ _ _ (encodeLoop_inv w 8 _ _ _ _ (inv_run m _ h))

theorem decode_inv (w : Bool) (m : CM) (inp : List Byte) (h : m.Inv) :
    (m.Decode w inp).2.1.Inv := by
  unfold CM.Decode
  exact inv_ctx _ _ _ (decodeLoop_inv w 8 _ _ _ _ (inv_run m _ h))

theorem reachable_inv (w : Bool) (m : CM) (h : CM.Reachable w m) : m.Inv := by
  induction h with
  | new => exact inv_new
  | encode m c _ ih => exact encode_inv w m c ih
  | decode m inp _ ih => exact decode_inv w m inp ih

theorem mix_withCode (m : CM) (code f ctx : Nat) : (m.withCode code).mix f ctx = m.mix f ctx := rfl

theorem update_one (m : CM) (f ctx : Nat) (j : Int) (b : Nat) (hb : b ≠ 0) :
    m.update f ctx j 1 = m.update f ctx j b := by
  simp only [CM.update, updateBit, hb, ne_eq, one_ne_zero, not_false_eq_true, if_true]

theorem update_zero (m : CM) (f ctx : Nat) (j : Int) (b : Nat) (hb : ¬ b ≠ 0) :
    m.update f ctx j 0 = m.update f ctx j b := by
  have : b = 0 := by simpa using hb
  rw [this]

theorem prob_lt (m : CM) (f ctx : Nat) (h : m.Inv) : toU32 (m.mix f ctx).prob < 262144 := by
  have := (mix_ok m f ctx h).2.2.2.2
  unfold toU32
  omega

theorem topBit_eq (c : Nat) : topBit c = c / 128 % 2 := by
  unfold topBit
  have h : c &&& 128 = 128 * (c / 128 % 2) := by
    apply Nat.eq_of_testBit_eq
    intro i
    rw [Nat.testBit_and]
    have e : (128 : Nat) = 2 ^ 7 := by norm_num
    rw [e, Nat.testBit_two_pow]
    by_cases hi : 7 = i
    · subst hi
      have h2 : (2 ^ 7 * (c / 2 ^ 7 % 2)).testBit 7 = (c / 2 ^ 7 % 2).testBit 0 := by
        have := Nat.testBit_mul_pow_two (i := 7) (a := c / 2 ^ 7 % 2) (j := 7)
        simp only [Nat.mul_comm] at this ⊢
        simpa using this
      rw [h2]
      simp only [decide_True, Bool.and_true]
      rw [Nat.testBit, Nat.testBit]
      simp [Nat.shiftRight_eq_div_pow]
    · have h2 : (2 ^ 7 * (c / 2 ^ 7 % 2)).testBit i = false := by
        rcases Nat.mod_two_eq_zero_or_one (c / 2 ^ 7) with h0 | h1
        · rw [h0]; simp
        · rw [h1, Nat.mul_one, Nat.testBit_two_pow]
          simp [hi]
      rw [h2]
      simp [hi]
  rw [h]
  rcases Nat.mod_two_eq_zero_or_one (c / 128) with h0 | h1
  · rw [h0]; simp
  · rw [h1]; simp

theorem topBit_cases (c : Nat) : topBit c = 0 ∨ topBit c = 1 := by
  unfold topBit
  split
  · exact Or.inr rfl
  · exact Or.inl rfl

/-- The loop body of `Encode` in terms of the coded bit. -/
theorem encodeStep_eq (w : Bool) (m : CM) (f ctx c : Nat) :
    m.encodeStep w f ctx c =
      (({ m with enc := (encodeBit w m.enc (toU32 (m.mix f ctx).prob) (topBit c)).1 }).update
          f ctx (m.mix f ctx).j (topBit c),
        ctx + (ctx + topBit c), c + c,
        (encodeBit w m.enc (toU32 (m.mix f ctx).prob) (topBit c)).2) := by
  unfold CM.encodeStep
  dsimp only
  by_cases hb : c &&& 128 ≠ 0
  · have ht : topBit c = 1 := by unfold topBit; rw [if_pos hb]
    rw [if_pos hb, ht, encodeBit_pos _ _ _ _ (by norm_num)]
  · have ht : topBit c = 0 := by unfold topBit; rw [if_neg hb]
    rw [if_neg hb, ht, encodeBit_neg _ _ _ _ (by norm_num)]
    rfl

theorem encodeStep_inv_enc (w : Bool) (m : CM) (f ctx c : Nat) (h : m.Inv)
    (he : EncInv m.enc.low m.enc.high) :
    EncInv (m.encodeStep w f ctx c).1.enc.low (m.encodeStep w f ctx c).1.enc.high := by
  rw [encodeStep_eq]
  exact encodeBit_inv w m.enc _ _ he (prob_lt m f ctx h)

/-- The loop body of `Decode` on a decoder in step with the encoder: it decodes
the coded bit and stays in step. -/
theorem decodeStep_sync (w : Bool) (m : CM) (f ctx c : Nat) (S2 : List Byte)
    (h : m.Inv) (he : EncInv m.enc.low m.enc.high)
    (ht : Tail w (m.encodeStep w f ctx c).1.enc S2) :
    (m.withCode (window ((m.encodeStep w f ctx c).2.2.2 ++ S2))).decodeStep w f ctx
        (((m.encodeStep w f ctx c).2.2.2 ++ S2).drop 4) =
      ((m.encodeStep w f ctx c).1.withCode (window S2), (m.encodeStep w f ctx c).2.1,
        S2.drop 4) := by
  rw [encodeStep_eq] at ht ⊢
  have hp := prob_lt m f ctx h
  have hs := decodeBit_sync w m.enc (toU32 (m.mix f ctx).prob) (topBit c) S2 he hp ht
  unfold CM.decodeStep
  simp only [mix_withCode]
  have hd : ∀ cd : Nat, (m.withCode cd).enc = ⟨cd, m.enc.low, m.enc.high⟩ := fun _ => rfl
  rw [hd, hs]
  rcases topBit_cases c with h0 | h1
  · simp only [h0, ne_eq, not_true_eq_false, if_false]
    rfl
  · simp only [h1, ne_eq, one_ne_zero, not_false_eq_true, if_true]
    rfl

theorem encodeLoop_inv_enc (w : Bool) (k : Nat) : ∀ (m : CM) (f ctx c : Nat), m.Inv →
    EncInv m.enc.low m.enc.high →
    EncInv (CM.encodeLoop w k m f ctx c).1.enc.low (CM.encodeLoop w k m f ctx c).1.enc.high := by
  induction k with
  | zero => intro m f ctx c _ he; exact he
  | succ k ih =>
    intro m f ctx c h he
    rw [CM.encodeLoop]
    split
    · exact ih _ _ _ _ (encodeStep_inv w m f ctx c h) (encodeStep_inv_enc w m f ctx c h he)
    · exact he

theorem encodeLoop_tail (w : Bool) (k : Nat) : ∀ (m : CM) (f ctx c : Nat) (S2 : List Byte),
    m.Inv → Tail w (CM.encodeLoop w k m f ctx c).1.enc S2 →
    Tail w m.enc ((CM.encodeLoop w k m f ctx c).2.2 ++ S2) := by
  induction k with
  | zero => intro m f ctx c S2 _ ht; simpa [CM.encodeLoop] using ht
  | succ k ih =>
    intro m f ctx c S2 h ht
    rw [CM.encodeLoop] at ht ⊢
    by_cases hc : ctx < 256
    · rw [if_pos hc] at ht ⊢
      dsimp only at ht ⊢
      have ih2 := ih _ _ _ _ S2 (encodeStep_inv w m f ctx c h) ht
      rw [List.append_assoc]
      revert ih2
      rw [encodeStep_eq]
      intro ih2
      exact tail_cons w m.enc _ _ _ (prob_lt m f ctx h) ih2
    · rw [if_neg hc] at ht ⊢
      simpa using ht

/-- The bit loop of `Decode` on a decoder in step with the encoder. -/
theorem decodeLoop_sync (w : Bool) (k : Nat) : ∀ (m : CM) (f ctx c : Nat) (S2 : List Byte),
    m.Inv → EncInv m.enc.low m.enc.high →
    Tail w (CM.encodeLoop w k m f ctx c).1.enc S2 →
    CM.decodeLoop w k (m.withCode (window ((CM.encodeLoop w k m f ctx c).2.2 ++ S2))) f ctx
        (((CM.encodeLoop w k m f ctx c).2.2 ++ S2).drop 4) =
      ((CM.encodeLoop w k m f ctx c).1.withCode (window S2),
        (CM.encodeLoop w k m f ctx c).2.1, S2.drop 4) := by
  induction k with
  | zero => intro m f ctx c S2 _ _ _; simp [CM.encodeLoop, CM.decodeLoop]
  | succ k ih =>
    intro m f ctx c S2 h he ht
    rw [CM.encodeLoop] at ht ⊢
    rw [CM.decodeLoop]
    by_cases hc : ctx < 256
    · rw [if_pos hc] at ht ⊢
      rw [if_pos hc]
      dsimp only at ht ⊢
      have hi := encodeStep_inv w m f ctx c h
      have hie := encodeStep_inv_enc w m f ctx c h he
      have ht2 := encodeLoop_tail w k _ _ _ _ S2 hi ht
      rw [List.append_assoc, decodeStep_sync w m f ctx c _ h he ht2]
      exact ih _ _ _ _ S2 hi hie ht
    · rw [if_neg hc] at ht ⊢
      rw [if_neg hc]
      simp

theorem encodeStep_ctx (w : Bool) (m : CM) (f ctx c : Nat) :
    (m.encodeStep w f ctx c).2.1 = 2 * ctx + c / 128 % 2 := by
  rw [encodeStep_eq, topBit_eq]
  simp only
  omega

theorem encodeStep_c (w : Bool) (m : CM) (f ctx c : Nat) :
    (m.encodeStep w f ctx c).2.2.1 = c + c := by
  rw [encodeStep_eq]

/-- The value of `ctx` after `k` rounds of the bit loop of `Encode`: the old
`ctx` followed by the next `k` bits of the byte. -/
theorem encodeLoop_ctx (w : Bool) (k : Nat) : ∀ (m : CM) (f ctx c : Nat), k ≤ 8 →
    2 ^ (8 - k) ≤ ctx → ctx < 2 ^ (9 - k) →
    (CM.encodeLoop w k m f ctx c).2.1 = ctx * 2 ^ k + c % 256 / 2 ^ (8 - k) := by
  induction k with
  | zero =>
    intro m f ctx c _ _ _
    simp only [CM.encodeLoop, pow_zero, mul_one, Nat.sub_zero]
    have : c % 256 / 2 ^ 8 = 0 := by
      have e : (2 : Nat) ^ 8 = 256 := by norm_num
      rw [e]; omega
    omega
  | succ k ih =>
    intro m f ctx c hk hlo hhi
    have hc : ctx < 256 := by
      have : 2 ^ (9 - (k + 1)) ≤ 2 ^ 8 := Nat.pow_le_pow_right (by norm_num) (by omega)
      omega
    rw [CM.encodeLoop, if_pos hc]
    dsimp only
    have e1 : 8 - k = (8 - (k + 1)) + 1 := by omega
    have e2 : 9 - k = (9 - (k + 1)) + 1 := by omega
    rw [ih _ _ _ _ (by omega) (by rw [encodeStep_ctx, e1, pow_succ]; omega)
      (by rw [encodeStep_ctx, e2, pow_succ]; omega), encodeStep_ctx, encodeStep_c]
    have hk8 : k < 8 := by omega
    interval_cases k <;> norm_num <;> omega

theorem encodeLoop_ctx8 (w : Bool) (m : CM) (f c : Nat) :
    (CM.encodeLoop w 8 m f 1 c).2.1 = 256 + c % 256 := by
  rw [encodeLoop_ctx w 8 m f 1 c (by norm_num) (by norm_num) (by norm_num)]
  norm_num

theorem and_255 (x : Nat) : x &&& 255 = x % 256 := by
  have e : (255 : Nat) = 2 ^ 8 - 1 := by norm_num
  rw [e, Nat.and_pow_two_sub_one_eq_mod]

theorem withCode_inv (m : CM) (cd : Nat) (h : m.Inv) : (m.withCode cd).Inv := h

theorem encode_enc (w : Bool) (m : CM) (c : Nat) :
    (m.Encode w c).1.enc = (CM.encodeLoop w 8 { m with run := m.nextRun } m.flag 1 c).1.enc := rfl

theorem encode_out (w : Bool) (m : CM) (c : Nat) :
    (m.Encode w c).2 = (CM.encodeLoop w 8 { m with run := m.nextRun } m.flag 1 c).2.2 := rfl

theorem encode_inv_enc (w : Bool) (m : CM) (c : Nat) (h : m.Inv)
    (he : EncInv m.enc.low m.enc.high) :
    EncInv (m.Encode w c).1.enc.low (m.Encode w c).1.enc.high := by
  rw [encode_enc]
  exact encodeLoop_inv_enc w 8 _ _ _ _ (inv_run m _ h) he

theorem encode_tail (w : Bool) (m : CM) (c : Nat) (S2 : List Byte) (h : m.Inv)
    (ht : Tail w (m.Encode w c).1.enc S2) : Tail w m.enc ((m.Encode w c).2 ++ S2) := by
  rw [encode_enc] at ht
  rw [encode_out]
  exact encodeLoop_tail w 8 { m with run := m.nextRun } m.flag 1 c S2 (inv_run m _ h) ht

/-- One `Decode` call on a decoder in step with the encoder: it returns the low
eight bits of the argument of `Encode` and stays in step. -/
theorem decode_sync (w : Bool) (m : CM) (c : Nat) (S2 : List Byte)
    (h : m.Inv) (he : EncInv m.enc.low m.enc.high)
    (ht : Tail w (m.Encode w c).1.enc S2) :
    (m.withCode (window ((m.Encode w c).2 ++ S2))).Decode w (((m.Encode w c).2 ++ S2).drop 4) =
      (c % 256, (m.Encode w c).1.withCode (window S2), S2.drop 4) := by
  rw [encode_enc] at ht
  rw [encode_out]
  have hs := decodeLoop_sync w 8 { m with run := m.nextRun } m.flag 1 c S2 (inv_run m _ h) he ht
  have hx := encodeLoop_ctx8 w { m with run := m.nextRun } m.flag c
  set E := CM.encodeLoop w 8 { m with run := m.nextRun } m.flag 1 c with hE
  have e1 : ∀ cd, (m.withCode cd).Decode w ((E.2.2 ++ S2).drop 4) =
      ((CM.decodeLoop w 8 (({ m with run := m.nextRun } : CM).withCode cd) m.flag 1
          ((E.2.2 ++ S2).drop 4)).2.1 &&& 255,
        { (CM.decodeLoop w 8 (({ m with run := m.nextRun } : CM).withCode cd) m.flag 1
            ((E.2.2 ++ S2).drop 4)).1 with
          c2 := (CM.decodeLoop w 8 (({ m with run := m.nextRun } : CM).withCode cd) m.flag 1
            ((E.2.2 ++ S2).drop 4)).1.c1,
          c1 := (CM.decodeLoop w 8 (({ m with run := m.nextRun } : CM).withCode cd) m.flag 1
            ((E.2.2 ++ S2).drop 4)).2.1 &&& 255 },
        (CM.decodeLoop w 8 (({ m with run := m.nextRun } : CM).withCode cd) m.flag 1
          ((E.2.2 ++ S2).drop 4)).2.2) := fun _ => rfl
  rw [e1, hs, hx, and_255]
  have : (256 + c % 256) % 256 = c % 256 := by omega
  rw [this]
  have e3 : (m.Encode w c).1 = { E.1 with c2 := E.1.c1, c1 := E.2.1 &&& 255 } := rfl
  rw [e3, hx, and_255, this]
  rfl

/-! ## Counting sort positions -/

theorem cntEq_zero (buf : Nat → Nat) (c : Nat) : cntEq buf 0 c = 0 := by
  simp [cntEq]

theorem cntEq_succ (buf : Nat → Nat) (i c : Nat) :
    cntEq buf (i + 1) c = cntEq buf i c + (if buf i = c then 1 else 0) := by
  unfold cntEq
  rw [Finset.range_succ, Finset.filter_insert]
  split
  · rw [Finset.card_insert_of_not_mem (by simp)]
  · simp

theorem cntLt_zero (buf : Nat → Nat) (c : Nat) : cntLt buf 0 c = 0 := by
  simp [cntLt]

theorem cntLt_succ (buf : Nat → Nat) (i c : Nat) :
    cntLt buf (i + 1) c = cntLt buf i c + (if buf i < c then 1 else 0) := by
  unfold cntLt
  rw [Finset.range_succ, Finset.filter_insert]
  split
  · rw [Finset.card_insert_of_not_mem (by simp)]
  · simp

theorem cntEq_mono (buf : Nat → Nat) (c : Nat) {a b : Nat} (h : a ≤ b) :
    cntEq buf a c ≤ cntEq buf b c := by
  induction b with
  | zero =>
    have : a = 0 := by omega
    rw [this]
  | succ b ih =>
    rcases Nat.lt_or_ge a (b + 1) with h1 | h1
    · have := ih (by omega)
      rw [cntEq_succ]
      omega
    · have : a = b + 1 := by omega
      rw [this]

theorem cntEq_lt (buf : Nat → Nat) {a b : Nat} (h : a < b) :
    cntEq buf a (buf a) < cntEq buf b (buf a) := by
  have h1 := cntEq_mono buf (buf a) (show a + 1 ≤ b by omega)
  rw [cntEq_succ] at h1
  simp at h1
  omega

theorem cntLt_val_succ (buf : Nat → Nat) (n c : Nat) :
    cntLt buf n (c + 1) = cntLt buf n c + cntEq buf n c := by
  induction n with
  | zero => simp [cntLt_zero, cntEq_zero]
  | succ n ih =>
    rw [cntLt_succ, cntLt_succ, cntEq_succ, ih]
    by_cases h1 : buf n < c
    · have h2 : buf n < c + 1 := by omega
      have h3 : ¬ buf n = c := by omega
      rw [if_pos h1, if_pos h2, if_neg h3]
      omega
    · by_cases h3 : buf n = c
      · have h2 : buf n < c + 1 := by omega
        rw [if_neg h1, if_pos h2, if_pos h3]
        omega
      · have h2 : ¬ buf n < c + 1 := by omega
        rw [if_neg h1, if_neg h2, if_neg h3]
        omega

theorem cntLt_val_mono (buf : Nat → Nat) (n : Nat) {c d : Nat} (h : c ≤ d) :
    cntLt buf n c ≤ cntLt buf n d := by
  unfold cntLt
  apply Finset.card_le_card
  intro i hi
  simp only [Finset.mem_filter] at hi ⊢
  exact ⟨hi.1, by omega⟩

theorem cntLt_le (buf : Nat → Nat) (n c : Nat) : cntLt buf n c ≤ n := by
  unfold cntLt
  calc ((Finset.range n).filter (fun i => buf i < c)).card ≤ (Finset.range n).card :=
        Finset.card_filter_le _ _
    _ = n := Finset.card_range n

theorem sigma_lt (buf : Nat → Nat) (n i : Nat) (h : i < n) : sigma buf n i < n := by
  unfold sigma
  have h1 := cntEq_lt buf h
  have h2 := cntLt_val_succ buf n (buf i)
  have h3 := cntLt_le buf n (buf i + 1)
  omega

theorem sigma_lt_of_lt (buf : Nat → Nat) (n : Nat) {a b : Nat} (ha : a < n)
    (hv : buf a < buf b) : sigma buf n a < sigma buf n b := by
  unfold sigma
  have h1 := cntEq_lt buf ha
  have h2 := cntLt_val_succ buf n (buf a)
  have h3 := cntLt_val_mono buf n (show buf a + 1 ≤ buf b by omega)
  omega

theorem sigma_lt_of_eq (buf : Nat → Nat) (n : Nat) {a b : Nat} (hab : a < b)
    (hv : buf a = buf b) : sigma buf n a < sigma buf n b := by
  unfold sigma
  have h1 := cntEq_lt buf hab
  rw [hv] at h1 ⊢
  omega

/-- The stable-sort position is injective on the block. -/
theorem sigma_inj (buf : Nat → Nat) (n : Nat) {a b : Nat} (ha : a < n) (hb : b < n)
    (h : sigma buf n a = sigma buf n b) : a = b := by
  rcases Nat.lt_trichotomy (buf a) (buf b) with h1 | h1 | h1
  · have := sigma_lt_of_lt buf n ha h1
    omega
  · rcases Nat.lt_trichotomy a b with h2 | h2 | h2
    · have := sigma_lt_of_eq buf n h2 h1
      omega
    · exact h2
    · have := sigma_lt_of_eq buf n h2 h1.symm
      omega
  · have := sigma_lt_of_lt buf n hb h1
    omega

/-! ## The loops of the inverse BWT -/

/-- The prefix-sum loop turns byte counts into the number of smaller bytes. -/
theorem sumLoop_spec (buf : Nat → Nat) (n : Nat) (k : Nat) : ∀ (i : Nat) (t : Nat → Int),
    1 ≤ i → (∀ c, c < i → t c = (cntLt buf n c : Int)) →
    (∀ c, i ≤ c → t c = (cntEq buf n (c - 1) : Int)) →
    ∀ c, c < i + k → sumLoop k i t c = (cntLt buf n c : Int) := by
  induction k with
  | zero =>
    intro i t _ h1 _ c hc
    exact h1 c (by omega)
  | succ k ih =>
    intro i t hi h1 h2 c hc
    rw [sumLoop]
    apply ih (i + 1) _ (by omega)
    · intro c' hc'
      by_cases e : c' = i
      · subst e
        simp only [if_true]
        rw [h2 c' (le_refl _), h1 (c' - 1) (by omega)]
        have := cntLt_val_succ buf n (c' - 1)
        have e2 : c' - 1 + 1 = c' := by omega
        rw [e2] at this
        omega
      · simp only [e, if_false]
        exact h1 c' (by omega)
    · intro c' hc'
      have e : ¬ c' = i := by omega
      simp only [e, if_false]
      exact h2 c' (by omega)
    · omega

/-- The value the loop of lines 376-377 stores for position `i`. -/
theorem nextLoop_spec (cap idx : Int) (buf : Nat → Nat) (n : Nat) (hcap : (n : Int) ≤ cap)
    (hbuf : ∀ i, i < n → buf i < 256) (k : Nat) :
    ∀ (i : Nat) (t next : Nat → Int), i + k = n →
    (∀ c, c < 256 → t c = (cntLt buf n c : Int) + (cntEq buf i c : Int)) →
    ∃ t2 next2, nextLoop cap idx k i buf t next = some (t2, next2) ∧
      (∀ a, i ≤ a → a < n →
        next2 (sigma buf n a) = (a : Int) + (if (a : Int) ≥ idx then 1 else 0)) ∧
      (∀ x, (∀ a, i ≤ a → a < n → sigma buf n a ≠ x) → next2 x = next x) := by
  induction k with
  | zero =>
    intro i t next hik _
    refine ⟨t, next, rfl, ?_, ?_⟩
    · intro a h1 h2; omega
    · intro x _; rfl
  | succ k ih =>
    intro i t next hik ht
    have hi : i < n := by omega
    have hb := hbuf i hi
    have hq : t (buf i) = (sigma buf n i : Int) := by
      rw [ht (buf i) hb]; unfold sigma; push_cast; rfl
    have hs := sigma_lt buf n i hi
    rw [nextLoop]
    have hcond : (i : Int) < cap ∧ buf i < 257 ∧ 0 ≤ t (buf i) ∧ t (buf i) < cap := by
      rw [hq]
      refine ⟨by omega, by omega, by omega, by omega⟩
    simp only [hcond, and_self, if_true]
    have ht2 : ∀ c, c < 256 →
        bump t (buf i) c = (cntLt buf n c : Int) + (cntEq buf (i + 1) c : Int) := by
      intro c hc
      unfold bump
      rw [cntEq_succ]
      by_cases e : c = buf i
      · subst e
        simp only [if_true]
        rw [ht _ hc]
        push_cast
        omega
      · have e2 : ¬ buf i = c := fun h => e h.symm
        simp only [e, e2, if_false]
        rw [ht c hc]
        push_cast
        omega
    obtain ⟨t2, next2, h1, h2, h3⟩ := ih (i + 1) (bump t (buf i))
      (fun x => if x = (t (buf i)).toNat then (i : Int) + (if (i : Int) ≥ idx then 1 else 0)
        else next x) (by omega) ht2
    refine ⟨t2, next2, h1, ?_, ?_⟩
    · intro a ha1 ha2
      rcases Nat.eq_or_lt_of_le ha1 with e | e
      · subst e
        rw [h3 (sigma buf n i)]
        · have : (t (buf i)).toNat = sigma buf n i := by rw [hq]; simp
          simp only [this, if_true]
        · intro a' ha1' ha2' heq
          have := sigma_inj buf n ha2' hi heq
          omega
      · exact h2 a (by omega) ha2
    · intro x hx
      rw [h3 x (fun a ha1 ha2 => hx a (by omega) ha2)]
      have : (t (buf i)).toNat = sigma buf n i := by rw [hq]; simp
      have hne : ¬ x = sigma buf n i := fun h => hx i (le_refl _) hi h.symm
      simp only [this, hne, if_false]

/-- Every index of the block is the stable-sort position of some position. -/
theorem sigma_surj (buf : Nat → Nat) (n x : Nat) (hx : x < n) :
    ∃ a, a < n ∧ sigma buf n a = x := by
  have himg : (Finset.range n).image (sigma buf n) = Finset.range n := by
    apply Finset.eq_of_subset_of_card_le
    · intro y hy
      simp only [Finset.mem_image, Finset.mem_range] at hy ⊢
      obtain ⟨a, ha, rfl⟩ := hy
      exact sigma_lt buf n a ha
    · rw [Finset.card_image_of_injOn]
      intro a ha b hb hab
      simp only [Finset.coe_range, Set.mem_Iio] at ha hb
      exact sigma_inj buf n ha hb hab
  have : x ∈ (Finset.range n).image (sigma buf n) := by
    rw [himg]; simpa using hx
  simp only [Finset.mem_image, Finset.mem_range] at this
  exact this

/-- After the loop of lines 376-377 the array `next` holds distinct values of
`0..n` other than `idx`. -/
theorem nextOk_of_spec (buf : Nat → Nat) (n : Nat) (idx : Int) (next2 : Nat → Int)
    (h : ∀ a, a < n →
      next2 (sigma buf n a) = (a : Int) + (if (a : Int) ≥ idx then 1 else 0)) :
    NextOk next2 n idx := by
  constructor
  · intro x hx
    obtain ⟨a, ha, rfl⟩ := sigma_surj buf n x hx
    rw [h a ha]
    split <;> omega
  · intro x y hx hy hxy
    obtain ⟨a, ha, rfl⟩ := sigma_surj buf n x hx
    obtain ⟨b, hb, rfl⟩ := sigma_surj buf n y hy
    rw [h a ha, h b hb] at hxy
    have : a = b := by
      split at hxy <;> split at hxy <;> omega
    rw [this]

theorem emitOrbit_range (next : Nat → Int) (n : Nat) (idx : Int) (hn : NextOk next n idx)
    (h1 : 1 ≤ idx) (h2 : idx ≤ n) (j : Nat) (hj : ∀ k, k < j → emitOrbit next idx k ≠ 0) :
    0 ≤ emitOrbit next idx j ∧ emitOrbit next idx j ≤ n := by
  cases j with
  | zero => simp only [emitOrbit]; omega
  | succ j =>
    have hprev := emitOrbit_range next n idx hn h1 h2 j (fun k hk => hj k (by omega))
    have hnz := hj j (by omega)
    simp only [emitOrbit]
    have := hn.1 (emitOrbit next idx j - 1).toNat (by omega)
    omega

theorem emitOrbit_distinct (next : Nat → Int) (n : Nat) (idx : Int) (hn : NextOk next n idx)
    (h1 : 1 ≤ idx) (h2 : idx ≤ n) (j : Nat) (hj : ∀ k, k ≤ j → emitOrbit next idx k ≠ 0) :
    ∀ a b, a < b → b ≤ j → emitOrbit next idx a ≠ emitOrbit next idx b := by
  intro a
  induction a with
  | zero =>
    intro b hab hb heq
    obtain ⟨b', rfl⟩ : ∃ b', b = b' + 1 := ⟨b - 1, by omega⟩
    have hr := emitOrbit_range next n idx hn h1 h2 b' (fun k hk => hj k (by omega))
    have hnz := hj b' (by omega)
    simp only [emitOrbit] at heq
    have := (hn.1 (emitOrbit next idx b' - 1).toNat (by omega)).2.2
    exact this heq.symm
  | succ a ih =>
    intro b hab hb heq
    obtain ⟨b', rfl⟩ : ∃ b', b = b' + 1 := ⟨b - 1, by omega⟩
    have hra := emitOrbit_range next n idx hn h1 h2 a (fun k hk => hj k (by omega))
    have hrb := emitOrbit_range next n idx hn h1 h2 b' (fun k hk => hj k (by omega))
    have hnza := hj a (by omega)
    have hnzb := hj b' (by omega)
    simp only [emitOrbit] at heq
    have := hn.2 _ _ (by omega) (by omega) heq
    exact ih b' (by omega) (by omega) (by omega)

/-- At most `n` successive values of `p` are non-zero. -/
theorem emitOrbit_bound (next : Nat → Int) (n : Nat) (idx : Int) (hn : NextOk next n idx)
    (h1 : 1 ≤ idx) (h2 : idx ≤ n) (j : Nat) (hj : ∀ k, k ≤ j → emitOrbit next idx k ≠ 0) :
    j + 1 ≤ n := by
  have hd := emitOrbit_distinct next n idx hn h1 h2 j hj
  have hcard : (Finset.range (j + 1)).card ≤ (Finset.Icc 1 n).card := by
    apply Finset.card_le_card_of_injOn (fun k => (emitOrbit next idx k).toNat)
    · intro k hk
      simp only [Finset.mem_coe, Finset.mem_range] at hk
      have hr := emitOrbit_range next n idx hn h1 h2 k (fun k' hk' => hj k' (by omega))
      have hnz := hj k (by omega)
      simp only [Finset.mem_coe, Finset.mem_Icc]
      omega
    · intro a ha b hb hab
      simp only [Finset.mem_coe, Finset.mem_range] at ha hb
      have hra := emitOrbit_range next n idx hn h1 h2 a (fun k' hk' => hj k' (by omega))
      have hrb := emitOrbit_range next n idx hn h1 h2 b (fun k' hk' => hj k' (by omega))
      have heq : emitOrbit next idx a = emitOrbit next idx b := by
        simp only at hab
        omega
      rcases Nat.lt_trichotomy a b with h | h | h
      · exact absurd heq (hd a b h (by omega))
      · exact h
      · exact absurd heq.symm (hd b a h (by omega))
  simp only [Finset.card_range, Nat.card_Icc] at hcard
  omega

/-- The loop of lines 378-382 ends within `n` rounds, whatever the block, and
stays inside `next` and `buf`. -/
theorem emitLoop_total (cap idx : Int) (buf : Nat → Nat) (next : Nat → Int) (n : Nat)
    (hn : NextOk next n idx) (h1 : 1 ≤ idx) (h2 : idx ≤ n) (hcap : (n : Int) ≤ cap)
    (fuel : Nat) : ∀ j, (∀ k, k < j → emitOrbit next idx k ≠ 0) → n ≤ j + fuel →
    ∃ out, emitLoop cap idx buf next fuel (emitOrbit next idx j) = some (some out) ∧
      j + out.length ≤ n ∧ (emitOrbit next idx j ≠ 0 → 1 ≤ out.length) := by
  induction fuel with
  | zero =>
    intro j hj hfuel
    by_cases hz : emitOrbit next idx j = 0
    · refine ⟨[], ?_, ?_, ?_⟩
      · simp [emitLoop, hz]
      · have := emitOrbit_range next n idx hn h1 h2 0 (fun k hk => by omega)
        simp only [List.length_nil]
        by_contra hc
        have hb := emitOrbit_bound next n idx hn h1 h2 (j - 1) (fun k hk => hj k (by omega))
        omega
      · intro h; exact absurd hz h
    · exfalso
      have hb := emitOrbit_bound next n idx hn h1 h2 j (fun k hk => by
        rcases Nat.eq_or_lt_of_le hk with e | e
        · rw [e]; exact hz
        · exact hj k e)
      omega
  | succ fuel ih =>
    intro j hj hfuel
    by_cases hz : emitOrbit next idx j = 0
    · refine ⟨[], ?_, ?_, ?_⟩
      · simp [emitLoop, hz]
      · simp only [List.length_nil]
        by_contra hc
        have hb := emitOrbit_bound next n idx hn h1 h2 (j - 1) (fun k hk => hj k (by omega))
        omega
      · intro h; exact absurd hz h
    · have hall : ∀ k, k ≤ j → emitOrbit next idx k ≠ 0 := fun k hk => by
        rcases Nat.eq_or_lt_of_le hk with e | e
        · rw [e]; exact hz
        · exact hj k e
      have hb := emitOrbit_bound next n idx hn h1 h2 j hall
      have hr := emitOrbit_range next n idx hn h1 h2 j hj
      have hnx := hn.1 (emitOrbit next idx j - 1).toNat (by omega)
      obtain ⟨out, ho1, ho2, _⟩ := ih (j + 1) (fun k hk => hall k (by omega)) (by omega)
      rw [emitLoop]
      have c1 : 0 ≤ emitOrbit next idx j - 1 ∧ emitOrbit next idx j - 1 < cap := by omega
      have c2 : 0 ≤ next (emitOrbit next idx j - 1).toNat -
            (if next (emitOrbit next idx j - 1).toNat ≥ idx then 1 else 0) ∧
          next (emitOrbit next idx j - 1).toNat -
            (if next (emitOrbit next idx j - 1).toNat ≥ idx then 1 else 0) < cap := by
        split <;> omega
      simp only [emitOrbit] at ho1
      simp only [hz, ne_eq, not_false_eq_true, if_true, c1, and_self, c2, ho1]
      refine ⟨_, rfl, ?_, ?_⟩
      · simp only [List.length_cons]; omega
      · intro _; simp

theorem emitLoop_succ (cap idx : Int) (buf : Nat → Nat) (next : Nat → Int) (fuel : Nat)
    (p : Int) (hp : p ≠ 0) :
    emitLoop cap idx buf next (fuel + 1) p =
      if 0 ≤ p - 1 ∧ p - 1 < cap then
        if 0 ≤ emitPos idx (next (p - 1).toNat) ∧ emitPos idx (next (p - 1).toNat) < cap then
          match emitLoop cap idx buf next fuel (next (p - 1).toNat) with
          | none => none
          | some none => some none
          | some (some out) =>
            some (some (putc (buf (emitPos idx (next (p - 1).toNat)).toNat) :: out))
        else some none
      else some none := by
  rw [emitLoop, if_pos hp]
  rfl

/-- The bytes the loop of lines 378-382 writes, read off the successive values
of `p`. -/
theorem emitLoop_out (cap idx : Int) (buf : Nat → Nat) (next : Nat → Int) (fuel : Nat) :
    ∀ (j : Nat) (out : List Byte),
    emitLoop cap idx buf next fuel (emitOrbit next idx j) = some (some out) →
    (∀ k, k < out.length → emitOrbit next idx (j + k) ≠ 0) ∧
      emitOrbit next idx (j + out.length) = 0 ∧
      out = (List.range' j out.length).map
        (fun k => putc (buf (emitPos idx (emitOrbit next idx (k + 1))).toNat)) := by
  induction fuel with
  | zero =>
    intro j out h
    rw [emitLoop] at h
    split at h
    · exact absurd h (by simp)
    · rename_i hz
      have hz : emitOrbit next idx j = 0 := by simpa using hz
      simp only [Option.some.injEq] at h
      subst h
      simp [hz]
  | succ fuel ih =>
    intro j out h
    by_cases hz : emitOrbit next idx j = 0
    · rw [emitLoop] at h
      simp only [hz, ne_eq, not_true_eq_false, if_false, Option.some.injEq] at h
      subst h
      simp [hz]
    · rw [emitLoop_succ _ _ _ _ _ _ hz] at h
      have e : next (emitOrbit next idx j - 1).toNat = emitOrbit next idx (j + 1) := rfl
      rw [e] at h
      by_cases c1 : 0 ≤ emitOrbit next idx j - 1 ∧ emitOrbit next idx j - 1 < cap
      · rw [if_pos c1] at h
        by_cases c2 : 0 ≤ emitPos idx (emitOrbit next idx (j + 1)) ∧
            emitPos idx (emitOrbit next idx (j + 1)) < cap
        · rw [if_pos c2] at h
          cases hrec : emitLoop cap idx buf next fuel (emitOrbit next idx (j + 1)) with
          | none => rw [hrec] at h; exact absurd h (by simp)
          | some r =>
            cases r with
            | none => rw [hrec] at h; exact absurd h (by simp)
            | some out' =>
              rw [hrec] at h
              simp only [Option.some.injEq] at h
              subst h
              obtain ⟨i1, i2, i3⟩ := ih (j + 1) out' hrec
              refine ⟨?_, ?_, ?_⟩
              · intro k hk
                cases k with
                | zero => simpa using hz
                | succ k =>
                  have := i1 k (by simpa using hk)
                  have e2 : j + (k + 1) = j + 1 + k := by omega
                  rw [e2]; exact this
              · have e2 : j + (putc (buf (emitPos idx (emitOrbit next idx (j + 1))).toNat) ::
                    out').length = j + 1 + out'.length := by
                  simp only [List.length_cons]; omega
                rw [e2]; exact i2
              · simp only [List.length_cons, List.range'_succ, List.map_cons]
                congr 1
        · rw [if_neg c2] at h
          exact absurd h (by simp)
      · rw [if_neg c1] at h
        exact absurd h (by simp)

/-- The inverse BWT of lines 373-382 never fails on a block with a valid
header: it stays inside its arrays and its last loop ends within `n` rounds. -/
theorem inverseBWT_total (cap idx : Int) (buf : Nat → Nat) (n : Nat) (t next : Nat → Int)
    (fuel : Nat) (hbuf : ∀ i, i < n → buf i < 256) (ht0 : t 0 = 0)
    (ht : ∀ c, t (c + 1) = (cntEq buf n c : Int)) (h1 : 1 ≤ idx) (h2 : idx ≤ n)
    (hcap : (n : Int) ≤ cap) (hf : n ≤ fuel) :
    ∃ next2 out, inverseBWT cap n idx buf t next fuel = some (some (next2, out)) ∧
      1 ≤ out.length ∧ out.length ≤ n ∧ NextOk next2 n idx ∧
      (∀ a, a < n →
        next2 (sigma buf n a) = (a : Int) + (if (a : Int) ≥ idx then 1 else 0)) ∧
      emitLoop cap idx buf next2 fuel idx = some (some out) := by
  have hsum := sumLoop_spec buf n 255 1 t (le_refl _)
    (fun c hc => by
      have : c = 0 := by omega
      rw [this, ht0, cntLt]
      simp)
    (fun c hc => by
      have := ht (c - 1)
      have e : c - 1 + 1 = c := by omega
      rw [e] at this
      exact this)
  obtain ⟨t2, next2, hn1, hn2, _⟩ := nextLoop_spec cap idx buf n hcap hbuf n 0
    (sumLoop 255 1 t) next (by omega)
    (fun c hc => by rw [hsum c (by omega), cntEq_zero]; simp)
  have hspec : ∀ a, a < n →
      next2 (sigma buf n a) = (a : Int) + (if (a : Int) ≥ idx then 1 else 0) :=
    fun a ha => hn2 a (Nat.zero_le _) ha
  have hok := nextOk_of_spec buf n idx next2 hspec
  obtain ⟨out, ho1, ho2, ho3⟩ := emitLoop_total cap idx buf next2 n hok h1 h2 hcap fuel 0
    (fun k hk => by omega) (by omega)
  refine ⟨next2, out, ?_, ?_, by omega, hok, hspec, ho1⟩
  · unfold inverseBWT
    rw [hn1]
    simp only
    have e : emitOrbit next2 idx 0 = idx := rfl
    rw [e] at ho1
    rw [ho1]
  · apply ho3
    simp only [emitOrbit]
    omega

/-! ## The order of suffixes -/

theorem list_cons_lt_iff (x y : Byte) (a b : List Byte) :
    x :: a < y :: b ↔ x < y ∨ (x = y ∧ a < b) := by
  constructor
  · intro h
    have h' : List.Lex (· < ·) (x :: a) (y :: b) := h
    cases h' with
    | cons h2 => exact Or.inr ⟨rfl, h2⟩
    | rel h2 => exact Or.inl h2
  · intro h
    rcases h with h | ⟨rfl, h⟩
    · exact List.Lex.rel h
    · exact List.Lex.cons h

theorem drop_cons (s : List Byte) (k : Nat) (h : k < s.length) :
    s.drop k = s.getD k 0 :: s.drop (k + 1) := by
  rw [List.drop_eq_getElem_cons h]
  congr 1
  rw [List.getD_eq_getElem _ _ h]

theorem suf_ne (s : List Byte) {a b : Nat} (ha : a ≤ s.length) (hb : b ≤ s.length)
    (hab : a ≠ b) : s.drop a ≠ s.drop b := by
  intro h
  have := congrArg List.length h
  simp only [List.length_drop] at this
  omega

theorem suf_lt_iff (s : List Byte) {j k : Nat} (hj : j < s.length) (hk : k < s.length) :
    s.drop j < s.drop k ↔
      s.getD j 0 < s.getD k 0 ∨ (s.getD j 0 = s.getD k 0 ∧ s.drop (j + 1) < s.drop (k + 1)) := by
  rw [drop_cons s j hj, drop_cons s k hk, list_cons_lt_iff]

theorem suf_end (s : List Byte) : s.drop s.length = [] := by simp

theorem suf_end_lt (s : List Byte) {k : Nat} (hk : k < s.length) :
    s.drop s.length < s.drop k := by
  rw [suf_end, drop_cons s k hk]
  exact List.nil_lt_cons _ _

/-! ## Ranks of suffixes -/

theorem sufRank_lt (s : List Byte) {k : Nat} (hk : k < s.length) : sufRank s k < s.length := by
  unfold sufRank
  have hss : (Finset.range s.length).filter (fun j => s.drop j < s.drop k) ⊂
      Finset.range s.length := by
    rw [Finset.ssubset_iff_of_subset (Finset.filter_subset _ _)]
    exact ⟨k, by simpa using hk, by simp⟩
  have := Finset.card_lt_card hss
  simpa using this

theorem sufRank_lt_iff (s : List Byte) {a b : Nat} (ha : a < s.length) (hb : b < s.length) :
    sufRank s a < sufRank s b ↔ s.drop a < s.drop b := by
  have key : ∀ x y, x < s.length → s.drop x < s.drop y → sufRank s x < sufRank s y := by
    intro x y hx hxy
    unfold sufRank
    apply Finset.card_lt_card
    rw [Finset.ssubset_iff_of_subset]
    · exact ⟨x, by simp [hx, hxy], by simp⟩
    · intro j hj
      simp only [Finset.mem_filter] at hj ⊢
      exact ⟨hj.1, lt_trans hj.2 hxy⟩
  constructor
  · intro h
    rcases lt_trichotomy (s.drop a) (s.drop b) with h1 | h1 | h1
    · exact h1
    · have : a = b := by
        by_contra hne
        exact suf_ne s (le_of_lt ha) (le_of_lt hb) hne h1
      rw [this] at h
      exact absurd h (lt_irrefl _)
    · have := key b a hb h1
      omega
  · exact key a b ha

theorem sufRow_lt_iff (s : List Byte) {a b : Nat} (ha : a ≤ s.length) (hb : b ≤ s.length) :
    sufRow s a < sufRow s b ↔ s.drop a < s.drop b := by
  unfold sufRow
  rcases Nat.lt_or_ge a s.length with h1 | h1 <;> rcases Nat.lt_or_ge b s.length with h2 | h2
  · rw [if_pos h1, if_pos h2]
    rw [← sufRank_lt_iff s h1 h2]
    omega
  · have hb' : b = s.length := by omega
    subst hb'
    rw [if_pos h1, if_neg (lt_irrefl _)]
    simp only [suf_end]
    constructor
    · intro h; omega
    · intro h; exact absurd h (List.Lex.not_nil_right _ _)
  · have ha' : a = s.length := by omega
    subst ha'
    rw [if_neg (lt_irrefl _), if_pos h2]
    constructor
    · intro _; exact suf_end_lt s h2
    · intro _; omega
  · have ha' : a = s.length := by omega
    have hb' : b = s.length := by omega
    subst ha'
    rw [hb']
    simp

theorem sufRow_inj (s : List Byte) {a b : Nat} (ha : a ≤ s.length) (hb : b ≤ s.length)
    (h : sufRow s a = sufRow s b) : a = b := by
  by_contra hne
  rcases lt_trichotomy (s.drop a) (s.drop b) with h1 | h1 | h1
  · have := (sufRow_lt_iff s ha hb).mpr h1
    omega
  · exact suf_ne s ha hb hne h1
  · have := (sufRow_lt_iff s hb ha).mpr h1
    omega

theorem sufRow_le (s : List Byte) (k : Nat) : sufRow s k ≤ s.length := by
  unfold sufRow
  split
  · rename_i h
    have := sufRank_lt s h
    omega
  · omega

theorem sufRow_pos (s : List Byte) {k : Nat} (hk : k < s.length) : 1 ≤ sufRow s k := by
  unfold sufRow
  rw [if_pos hk]
  omega

theorem sufRow_end (s : List Byte) : sufRow s s.length = 0 := by
  unfold sufRow
  rw [if_neg (lt_irrefl _)]

/-! ## The suffix array -/

theorem suffixArray_perm (s : List Byte) : (suffixArray s).Perm (List.range s.length) :=
  List.perm_insertionSort _ _

theorem suffixArray_sorted (s : List Byte) : (suffixArray s).Sorted (suffixLe s) :=
  List.sorted_insertionSort _ _

theorem suffixArray_nodup (s : List Byte) : (suffixArray s).Nodup :=
  (suffixArray_perm s).nodup_iff.mpr (List.nodup_range _)

theorem mem_suffixArray (s : List Byte) (k : Nat) : k ∈ suffixArray s ↔ k < s.length := by
  rw [(suffixArray_perm s).mem_iff, List.mem_range]

/-- In a list of distinct suffix positions sorted by suffix, the index of a
position is the number of members with a smaller suffix. -/
theorem indexOf_sorted (s : List Byte) (k : Nat) (hk : k ≤ s.length) : ∀ (l : List Nat),
    l.Sorted (suffixLe s) → l.Nodup → (∀ x ∈ l, x ≤ s.length) → k ∈ l →
    l.indexOf k = (l.filter (fun j => decide (s.drop j < s.drop k))).length := by
  intro l
  induction l with
  | nil => intro _ _ _ h; exact absurd h (List.not_mem_nil _)
  | cons x l ih =>
    intro hs hn hb hm
    rw [List.sorted_cons] at hs
    rw [List.nodup_cons] at hn
    by_cases hx : x = k
    · subst hx
      rw [List.indexOf_cons_self]
      have : (x :: l).filter (fun j => decide (s.drop j < s.drop x)) = [] := by
        rw [List.filter_eq_nil_iff]
        intro y hy
        simp only [decide_eq_true_eq, not_lt]
        rcases List.mem_cons.mp hy with e | e
        · rw [e]
        · exact hs.1 y e
      rw [this]
      rfl
    · have hkl : k ∈ l := by
        rcases List.mem_cons.mp hm with e | e
        · exact absurd e.symm hx
        · exact e
      have hle : s.drop x ≤ s.drop k := hs.1 k hkl
      have hlt : s.drop x < s.drop k :=
        lt_of_le_of_ne hle (suf_ne s (hb x (List.mem_cons_self _ _)) hk hx)
      rw [List.indexOf_cons_ne _ (fun h => hx h), List.filter_cons_of_pos (by simpa using hlt),
        List.length_cons, ih hs.2 hn.2 (fun y hy => hb y (List.mem_cons_of_mem _ hy)) hkl]

theorem range_filter_length (n : Nat) (p : Nat → Bool) :
    ((List.range n).filter p).length = ((Finset.range n).filter (fun j => p j = true)).card := by
  induction n with
  | zero => simp
  | succ n ih =>
    rw [List.range_succ, List.filter_append, List.length_append, ih, Finset.range_succ,
      Finset.filter_insert]
    by_cases h : p n = true
    · rw [if_pos h, Finset.card_insert_of_not_mem (by simp)]
      simp [h]
    · rw [if_neg h]
      simp [h]

/-- The index of a position in the suffix array is its rank. -/
theorem indexOf_suffixArray (s : List Byte) (k : Nat) (hk : k < s.length) :
    (suffixArray s).indexOf k = sufRank s k := by
  rw [indexOf_sorted s k (le_of_lt hk) _ (suffixArray_sorted s) (suffixArray_nodup s)
    (fun x hx => le_of_lt ((mem_suffixArray s x).mp hx)) ((mem_suffixArray s k).mpr hk)]
  rw [((suffixArray_perm s).filter _).length_eq, range_filter_length]
  unfold sufRank
  congr 1
  ext j
  simp

/-- The index of a position other than 0 in the suffix array without 0. -/
theorem indexOf_filter (s : List Byte) (k : Nat) (hk : k < s.length) (hk0 : k ≠ 0) :
    ((suffixArray s).filter (fun j => decide (j ≠ 0))).indexOf k =
      sufRank s k - (if s.drop 0 < s.drop k then 1 else 0) := by
  have hmem : k ∈ (suffixArray s).filter (fun j => decide (j ≠ 0)) := by
    rw [List.mem_filter]
    exact ⟨(mem_suffixArray s k).mpr hk, by simpa using hk0⟩
  rw [indexOf_sorted s k (le_of_lt hk) _ ((suffixArray_sorted s).filter _)
    ((suffixArray_nodup s).filter _)
    (fun x hx => le_of_lt ((mem_suffixArray s x).mp (List.mem_filter.mp hx).1)) hmem]
  rw [List.filter_filter, ((suffixArray_perm s).filter _).length_eq, range_filter_length]
  unfold sufRank
  have hset : (Finset.range s.length).filter
      (fun j => (decide (s.drop j < s.drop k) && decide (j ≠ 0)) = true) =
      ((Finset.range s.length).filter (fun j => s.drop j < s.drop k)).erase 0 := by
    ext j
    simp only [Finset.mem_filter, Finset.mem_range, Bool.and_eq_true, decide_eq_true_eq,
      Finset.mem_erase]
    tauto
  rw [hset]
  by_cases h0 : s.drop 0 < s.drop k
  · rw [if_pos h0, Finset.card_erase_of_mem]
    simp only [Finset.mem_filter, Finset.mem_range]
    exact ⟨by omega, h0⟩
  · rw [if_neg h0, Finset.erase_eq_of_not_mem]
    · rfl
    · simp only [Finset.mem_filter, Finset.mem_range, not_and]
      intro _; exact h0

theorem bwtSpec_idx (s : List Byte) (hs : s ≠ []) : (bwtSpec s).2 = (sufRow s 0 : Int) := by
  have hn : 0 < s.length := List.length_pos.mpr hs
  unfold bwtSpec sufRow
  rw [if_pos hn]
  simp only
  rw [indexOf_suffixArray s 0 hn]

theorem bwtSpec_length (s : List Byte) (hs : s ≠ []) : (bwtSpec s).1.length = s.length := by
  have hn : 0 < s.length := List.length_pos.mpr hs
  unfold bwtSpec
  simp only [List.length_cons, List.length_map]
  rw [((suffixArray_perm s).filter _).length_eq, range_filter_length]
  have : (Finset.range s.length).filter (fun j => decide (j ≠ 0) = true) =
      (Finset.range s.length).erase 0 := by
    ext j
    simp only [Finset.mem_filter, Finset.mem_range, decide_eq_true_eq, Finset.mem_erase]
    tauto
  rw [this, Finset.card_erase_of_mem (by simpa using hn), Finset.card_range]
  omega

/-- The block computed by `bwtSpec` stands in the relation `IsBWT` to its
string. -/
theorem bwtSpec_isBWT (s : List Byte) (hs : s ≠ []) :
    IsBWT s (bufOf (bwtSpec s).1) (bwtSpec s).2 := by
  have hn : 0 < s.length := List.length_pos.mpr hs
  refine ⟨bwtSpec_idx s hs, ?_⟩
  intro k hk
  rw [bwtSpec_idx s hs]
  have hrow0 : sufRow s 0 = sufRank s 0 + 1 := by unfold sufRow; rw [if_pos hn]
  rcases Nat.lt_or_ge (k + 1) s.length with h1 | h1
  · -- an inner suffix
    have hrow : sufRow s (k + 1) = sufRank s (k + 1) + 1 := by unfold sufRow; rw [if_pos h1]
    have hne : sufRank s (k + 1) ≠ sufRank s 0 := by
      intro h
      have := sufRow_inj s (le_of_lt h1) (le_of_lt hn) (by rw [hrow, hrow0, h])
      omega
    have hiff := sufRank_lt_iff s hn h1
    have hidx := indexOf_filter s (k + 1) h1 (by omega)
    set F := (suffixArray s).filter (fun j => decide (j ≠ 0)) with hF
    have hmem : k + 1 ∈ F := by
      rw [hF, List.mem_filter]
      exact ⟨(mem_suffixArray s (k + 1)).mpr h1, by simp⟩
    have hlt : F.indexOf (k + 1) < F.length := List.indexOf_lt_length.mpr hmem
    have hpos : (emitPos (sufRow s 0 : Int) (sufRow s (k + 1) : Int)).toNat =
        F.indexOf (k + 1) + 1 := by
      rw [hidx, hrow, hrow0]
      unfold emitPos
      by_cases hc : s.drop 0 < s.drop (k + 1)
      · have := hiff.mpr hc
        rw [if_pos hc]
        have hge : ((sufRank s (k + 1) + 1 : Nat) : Int) ≥ ((sufRank s 0 + 1 : Nat) : Int) := by
          omega
        rw [if_pos hge]
        omega
      · have hn2 : ¬ sufRank s 0 < sufRank s (k + 1) := fun h => hc (hiff.mp h)
        rw [if_neg hc]
        have hge : ¬ ((sufRank s (k + 1) + 1 : Nat) : Int) ≥ ((sufRank s 0 + 1 : Nat) : Int) := by
          omega
        rw [if_neg hge]
        omega
    rw [hpos]
    unfold bufOf bwtSpec
    simp only [List.getD_cons_succ]
    rw [← hF]
    have hl2 : F.indexOf (k + 1) < (F.map (fun k => s.getD (k - 1) 0)).length := by
      rw [List.length_map]; exact hlt
    rw [List.getD_eq_getElem _ _ hl2, List.getElem_map]
    have : F[F.indexOf (k + 1)] = k + 1 := List.getElem_indexOf hlt
    rw [this]
    rfl
  · -- the suffix after the last byte
    have hk1 : k + 1 = s.length := by omega
    rw [hk1, sufRow_end]
    have hpos : (emitPos (sufRow s 0 : Int) ((0 : Nat) : Int)).toNat = 0 := by
      unfold emitPos
      rw [hrow0]
      have hge : ¬ (((0 : Nat) : Int) ≥ ((sufRank s 0 + 1 : Nat) : Int)) := by omega
      rw [if_neg hge]
      rfl
    rw [hpos]
    unfold bufOf bwtSpec
    simp only [List.getD_cons_zero]
    have : s.length - 1 = k := by omega
    rw [this]

/-! ## The inverse BWT on a transformed block -/

theorem bwtPos_eq (s : List Byte) (k : Nat) (hk : k < s.length) :
    (bwtPos s k : Int) = emitPos (sufRow s 0 : Int) (sufRow s (k + 1) : Int) ∧
    bwtPos s k < s.length ∧
    (bwtPos s k : Int) + (if (bwtPos s k : Int) ≥ (sufRow s 0 : Int) then 1 else 0) =
      (sufRow s (k + 1) : Int) := by
  have hn : 0 < s.length := by omega
  have h0 := sufRow_pos s hn
  have h0' := sufRow_le s 0
  have h1 := sufRow_le s (k + 1)
  have hne : sufRow s (k + 1) ≠ sufRow s 0 := by
    intro h
    have := sufRow_inj s (by omega) (by omega) h
    omega
  unfold bwtPos emitPos
  split <;> (refine ⟨by omega, by omega, ?_⟩; split <;> omega)

theorem bwtPos_lt_iff (s : List Byte) {j k : Nat} (hj : j < s.length) (hk : k < s.length) :
    bwtPos s j < bwtPos s k ↔ s.drop (j + 1) < s.drop (k + 1) := by
  rw [← sufRow_lt_iff s (by omega) (by omega)]
  have hn : 0 < s.length := by omega
  have h0 := sufRow_pos s hn
  have hnej : sufRow s (j + 1) ≠ sufRow s 0 := by
    intro h
    have := sufRow_inj s (by omega) (by omega) h
    omega
  have hnek : sufRow s (k + 1) ≠ sufRow s 0 := by
    intro h
    have := sufRow_inj s (by omega) (by omega) h
    omega
  unfold bwtPos emitPos
  split <;> split <;> omega

theorem bwtPos_inj (s : List Byte) {j k : Nat} (hj : j < s.length) (hk : k < s.length)
    (h : bwtPos s j = bwtPos s k) : j = k := by
  by_contra hne
  rcases lt_trichotomy (s.drop (j + 1)) (s.drop (k + 1)) with h1 | h1 | h1
  · have := (bwtPos_lt_iff s hj hk).mpr h1
    omega
  · exact suf_ne s (by omega) (by omega) (by omega) h1
  · have := (bwtPos_lt_iff s hk hj).mpr h1
    omega

/-- Counting positions of the block is counting positions of the string. -/
theorem card_bwtPos (s : List Byte) (Q : Nat → Prop) [DecidablePred Q] :
    ((Finset.range s.length).filter Q).card =
      ((Finset.range s.length).filter (fun j => Q (bwtPos s j))).card := by
  symm
  apply Finset.card_bij (fun j _ => bwtPos s j)
  · intro j hj
    simp only [Finset.mem_filter, Finset.mem_range] at hj ⊢
    exact ⟨(bwtPos_eq s j hj.1).2.1, hj.2⟩
  · intro a ha b hb hab
    simp only [Finset.mem_filter, Finset.mem_range] at ha hb
    exact bwtPos_inj s ha.1 hb.1 hab
  · intro i hi
    simp only [Finset.mem_filter, Finset.mem_range] at hi
    have himg : (Finset.range s.length).image (bwtPos s) = Finset.range s.length := by
      apply Finset.eq_of_subset_of_card_le
      · intro y hy
        simp only [Finset.mem_image, Finset.mem_range] at hy ⊢
        obtain ⟨a, ha, rfl⟩ := hy
        exact (bwtPos_eq s a ha).2.1
      · rw [Finset.card_image_of_injOn]
        intro a ha b hb hab
        simp only [Finset.coe_range, Set.mem_Iio] at ha hb
        exact bwtPos_inj s ha hb hab
    have : i ∈ (Finset.range s.length).image (bwtPos s) := by
      rw [himg]; simpa using hi.1
    simp only [Finset.mem_image, Finset.mem_range] at this
    obtain ⟨j, hj, rfl⟩ := this
    exact ⟨j, by simp only [Finset.mem_filter, Finset.mem_range]; exact ⟨hj, hi.2⟩, rfl⟩

/-- The stable-sort position of the place of `s[k]` is the rank of the suffix
at `k`. -/
theorem sigma_bwtPos (s : List Byte) (buf : Nat → Nat) (idx : Int) (h : IsBWT s buf idx)
    (k : Nat) (hk : k < s.length) : sigma buf s.length (bwtPos s k) = sufRank s k := by
  obtain ⟨hidx, hb⟩ := h
  have hbuf : ∀ j, j < s.length → buf (bwtPos s j) = (s.getD j 0).val := by
    intro j hj
    have := hb j hj
    rw [hidx] at this
    exact this
  unfold sigma
  rw [hbuf k hk]
  have e1 : cntLt buf s.length (s.getD k 0).val =
      ((Finset.range s.length).filter (fun j => s.getD j 0 < s.getD k 0)).card := by
    unfold cntLt
    rw [card_bwtPos s (fun i => buf i < (s.getD k 0).val)]
    apply congrArg
    apply Finset.filter_congr
    intro j hj
    rw [hbuf j (by simpa using hj)]
    exact Iff.rfl
  have e2 : cntEq buf (bwtPos s k) (s.getD k 0).val =
      ((Finset.range s.length).filter
        (fun j => s.getD j 0 = s.getD k 0 ∧ s.drop (j + 1) < s.drop (k + 1))).card := by
    unfold cntEq
    have e3 : (Finset.range (bwtPos s k)).filter (fun i => buf i = (s.getD k 0).val) =
        (Finset.range s.length).filter
          (fun i => i < bwtPos s k ∧ buf i = (s.getD k 0).val) := by
      ext i
      simp only [Finset.mem_filter, Finset.mem_range]
      have := (bwtPos_eq s k hk).2.1
      constructor
      · intro hh; exact ⟨by omega, hh.1, hh.2⟩
      · intro hh; exact ⟨hh.2.1, hh.2.2⟩
    rw [e3, card_bwtPos s (fun i => i < bwtPos s k ∧ buf i = (s.getD k 0).val)]
    apply congrArg
    apply Finset.filter_congr
    intro j hj
    have hj' : j < s.length := by simpa using hj
    rw [hbuf j hj', bwtPos_lt_iff s hj' hk]
    constructor
    · intro hh; exact ⟨Fin.ext hh.2, hh.1⟩
    · intro hh; exact ⟨hh.2, congrArg Fin.val hh.1⟩
  rw [e1, e2]
  unfold sufRank
  rw [← Finset.card_union_of_disjoint]
  · apply congrArg
    ext j
    simp only [Finset.mem_union, Finset.mem_filter, Finset.mem_range]
    constructor
    · intro hh
      rcases hh with hh | hh
      · exact ⟨hh.1, (suf_lt_iff s hh.1 hk).mpr (Or.inl hh.2)⟩
      · exact ⟨hh.1, (suf_lt_iff s hh.1 hk).mpr (Or.inr hh.2)⟩
    · intro hh
      rcases (suf_lt_iff s hh.1 hk).mp hh.2 with h1 | h1
      · exact Or.inl ⟨hh.1, h1⟩
      · exact Or.inr ⟨hh.1, h1⟩
  · rw [Finset.disjoint_filter]
    intro j _ h1 h2
    rw [h2.1] at h1
    exact lt_irrefl _ h1

theorem cntEq_congr (buf buf2 : Nat → Nat) (n c : Nat) (h : ∀ i, i < n → buf i = buf2 i) :
    cntEq buf n c = cntEq buf2 n c := by
  unfold cntEq
  apply congrArg
  apply Finset.filter_congr
  intro i hi
  rw [h i (by simpa using hi)]

theorem bufOf_lt (L : List Byte) (i : Nat) : bufOf L i < 256 := (L.getD i 0).isLt

theorem bufOf_append (L : List Byte) (c : Byte) (i : Nat) (h : i < L.length) :
    bufOf (L ++ [c]) i = bufOf L i := by
  unfold bufOf
  rw [List.getD_eq_getElem _ _ (by rw [List.length_append]; omega), List.getD_eq_getElem _ _ h,
    List.getElem_append_left h]

theorem bufOf_last (L : List Byte) (c : Byte) : bufOf (L ++ [c]) L.length = c.val := by
  unfold bufOf
  rw [List.getD_eq_getElem _ _ (by simp), List.getElem_append_right (le_refl _)]
  simp

/-- The histogram of a block counts its bytes, shifted by one. -/
theorem histogram_spec (L : List Byte) :
    histogram L 0 = 0 ∧ ∀ c, histogram L (c + 1) = (cntEq (bufOf L) L.length c : Int) := by
  induction L using List.reverseRecOn with
  | nil => exact ⟨rfl, fun c => by simp [histogram, cntEq_zero]⟩
  | append_singleton L c ih =>
    have e : histogram (L ++ [c]) = bump (histogram L) (c.val + 1) := by
      unfold histogram
      rw [List.foldl_append]
      rfl
    rw [e]
    constructor
    · unfold bump
      rw [if_neg (by omega)]
      exact ih.1
    · intro v
      unfold bump
      rw [List.length_append, List.length_singleton, cntEq_succ, bufOf_last,
        cntEq_congr _ (bufOf L) _ _ (fun i hi => bufOf_append L c i hi)]
      by_cases hv : v = c.val
      · subst hv
        rw [if_pos rfl, if_pos rfl, ih.2]
        push_cast
        rfl
      · rw [if_neg (by omega), if_neg (fun h => hv h.symm), ih.2]
        simp

/-- On a transformed block the successive values of `p` are the rows of the
successive suffixes. -/
theorem emitOrbit_bwt (s : List Byte) (buf : Nat → Nat) (idx : Int) (next2 : Nat → Int)
    (h : IsBWT s buf idx)
    (hnext : ∀ a, a < s.length →
      next2 (sigma buf s.length a) = (a : Int) + (if (a : Int) ≥ idx then 1 else 0)) :
    ∀ k, k ≤ s.length → emitOrbit next2 idx k = (sufRow s k : Int) := by
  intro k
  induction k with
  | zero => intro _; exact h.1
  | succ k ih =>
    intro hk
    have hk' : k < s.length := by omega
    rw [emitOrbit, ih (by omega)]
    have hrow : sufRow s k = sufRank s k + 1 := by unfold sufRow; rw [if_pos hk']
    have e : (((sufRow s k : Nat) : Int) - 1).toNat = sigma buf s.length (bwtPos s k) := by
      rw [sigma_bwtPos s buf idx h k hk', hrow]
      omega
    rw [e, hnext _ (bwtPos_eq s k hk').2.1, h.1]
    exact (bwtPos_eq s k hk').2.2

/-- The inverse BWT of lines 373-382 returns the string of a transformed
block. -/
theorem inverseBWT_of_isBWT (s : List Byte) (hs : s ≠ []) (cap idx : Int) (buf : Nat → Nat)
    (t next : Nat → Int) (fuel : Nat) (h : IsBWT s buf idx)
    (hbuf : ∀ i, i < s.length → buf i < 256) (ht0 : t 0 = 0)
    (ht : ∀ c, t (c + 1) = (cntEq buf s.length c : Int))
    (hcap : (s.length : Int) ≤ cap) (hf : s.length ≤ fuel) :
    ∃ next2, inverseBWT cap s.length idx buf t next fuel = some (some (next2, s)) := by
  have hn : 0 < s.length := List.length_pos.mpr hs
  have h1 : 1 ≤ idx := by
    rw [h.1]
    have := sufRow_pos s hn
    omega
  have h2 : idx ≤ s.length := by
    rw [h.1]
    have := sufRow_le s 0
    omega
  obtain ⟨next2, out, hinv, _, hlen, _, hspec, hemit⟩ :=
    inverseBWT_total cap idx buf s.length t next fuel hbuf ht0 ht h1 h2 hcap hf
  have horb := emitOrbit_bwt s buf idx next2 h hspec
  have hemit0 : emitLoop cap idx buf next2 fuel (emitOrbit next2 idx 0) = some (some out) :=
    hemit
  obtain ⟨_, o2, o3⟩ := emitLoop_out cap idx buf next2 fuel 0 out hemit0
  have hlen2 : out.length = s.length := by
    by_contra hne
    have hlt : out.length < s.length := by omega
    rw [Nat.zero_add, horb _ hlen] at o2
    have := sufRow_pos s hlt
    omega
  refine ⟨next2, ?_⟩
  rw [hinv]
  have : out = s := by
    apply List.ext_getElem hlen2
    intro i hi1 hi2
    have hi3 : i < ((List.range' 0 out.length).map
        (fun k => putc (buf (emitPos idx (emitOrbit next2 idx (k + 1))).toNat))).length := by
      simpa using hi1
    have hget : out[i] = ((List.range' 0 out.length).map
        (fun k => putc (buf (emitPos idx (emitOrbit next2 idx (k + 1))).toNat)))[i] := by
      congr 1
    rw [hget, List.getElem_map, List.getElem_range']
    simp only [Nat.zero_add, Nat.one_mul]
    rw [horb (i + 1) (by omega)]
    have := h.2 i hi2
    rw [this, List.getD_eq_getElem _ _ hi2]
    unfold putc
    apply Fin.ext
    simp [Fin.ofNat]
  rw [this]

/-! ## The decoder on arbitrary input -/

theorem shiftIn_nil (code : Nat) : shiftIn code [] = (4294967295, []) := by
  unfold shiftIn getc
  simp only [toU32_neg_one]
  rw [shl8, or_ones _ (Nat.mod_lt _ (by norm_num))]

theorem shiftIn_cons (code : Nat) (b : Byte) (rest : List Byte) :
    shiftIn code (b :: rest) = (code * 256 % 4294967296 + b.val, rest) := by
  unfold shiftIn getc
  simp only
  rw [shl8, toU32_ofNat _ (by have := b.isLt; omega), or_byte_mod _ _ b.isLt]

/-- What the renormalisation loop of `DecodeBit` does to the input: nothing, or
it consumes input, or it reads past the end and fills `code` with ones. -/
theorem decRenorm_input (k : Nat) : ∀ (code low high : Nat) (inp : List Byte),
    (low / 16777216 ≠ high / 16777216 ∧ decRenorm k code low high inp = (code, low, high, inp)) ∨
    (decRenorm k code low high inp).2.2.2.length < inp.length ∨
    ((decRenorm k code low high inp).2.2.2 = [] ∧ (decRenorm k code low high inp).1 = 4294967295) ∨
    k = 0 := by
  induction k with
  | zero => intro _ _ _ _; exact Or.inr (Or.inr (Or.inr rfl))
  | succ k ih =>
    intro code low high inp
    rw [decRenorm_succ]
    by_cases hc : low / 16777216 = high / 16777216
    · rw [if_pos hc]
      right
      cases inp with
      | nil =>
        rw [shiftIn_nil]
        simp only
        rcases ih 4294967295 (low * 256 % 4294967296) (high * 256 % 4294967296 + 255) [] with
          h | h | h | h
        · right; left; rw [h.2]; exact ⟨rfl, rfl⟩
        · simp at h
        · right; left; exact h
        · right; left; subst h; exact ⟨rfl, rfl⟩
      | cons b rest =>
        rw [shiftIn_cons]
        simp only
        rcases ih (code * 256 % 4294967296 + b.val) (low * 256 % 4294967296)
          (high * 256 % 4294967296 + 255) rest with h | h | h | h
        · left; rw [h.2]; simp
        · left; simp only [List.length_cons]; omega
        · right; left; exact h
        · left; subst h; simp [decRenorm_zero]
    · rw [if_neg hc]
      exact Or.inl ⟨hc, rfl⟩

theorem decRenorm_dead (k : Nat) : ∀ (low high : Nat),
    (decRenorm k 4294967295 low high []).1 = 4294967295 ∧
      (decRenorm k 4294967295 low high []).2.2.2 = [] := by
  induction k with
  | zero => intro _ _; exact ⟨rfl, rfl⟩
  | succ k ih =>
    intro low high
    rw [decRenorm_succ]
    split
    · rw [shiftIn_nil]
      exact ih _ _
    · exact ⟨rfl, rfl⟩

theorem decodeBit_inv (w : Bool) (e : Encoder) (p : Nat) (inp : List Byte)
    (hinv : EncInv e.low e.high) (hp : p < 262144) :
    EncInv (e.DecodeBit w p inp).2.1.low (e.DecodeBit w p inp).2.1.high := by
  have hlt := encInv_lt hinv
  obtain ⟨h1, h2, h3⟩ := hinv
  have hd := split_lt w e.low e.high p hlt h2 hp
  unfold Encoder.DecodeBit
  simp only [W32]
  apply decRenorm_inv
  · split <;> simp <;> omega
  · split <;> simp <;> omega

/-- Each decoded bit lowers the rank of the decoder; at rank zero the bit is
zero. -/
theorem decodeBit_rank (w : Bool) (e : Encoder) (p : Nat) (inp : List Byte)
    (hinv : EncInv e.low e.high) (hp : p < 262144) :
    decRank (e.DecodeBit w p inp).2.1 (e.DecodeBit w p inp).2.2 ≤ decRank e inp - 1 ∧
      (decRank e inp = 0 → (e.DecodeBit w p inp).1 = 0) ∧ (e.DecodeBit w p inp).1 ≤ 1 := by
  have hinv2 := decodeBit_inv w e p inp hinv hp
  have hlt := encInv_lt hinv
  obtain ⟨h1, h2, h3⟩ := hinv
  have hd := split_lt w e.low e.high p hlt h2 hp
  have hm : (e.low + split w e.low e.high p) % 4294967296 = e.low + split w e.low e.high p := by
    omega
  have hm1 : (e.low + split w e.low e.high p + 1) % 4294967296 =
      e.low + split w e.low e.high p + 1 := by omega
  by_cases hdead : Dead e inp
  · -- past the end: the bit is zero and the decoder stays past the end
    obtain ⟨hi, hc⟩ := hdead
    have hr : decRank e inp = 0 := by
      unfold decRank; rw [if_pos ⟨hi, hc⟩]
    have hbit : ¬ (4294967295 : Nat) ≤ e.low + split w e.low e.high p := by omega
    have hres : Dead (e.DecodeBit w p inp).2.1 (e.DecodeBit w p inp).2.2 ∧
        (e.DecodeBit w p inp).1 = 0 := by
      unfold Encoder.DecodeBit Dead
      simp only [W32, hm, hc, hi, hbit, if_false, ne_eq, not_true_eq_false]
      have := decRenorm_dead 4 ((e.low + split w e.low e.high p + 1) % 4294967296) e.high
      exact ⟨⟨this.2, this.1⟩, trivial⟩
    refine ⟨?_, fun _ => hres.2, by rw [hres.2]; omega⟩
    unfold decRank
    rw [if_pos hres.1]
    omega
  · have hr : decRank e inp = 1 + inp.length * 4294967296 + (e.high - e.low) := by
      unfold decRank; rw [if_neg hdead]
    refine ⟨?_, fun h => by omega, ?_⟩
    · rw [hr]
      by_cases hdead2 : Dead (e.DecodeBit w p inp).2.1 (e.DecodeBit w p inp).2.2
      · unfold decRank
        rw [if_pos hdead2]
        omega
      · have hr2 : decRank (e.DecodeBit w p inp).2.1 (e.DecodeBit w p inp).2.2 =
            1 + (e.DecodeBit w p inp).2.2.length * 4294967296 +
              ((e.DecodeBit w p inp).2.1.high - (e.DecodeBit w p inp).2.1.low) := by
          unfold decRank; rw [if_neg hdead2]
        rw [hr2]
        have hspan : (e.DecodeBit w p inp).2.1.high - (e.DecodeBit w p inp).2.1.low <
            4294967296 := by
          have := hinv2.2.1
          omega
        revert hdead2 hspan
        unfold Encoder.DecodeBit Dead
        simp only [W32, hm]
        by_cases hb : e.code ≤ e.low + split w e.low e.high p
        · simp only [hb, if_true, ne_eq, one_ne_zero, not_false_eq_true]
          intro hdead2 hspan
          rcases decRenorm_input 4 e.code e.low (e.low + split w e.low e.high p) inp with
            h | h | h | h
          · rw [h.2]; simp only; omega
          · omega
          · exact absurd h hdead2
          · omega
        · simp only [hb, if_false, ne_eq, not_true_eq_false, hm1]
          intro hdead2 hspan
          rcases decRenorm_input 4 e.code (e.low + split w e.low e.high p + 1) e.high inp with
            h | h | h | h
          · rw [h.2]; simp only; omega
          · omega
          · exact absurd h hdead2
          · omega
    · unfold Encoder.DecodeBit
      simp only
      split <;> omega

theorem update_enc (m : CM) (f ctx : Nat) (j : Int) (b : Nat) :
    (m.update f ctx j b).enc = m.enc := rfl

/-- The loop body of `Decode` on any input: the invariants are kept, the rank
drops, and `ctx` takes up the decoded bit. -/
theorem decodeStep_rank (w : Bool) (d : CM) (f ctx : Nat) (inp : List Byte) (h : d.Inv)
    (he : EncInv d.enc.low d.enc.high) :
    (d.decodeStep w f ctx inp).1.Inv ∧
    EncInv (d.decodeStep w f ctx inp).1.enc.low (d.decodeStep w f ctx inp).1.enc.high ∧
    decRank (d.decodeStep w f ctx inp).1.enc (d.decodeStep w f ctx inp).2.2 ≤
      decRank d.enc inp - 1 ∧
    (2 * ctx ≤ (d.decodeStep w f ctx inp).2.1 ∧ (d.decodeStep w f ctx inp).2.1 ≤ 2 * ctx + 1) ∧
    (decRank d.enc inp = 0 → (d.decodeStep w f ctx inp).2.1 = 2 * ctx) := by
  have hp := prob_lt d f ctx h
  have hi := decodeStep_inv w d f ctx inp h
  have hb := decodeBit_inv w d.enc _ inp he hp
  have hr := decodeBit_rank w d.enc _ inp he hp
  refine ⟨hi, ?_⟩
  unfold CM.decodeStep
  dsimp only
  by_cases hbit : (d.enc.DecodeBit w (toU32 (d.mix f ctx).prob) inp).1 ≠ 0
  · rw [if_pos hbit]
    simp only [update_enc]
    refine ⟨hb, hr.1, by omega, fun h0 => absurd (hr.2.1 h0) hbit⟩
  · rw [if_neg hbit]
    simp only [update_enc]
    refine ⟨hb, hr.1, by omega, fun _ => by omega⟩

/-- The bit loop of `Decode` on any input. -/
theorem decodeLoop_rank (w : Bool) (k : Nat) : ∀ (d : CM) (f ctx : Nat) (inp : List Byte),
    d.Inv → EncInv d.enc.low d.enc.high → k ≤ 8 → 2 ^ (8 - k) ≤ ctx → ctx < 2 ^ (9 - k) →
    (CM.decodeLoop w k d f ctx inp).1.Inv ∧
    EncInv (CM.decodeLoop w k d f ctx inp).1.enc.low (CM.decodeLoop w k d f ctx inp).1.enc.high ∧
    decRank (CM.decodeLoop w k d f ctx inp).1.enc (CM.decodeLoop w k d f ctx inp).2.2 ≤
      decRank d.enc inp - k ∧
    (256 ≤ (CM.decodeLoop w k d f ctx inp).2.1 ∧ (CM.decodeLoop w k d f ctx inp).2.1 < 512) ∧
    (decRank d.enc inp = 0 → (CM.decodeLoop w k d f ctx inp).2.1 = ctx * 2 ^ k) := by
  induction k with
  | zero =>
    intro d f ctx inp h he _ hlo hhi
    simp only [CM.decodeLoop, pow_zero, mul_one, Nat.sub_zero] at *
    refine ⟨h, he, le_refl _, ⟨by omega, by omega⟩, ?_⟩
    simp
  | succ k ih =>
    intro d f ctx inp h he hk hlo hhi
    have hc : ctx < 256 := by
      have : 2 ^ (9 - (k + 1)) ≤ 2 ^ 8 := Nat.pow_le_pow_right (by norm_num) (by omega)
      omega
    rw [CM.decodeLoop, if_pos hc]
    dsimp only
    obtain ⟨s1, s2, s3, s4, s5⟩ := decodeStep_rank w d f ctx inp h he
    have e1 : 8 - k = (8 - (k + 1)) + 1 := by omega
    have e2 : 9 - k = (9 - (k + 1)) + 1 := by omega
    obtain ⟨i1, i2, i3, i4, i5⟩ := ih (d.decodeStep w f ctx inp).1 f
      (d.decodeStep w f ctx inp).2.1 (d.decodeStep w f ctx inp).2.2 s1 s2 (by omega)
      (by rw [e1, pow_succ]; omega) (by rw [e2, pow_succ]; omega)
    refine ⟨i1, i2, by omega, i4, ?_⟩
    intro h0
    rw [i5 (by omega), s5 h0, pow_succ]
    ring

/-- One `Decode` call on any input: the invariants are kept, the rank drops,
the value is a byte, and it is zero once the decoder is past the end. -/
theorem decode_rank (w : Bool) (d : CM) (inp : List Byte) (h : d.Inv)
    (he : EncInv d.enc.low d.enc.high) :
    (d.Decode w inp).2.1.Inv ∧
    EncInv (d.Decode w inp).2.1.enc.low (d.Decode w inp).2.1.enc.high ∧
    decRank (d.Decode w inp).2.1.enc (d.Decode w inp).2.2 ≤ decRank d.enc inp - 1 ∧
    (d.Decode w inp).1 < 256 ∧
    (decRank d.enc inp = 0 → (d.Decode w inp).1 = 0) := by
  obtain ⟨i1, i2, i3, _, i5⟩ := decodeLoop_rank w 8 { d with run := d.nextRun } d.flag 1 inp
    (inv_run d _ h) he (le_refl _) (by norm_num) (by norm_num)
  unfold CM.Decode
  dsimp only
  refine ⟨inv_ctx _ _ _ i1, i2, ?_, ?_, ?_⟩
  · have e : ({ d with run := d.nextRun } : CM).enc = d.enc := rfl
    rw [e] at i3
    omega
  · rw [and_255]; omega
  · intro h0
    have e : ({ d with run := d.nextRun } : CM).enc = d.enc := rfl
    rw [e] at i5
    rw [and_255, i5 h0]
    norm_num

theorem toI32_range (x : Nat) : -2147483648 ≤ toI32 x ∧ toI32 x < 2147483648 := by
  unfold toI32
  split <;> omega

theorem or_zero_four : ((0 : Nat) <<< 24 ||| 0 <<< 16 ||| 0 <<< 8 ||| 0) = 0 := by decide

/-- The header expression on any input. -/
theorem decodeInt_rank (w : Bool) (d : CM) (inp : List Byte) (h : d.Inv)
    (he : EncInv d.enc.low d.enc.high) :
    (decodeInt w d inp).2.1.Inv ∧
    EncInv (decodeInt w d inp).2.1.enc.low (decodeInt w d inp).2.1.enc.high ∧
    decRank (decodeInt w d inp).2.1.enc (decodeInt w d inp).2.2 ≤ decRank d.enc inp - 1 ∧
    (decRank d.enc inp = 0 → (decodeInt w d inp).1 = 0) ∧
    (-2147483648 ≤ (decodeInt w d inp).1 ∧ (decodeInt w d inp).1 < 2147483648) := by
  obtain ⟨a1, a2, a3, _, a5⟩ := decode_rank w d inp h he
  obtain ⟨b1, b2, b3, _, b5⟩ := decode_rank w _ (d.Decode w inp).2.2 a1 a2
  obtain ⟨c1, c2, c3, _, c5⟩ := decode_rank w _ ((d.Decode w inp).2.1.Decode w
    (d.Decode w inp).2.2).2.2 b1 b2
  obtain ⟨d1, d2, d3, _, d5⟩ := decode_rank w _
    (((d.Decode w inp).2.1.Decode w (d.Decode w inp).2.2).2.1.Decode w
      ((d.Decode w inp).2.1.Decode w (d.Decode w inp).2.2).2.2).2.2 c1 c2
  unfold decodeInt
  dsimp only
  refine ⟨d1, d2, by omega, ?_, toI32_range _⟩
  intro h0
  rw [a5 h0, b5 (by omega), c5 (by omega), d5 (by omega), or_zero_four]
  rfl

/-- The loop of lines 371-372 on any input: it stays inside `buf` and `t`,
stores bytes, and keeps `t` the shifted count of the bytes stored. -/
theorem fillLoop_total (w : Bool) (cap : Int) (k : Nat) :
    ∀ (i : Nat) (d : CM) (inp : List Byte) (buf : Nat → Nat) (t : Nat → Int),
    d.Inv → EncInv d.enc.low d.enc.high → ((i + k : Nat) : Int) ≤ cap →
    t 0 = 0 → (∀ c, t (c + 1) = (cntEq buf i c : Int)) →
    ∃ d2 inp2 buf2 t2, fillLoop w cap k i d inp buf t = some (d2, inp2, buf2, t2) ∧
      d2.Inv ∧ EncInv d2.enc.low d2.enc.high ∧ decRank d2.enc inp2 ≤ decRank d.enc inp ∧
      (∀ x, x < i → buf2 x = buf x) ∧ (∀ x, i ≤ x → x < i + k → buf2 x < 256) ∧
      t2 0 = 0 ∧ (∀ c, t2 (c + 1) = (cntEq buf2 (i + k) c : Int)) := by
  induction k with
  | zero =>
    intro i d inp buf t h he _ ht0 ht
    exact ⟨d, inp, buf, t, rfl, h, he, le_refl _, fun _ _ => rfl, fun x h1 h2 => by omega, ht0,
      ht⟩
  | succ k ih =>
    intro i d inp buf t h he hcap ht0 ht
    obtain ⟨a1, a2, a3, a4, _⟩ := decode_rank w d inp h he
    rw [fillLoop]
    have hcond : (i : Int) < cap ∧ (d.Decode w inp).1 + 1 < 257 := ⟨by omega, by omega⟩
    simp only [hcond, and_self, if_true]
    obtain ⟨d2, inp2, buf2, t2, e1, e2, e3, e4, e5, e6, e7, e8⟩ :=
      ih (i + 1) (d.Decode w inp).2.1 (d.Decode w inp).2.2
        (fun x => if x = i then (d.Decode w inp).1 else buf x)
        (bump t ((d.Decode w inp).1 + 1)) a1 a2 (by
          have : i + 1 + k = i + (k + 1) := by omega
          rw [this]; exact hcap)
        (by unfold bump; rw [if_neg (by omega)]; exact ht0)
        (by
          intro c
          unfold bump
          rw [cntEq_succ, cntEq_congr _ buf i c (fun x hx => by
            simp only [if_neg (show ¬ x = i by omega)])]
          simp only [if_true]
          by_cases hc : c = (d.Decode w inp).1
          · subst hc
            simp only [if_true]
            rw [ht]
            push_cast
            rfl
          · rw [if_neg (by omega), if_neg (fun hh => hc hh.symm), ht]
            simp)
    refine ⟨d2, inp2, buf2, t2, e1, e2, e3, by omega, ?_, ?_, e7, ?_⟩
    · intro x hx
      rw [e5 x (by omega)]
      simp only [if_neg (show ¬ x = i by omega)]
    · intro x hx1 hx2
      rcases Nat.eq_or_lt_of_le hx1 with e | e
      · subst e
        rw [e5 i (by omega)]
        simp only [if_true]
        exact a4
      · exact e6 x (by omega) (by omega)
    · intro c
      have : i + 1 + k = i + (k + 1) := by omega
      rw [← this]
      exact e8 c

/-! ## One round of the block loop of `decompress` -/

theorem decompressLoop_eof (w : Bool) (cap fuel : Nat) (m : CM) (inp : List Byte) (mem : Mem)
    (hn : (decodeInt w m inp).1 = 0) :
    decompressLoop w cap (fuel + 1) m inp mem =
      some (Outcome.success, [], (decodeInt w m inp).2.2) := by
  rw [decompressLoop]
  simp only [hn, if_true]

theorem decompressLoop_oom (w : Bool) (cap fuel : Nat) (m : CM) (inp : List Byte) (mem : Mem)
    (hn : (decodeInt w m inp).1 ≠ 0) (hb : mem.bsize = 0)
    (hc : callocOk cap (decodeInt w m inp).1 = false) :
    decompressLoop w cap (fuel + 1) m inp mem =
      some (Outcome.outOfMemory, [], (decodeInt w m inp).2.2) := by
  rw [decompressLoop]
  simp only [hn, if_false, hb, decide_True, hc, Bool.not_false, Bool.and_self, if_true]

/-- The capacity of `buf` during a block: the `n` of the first block. -/
theorem decompressLoop_corrupt (w : Bool) (cap fuel : Nat) (m : CM) (inp : List Byte)
    (mem : Mem) (bsize : Int) (hn : (decodeInt w m inp).1 ≠ 0)
    (hb : (mem.bsize = 0 ∧ callocOk cap (decodeInt w m inp).1 = true ∧
        bsize = (decodeInt w m inp).1) ∨ (mem.bsize ≠ 0 ∧ bsize = mem.bsize))
    (hv : (decodeInt w m inp).1 < 1 ∨ (decodeInt w m inp).1 > bsize ∨
      (decodeInt w (decodeInt w m inp).2.1 (decodeInt w m inp).2.2).1 < 1 ∨
      (decodeInt w (decodeInt w m inp).2.1 (decodeInt w m inp).2.2).1 > (decodeInt w m inp).1) :
    decompressLoop w cap (fuel + 1) m inp mem =
      some (Outcome.corrupt, [],
        (decodeInt w (decodeInt w m inp).2.1 (decodeInt w m inp).2.2).2.2) := by
  rw [decompressLoop]
  rcases hb with ⟨h1, h2, h3⟩ | ⟨h1, h3⟩
  · subst h3
    simp only [hn, if_false, h1, decide_True, h2, Bool.not_true, Bool.and_false,
      Bool.false_eq_true, if_true, hv]
  · subst h3
    simp only [hn, if_false, h1, decide_False, Bool.false_and, Bool.false_eq_true, hv, if_true]

theorem decompressLoop_block (w : Bool) (cap fuel : Nat) (m : CM) (inp : List Byte)
    (mem : Mem) (bsize : Int) (hn : (decodeInt w m inp).1 ≠ 0)
    (hb : (mem.bsize = 0 ∧ callocOk cap (decodeInt w m inp).1 = true ∧
        bsize = (decodeInt w m inp).1) ∨ (mem.bsize ≠ 0 ∧ bsize = mem.bsize))
    (hv : ¬ ((decodeInt w m inp).1 < 1 ∨ (decodeInt w m inp).1 > bsize ∨
      (decodeInt w (decodeInt w m inp).2.1 (decodeInt w m inp).2.2).1 < 1 ∨
      (decodeInt w (decodeInt w m inp).2.1 (decodeInt w m inp).2.2).1 > (decodeInt w m inp).1))
    (fl : CM × List Byte × (Nat → Nat) × (Nat → Int))
    (hfl : fillLoop w bsize (decodeInt w m inp).1.toNat 0
      (decodeInt w (decodeInt w m inp).2.1 (decodeInt w m inp).2.2).2.1
      (decodeInt w (decodeInt w m inp).2.1 (decodeInt w m inp).2.2).2.2 mem.buf (fun _ => 0) =
        some fl)
    (iv : (Nat → Int) × List Byte)
    (hiv : inverseBWT bsize (decodeInt w m inp).1.toNat
      (decodeInt w (decodeInt w m inp).2.1 (decodeInt w m inp).2.2).1 fl.2.2.1 fl.2.2.2
      mem.next fuel = some (some iv)) :
    decompressLoop w cap (fuel + 1) m inp mem =
      match decompressLoop w cap fuel fl.1 fl.2.1
          { bsize := bsize, buf := fl.2.2.1, next := iv.1 } with
      | none => none
      | some r => some (r.1, iv.2 ++ r.2.1, r.2.2) := by
  rw [decompressLoop]
  rcases hb with ⟨h1, h2, h3⟩ | ⟨h1, h3⟩
  · subst h3
    simp only [hn, if_false, h1, decide_True, h2, Bool.not_true, Bool.and_false,
      Bool.false_eq_true, if_true, hv, hfl, hiv]
  · subst h3
    simp only [hn, if_false, h1, decide_False, Bool.false_and, Bool.false_eq_true, hv, hfl,
      hiv]

theorem callocOk_neg (cap : Nat) (n : Int) (h1 : n < 0) (h2 : -2147483648 ≤ n) :
    callocOk cap n = false := by
  unfold callocOk
  simp only [decide_eq_false_iff_not, not_and, not_lt]
  intro _
  omega

/-- The block loop of `decompress` ends on every input, without any access out
of bounds, once the fuel exceeds the rank of the decoder by two to the 31; it
can end in `Out of memory` only at the first header, when the allocation for
the decoded length fails. -/
theorem decompressLoop_total (w : Bool) (cap : Nat) (R : Nat) :
    ∀ (fuel : Nat) (d : CM) (inp : List Byte) (mem : Mem),
    d.Inv → EncInv d.enc.low d.enc.high → 0 ≤ mem.bsize →
    decRank d.enc inp ≤ R → R + 2147483648 ≤ fuel →
    ∃ r, decompressLoop w cap fuel d inp mem = some r ∧
      (r.1 = Outcome.success ∨ r.1 = Outcome.corrupt ∨
        (r.1 = Outcome.outOfMemory ∧ mem.bsize = 0 ∧
          callocOk cap (decodeInt w d inp).1 = false)) := by
  induction R with
  | zero =>
    intro fuel d inp mem h he _ hr hf
    obtain ⟨fuel, rfl⟩ : ∃ f, fuel = f + 1 := ⟨fuel - 1, by omega⟩
    obtain ⟨_, _, _, n0, _⟩ := decodeInt_rank w d inp h he
    exact ⟨_, decompressLoop_eof w cap fuel d inp mem (n0 (by omega)), Or.inl rfl⟩
  | succ R ih =>
    intro fuel d inp mem h he hmem hr hf
    obtain ⟨fuel, rfl⟩ : ∃ f, fuel = f + 1 := ⟨fuel - 1, by omega⟩
    obtain ⟨n1, n2, n3, n4, n5⟩ := decodeInt_rank w d inp h he
    by_cases hn : (decodeInt w d inp).1 = 0
    · exact ⟨_, decompressLoop_eof w cap fuel d inp mem hn, Or.inl rfl⟩
    obtain ⟨i1, i2, i3, _, i5⟩ := decodeInt_rank w _ (decodeInt w d inp).2.2 n1 n2
    -- the capacity of the buffer during this block
    have hcases : (mem.bsize = 0 ∧ callocOk cap (decodeInt w d inp).1 = false) ∨
        ∃ bsize : Int, ((mem.bsize = 0 ∧ callocOk cap (decodeInt w d inp).1 = true ∧
          bsize = (decodeInt w d inp).1) ∨ (mem.bsize ≠ 0 ∧ bsize = mem.bsize)) ∧
          (0 ≤ bsize ∨ (decodeInt w d inp).1 < 1) := by
      by_cases hb : mem.bsize = 0
      · cases hc : callocOk cap (decodeInt w d inp).1 with
        | false => exact Or.inl ⟨hb, rfl⟩
        | true =>
          refine Or.inr ⟨_, Or.inl ⟨hb, rfl, rfl⟩, ?_⟩
          by_cases hneg : (decodeInt w d inp).1 < 0
          · rw [callocOk_neg cap _ hneg n5.1] at hc
            exact absurd hc (by simp)
          · left; omega
      · exact Or.inr ⟨_, Or.inr ⟨hb, rfl⟩, Or.inl hmem⟩
    rcases hcases with ⟨hb, hc⟩ | ⟨bsize, hb, hbs⟩
    · exact ⟨_, decompressLoop_oom w cap fuel d inp mem hn hb hc, Or.inr (Or.inr ⟨rfl, hb, hc⟩)⟩
    by_cases hv : (decodeInt w d inp).1 < 1 ∨ (decodeInt w d inp).1 > bsize ∨
        (decodeInt w (decodeInt w d inp).2.1 (decodeInt w d inp).2.2).1 < 1 ∨
        (decodeInt w (decodeInt w d inp).2.1 (decodeInt w d inp).2.2).1 > (decodeInt w d inp).1
    · exact ⟨_, decompressLoop_corrupt w cap fuel d inp mem bsize hn hb hv, Or.inr (Or.inl rfl)⟩
    have hv' := hv
    simp only [not_or, not_lt, gt_iff_lt] at hv'
    obtain ⟨v1, v2, v3, v4⟩ := hv'
    obtain ⟨d2, inp2, buf2, t2, f1, f2, f3, f4, _, f6, f7, f8⟩ :=
      fillLoop_total w bsize (decodeInt w d inp).1.toNat 0
        (decodeInt w (decodeInt w d inp).2.1 (decodeInt w d inp).2.2).2.1
        (decodeInt w (decodeInt w d inp).2.1 (decodeInt w d inp).2.2).2.2 mem.buf (fun _ => 0)
        i1 i2 (by omega) rfl (fun c => by simp [cntEq_zero])
    rw [Nat.zero_add] at f6 f8
    obtain ⟨next2, out, g1, _, _, _, _, _⟩ :=
      inverseBWT_total bsize (decodeInt w (decodeInt w d inp).2.1 (decodeInt w d inp).2.2).1
        buf2 (decodeInt w d inp).1.toNat t2 mem.next fuel
        (fun i hi => f6 i (Nat.zero_le _) hi) f7 f8 v3 (by omega) (by omega) (by omega)
    have hstep := decompressLoop_block w cap fuel d inp mem bsize hn hb hv
      (d2, inp2, buf2, t2) f1 (next2, out) g1
    obtain ⟨r, hr1, hr2⟩ := ih fuel d2 inp2 { bsize := bsize, buf := buf2, next := next2 }
      f2 f3 (by simp only; omega) (by omega) (by omega)
    rw [hstep]
    simp only at hr1 ⊢
    rw [hr1]
    refine ⟨_, rfl, ?_⟩
    rcases hr2 with h1 | h1 | ⟨_, h1, _⟩
    · exact Or.inl h1
    · exact Or.inr (Or.inl h1)
    · simp only at h1
      omega

/-! ## Streams of encoded bytes -/

theorem encodeList_nil (w : Bool) (m : CM) : m.encodeList w [] = (m, []) := rfl

theorem encodeList_cons (w : Bool) (m : CM) (c : Nat) (cs : List Nat) :
    m.encodeList w (c :: cs) =
      (((m.Encode w c).1.encodeList w cs).1, (m.Encode w c).2 ++ ((m.Encode w c).1.encodeList w cs).2) :=
  rfl

theorem encodeList_append (w : Bool) (xs : List Nat) : ∀ (m : CM) (ys : List Nat),
    m.encodeList w (xs ++ ys) =
      (((m.encodeList w xs).1.encodeList w ys).1,
        (m.encodeList w xs).2 ++ ((m.encodeList w xs).1.encodeList w ys).2) := by
  induction xs with
  | nil => intro m ys; simp [encodeList_nil]
  | cons x xs ih =>
    intro m ys
    rw [List.cons_append, encodeList_cons, ih, encodeList_cons]
    simp only [List.append_assoc]

theorem encodeList_inv (w : Bool) (cs : List Nat) : ∀ (m : CM), m.Inv →
    EncInv m.enc.low m.enc.high →
    (m.encodeList w cs).1.Inv ∧
      EncInv (m.encodeList w cs).1.enc.low (m.encodeList w cs).1.enc.high := by
  induction cs with
  | nil => intro m h he; exact ⟨h, he⟩
  | cons c cs ih =>
    intro m h he
    rw [encodeList_cons]
    exact ih _ (encode_inv w m c h) (encode_inv_enc w m c h he)

theorem stream_nil (w : Bool) (m : CM) (extra : List Byte) :
    m.stream w [] extra = m.enc.Flush.2 ++ extra := by
  simp [CM.stream, encodeList_nil]

theorem stream_cons (w : Bool) (m : CM) (c : Nat) (cs : List Nat) (extra : List Byte) :
    m.stream w (c :: cs) extra = (m.Encode w c).2 ++ (m.Encode w c).1.stream w cs extra := by
  simp only [CM.stream, encodeList_cons, List.append_assoc]

theorem stream_append (w : Bool) (m : CM) (xs ys : List Nat) (extra : List Byte) :
    m.stream w (xs ++ ys) extra =
      (m.encodeList w xs).2 ++ (m.encodeList w xs).1.stream w ys extra := by
  simp only [CM.stream, encodeList_append, List.append_assoc]

theorem stream_tail (w : Bool) (cs : List Nat) : ∀ (m : CM) (extra : List Byte), m.Inv →
    EncInv m.enc.low m.enc.high → Tail w m.enc (m.stream w cs extra) := by
  induction cs with
  | nil =>
    intro m extra _ _
    rw [stream_nil]
    exact tail_flush w m.enc extra
  | cons c cs ih =>
    intro m extra h he
    rw [stream_cons]
    exact encode_tail w m c _ h (ih _ extra (encode_inv w m c h) (encode_inv_enc w m c h he))

theorem stream_length (w : Bool) (m : CM) (cs : List Nat) (extra : List Byte) (h : m.Inv)
    (he : EncInv m.enc.low m.enc.high) : 4 ≤ (m.stream w cs extra).length :=
  (tail_bounds w m.enc _ he (stream_tail w cs m extra h he)).2.2

/-! ## Decoding in step with the encoder -/

theorem sync_inv (w : Bool) (d : CM) (inp : List Byte) (m : CM) (cs : List Nat)
    (extra : List Byte) (h : Sync w d inp m cs extra) :
    d.Inv ∧ EncInv d.enc.low d.enc.high := by
  obtain ⟨h1, h2, h3, _⟩ := h
  rw [h3]
  exact ⟨withCode_inv m _ h1, h2⟩

/-- One `Decode` call in step with the encoder returns the low eight bits of
the encoded argument and stays in step. -/
theorem sync_decode (w : Bool) (d : CM) (inp : List Byte) (m : CM) (c : Nat) (cs : List Nat)
    (extra : List Byte) (h : Sync w d inp m (c :: cs) extra) :
    (d.Decode w inp).1 = c % 256 ∧
      Sync w (d.Decode w inp).2.1 (d.Decode w inp).2.2 (m.Encode w c).1 cs extra := by
  obtain ⟨h1, h2, h3, h4⟩ := h
  have hi := encode_inv w m c h1
  have hie := encode_inv_enc w m c h1 h2
  have ht := stream_tail w cs (m.Encode w c).1 extra hi hie
  have hs := decode_sync w m c _ h1 h2 ht
  rw [h3, h4, stream_cons, hs]
  exact ⟨rfl, hi, hie, rfl, rfl⟩

theorem shl_or (a b k : Nat) : (a ||| b) <<< k = a <<< k ||| b <<< k := by
  apply Nat.eq_of_testBit_eq
  intro i
  simp only [Nat.testBit_shiftLeft, Nat.testBit_or, Bool.and_or_distrib_left]

theorem or_shl8 (a b : Nat) (hb : b < 256) : a <<< 8 ||| b = a * 256 + b := by
  rw [Nat.shiftLeft_eq, Nat.mul_comm, ← Nat.mul_add_lt_is_or (by simpa using hb)]

/-- The big-endian value assembled by the header expression. -/
theorem be32_value (a b c d : Nat) (hb : b < 256) (hc : c < 256) (hd : d < 256) :
    a <<< 24 ||| b <<< 16 ||| c <<< 8 ||| d = a * 16777216 + b * 65536 + c * 256 + d := by
  have e1 : a <<< 24 = ((a <<< 8) <<< 8) <<< 8 := by
    rw [← Nat.shiftLeft_add, ← Nat.shiftLeft_add]
  have e2 : b <<< 16 = (b <<< 8) <<< 8 := by rw [← Nat.shiftLeft_add]
  rw [e1, e2, ← shl_or, ← shl_or, or_shl8 _ _ hd, ← shl_or, or_shl8 _ _ hc, or_shl8 _ _ hb]
  ring

theorem header_value (n : Nat) (hn : n < 2147483648) :
    toI32 ((n >>> 24 % 256) <<< 24 ||| (n >>> 16 % 256) <<< 16 ||| (n >>> 8 % 256) <<< 8 |||
      n % 256) = (n : Int) := by
  rw [be32_value _ _ _ _ (Nat.mod_lt _ (by norm_num)) (Nat.mod_lt _ (by norm_num))
    (Nat.mod_lt _ (by norm_num))]
  simp only [Nat.shiftRight_eq_div_pow]
  unfold toI32
  norm_num
  have e : n / 16777216 % 256 * 16777216 + n / 65536 % 256 * 65536 + n / 256 % 256 * 256 +
      n % 256 = n := by omega
  rw [e]
  split
  · omega
  · omega

/-- The header expression in step with the encoder. -/
theorem sync_decodeInt (w : Bool) (d : CM) (inp : List Byte) (m : CM) (a b c e : Nat)
    (cs : List Nat) (extra : List Byte) (h : Sync w d inp m (a :: b :: c :: e :: cs) extra) :
    (decodeInt w d inp).1 =
      toI32 ((a % 256) <<< 24 ||| (b % 256) <<< 16 ||| (c % 256) <<< 8 ||| e % 256) ∧
      Sync w (decodeInt w d inp).2.1 (decodeInt w d inp).2.2
        (m.encodeList w [a, b, c, e]).1 cs extra := by
  obtain ⟨a1, a2⟩ := sync_decode w d inp m a _ extra h
  obtain ⟨b1, b2⟩ := sync_decode w _ _ _ b _ extra a2
  obtain ⟨c1, c2⟩ := sync_decode w _ _ _ c _ extra b2
  obtain ⟨e1, e2⟩ := sync_decode w _ _ _ e _ extra c2
  unfold decodeInt
  dsimp only
  rw [a1, b1, c1, e1]
  exact ⟨rfl, e2⟩

theorem sync_header (w : Bool) (d : CM) (inp : List Byte) (m : CM) (n : Nat)
    (hn : n < 2147483648) (cs : List Nat) (extra : List Byte)
    (h : Sync w d inp m (n >>> 24 :: n >>> 16 :: n >>> 8 :: n :: cs) extra) :
    (decodeInt w d inp).1 = (n : Int) ∧
      Sync w (decodeInt w d inp).2.1 (decodeInt w d inp).2.2
        (m.encodeList w [n >>> 24, n >>> 16, n >>> 8, n]).1 cs extra := by
  obtain ⟨h1, h2⟩ := sync_decodeInt w d inp m _ _ _ _ cs extra h
  refine ⟨?_, h2⟩
  rw [h1, header_value n hn]

/-- The loop of lines 371-372 in step with the encoder: it stores the encoded
bytes and stays in step. -/
theorem fillLoop_sync (w : Bool) (cap : Int) (cs : List Nat) (extra : List Byte)
    (vals : List Nat) : ∀ (i : Nat) (d : CM) (inp : List Byte) (m : CM) (buf : Nat → Nat)
    (t : Nat → Int), Sync w d inp m (vals ++ cs) extra → (∀ v ∈ vals, v < 256) →
    ((i + vals.length : Nat) : Int) ≤ cap →
    ∃ d2 inp2 buf2 t2, fillLoop w cap vals.length i d inp buf t = some (d2, inp2, buf2, t2) ∧
      Sync w d2 inp2 (m.encodeList w vals).1 cs extra ∧
      (∀ x, x < i → buf2 x = buf x) ∧
      (∀ x, x < vals.length → buf2 (i + x) = vals.getD x 0) := by
  induction vals with
  | nil =>
    intro i d inp m buf t h _ _
    exact ⟨d, inp, buf, t, rfl, h, fun _ _ => rfl, fun x hx => by simp at hx⟩
  | cons v vals ih =>
    intro i d inp m buf t h hv hcap
    rw [List.cons_append] at h
    obtain ⟨s1, s2⟩ := sync_decode w d inp m v _ extra h
    have hv0 : v < 256 := hv v (List.mem_cons_self _ _)
    have hval : (d.Decode w inp).1 = v := by rw [s1]; omega
    simp only [List.length_cons] at hcap ⊢
    rw [fillLoop]
    have hcond : (i : Int) < cap ∧ (d.Decode w inp).1 + 1 < 257 := by
      rw [hval]; exact ⟨by omega, by omega⟩
    simp only [hcond, and_self, if_true]
    obtain ⟨d2, inp2, buf2, t2, e1, e2, e3, e4⟩ := ih (i + 1) _ _ _
      (fun x => if x = i then (d.Decode w inp).1 else buf x)
      (bump t ((d.Decode w inp).1 + 1)) s2
      (fun u hu => hv u (List.mem_cons_of_mem _ hu)) (by
        have : i + 1 + vals.length = i + (vals.length + 1) := by omega
        rw [this]; exact hcap)
    refine ⟨d2, inp2, buf2, t2, e1, ?_, ?_, ?_⟩
    · rw [encodeList_cons]; exact e2
    · intro x hx
      rw [e3 x (by omega)]
      simp only [if_neg (show ¬ x = i by omega)]
    · intro x hx
      cases x with
      | zero =>
        rw [Nat.add_zero, e3 i (by omega)]
        simp only [if_true, List.getD_cons_zero]
        exact hval
      | succ x =>
        have : i + (x + 1) = i + 1 + x := by omega
        rw [this, e4 x (by omega), List.getD_cons_succ]

theorem isBWT_congr (s : List Byte) (buf buf2 : Nat → Nat) (idx : Int) (h : IsBWT s buf idx)
    (hb : ∀ x, x < s.length → buf2 x = buf x) : IsBWT s buf2 idx := by
  obtain ⟨h1, h2⟩ := h
  refine ⟨h1, fun k hk => ?_⟩
  rw [← h2 k hk, h1]
  exact hb _ (bwtPos_eq s k hk).2.1

theorem sufRow_zero_bounds (s : List Byte) (hs : s ≠ []) :
    1 ≤ sufRow s 0 ∧ sufRow s 0 ≤ s.length :=
  ⟨sufRow_pos s (List.length_pos.mpr hs), sufRow_le s 0⟩

/-- The block loop of `decompress` in step with the encoder of `compress`: it
returns the blocks, succeeds, and leaves unread what follows the flush. -/
theorem decompressLoop_sync (w : Bool) (cap : Nat) (divbwt : List Byte → List Byte × Int)
    (B : Nat) (extra : List Byte) (hB : callocOk cap B = true) :
    ∀ (blocks : List (List Byte)) (fuel : Nat) (d : CM) (inp : List Byte) (m : CM) (mem : Mem),
    Sync w d inp m (frameArgs divbwt blocks) extra →
    (∀ blk ∈ blocks, blk ≠ [] ∧ blk.length < 2147483648 ∧ blk.length ≤ B ∧
      divbwt blk = bwtSpec blk) →
    (mem.bsize = B ∨ (mem.bsize = 0 ∧ ∀ blk rest, blocks = blk :: rest → blk.length = B)) →
    (blocks.map List.length).sum + blocks.length + 1 ≤ fuel →
    decompressLoop w cap fuel d inp mem = some (Outcome.success, blocks.flatten, extra) := by
  intro blocks
  induction blocks with
  | nil =>
    intro fuel d inp m mem hs _ _ hf
    obtain ⟨fuel, rfl⟩ : ∃ f, fuel = f + 1 := ⟨fuel - 1, by simp at hf; omega⟩
    have hh : Sync w d inp m (0 >>> 24 :: 0 >>> 16 :: 0 >>> 8 :: 0 :: []) extra := hs
    obtain ⟨h1, h2⟩ := sync_header w d inp m 0 (by norm_num) [] extra hh
    rw [decompressLoop_eof w cap fuel d inp mem (by rw [h1]; rfl)]
    obtain ⟨_, _, _, h3⟩ := h2
    rw [h3, stream_nil, flush_drop]
    rfl
  | cons blk rest ih =>
    intro fuel d inp m mem hs hblk hmem hf
    obtain ⟨hne, hlen, hle, hdiv⟩ := hblk blk (List.mem_cons_self _ _)
    have hn : 0 < blk.length := List.length_pos.mpr hne
    simp only [List.map_cons, List.sum_cons, List.length_cons] at hf
    obtain ⟨fuel, rfl⟩ : ∃ f, fuel = f + 1 := ⟨fuel - 1, by omega⟩
    have hidx := bwtSpec_idx blk hne
    have hrow := sufRow_zero_bounds blk hne
    have hL := bwtSpec_length blk hne
    -- the arguments encoded for this block
    have hargs : frameArgs divbwt (blk :: rest) =
        blk.length >>> 24 :: blk.length >>> 16 :: blk.length >>> 8 :: blk.length ::
          (sufRow blk 0 >>> 24 :: sufRow blk 0 >>> 16 :: sufRow blk 0 >>> 8 :: sufRow blk 0 ::
            ((bwtSpec blk).1.map (fun b => b.val) ++ frameArgs divbwt rest)) := by
      simp only [frameArgs, blockArgs, headerArgs, hdiv, hidx, Int.toNat_ofNat,
        List.cons_append, List.nil_append]
      rw [← hL, List.take_length]
    rw [hargs] at hs
    obtain ⟨n1, n2⟩ := sync_header w d inp m blk.length hlen _ extra hs
    obtain ⟨i1, i2⟩ := sync_header w _ _ _ (sufRow blk 0) (by omega) _ extra n2
    have hnz : (decodeInt w d inp).1 ≠ 0 := by rw [n1]; omega
    have hb : (mem.bsize = 0 ∧ callocOk cap (decodeInt w d inp).1 = true ∧
        (B : Int) = (decodeInt w d inp).1) ∨ (mem.bsize ≠ 0 ∧ (B : Int) = mem.bsize) := by
      rcases hmem with h | ⟨h, h2⟩
      · right; exact ⟨by omega, h.symm⟩
      · left
        have := h2 blk rest rfl
        rw [n1, this]
        exact ⟨h, hB, rfl⟩
    have hv : ¬ ((decodeInt w d inp).1 < 1 ∨ (decodeInt w d inp).1 > (B : Int) ∨
        (decodeInt w (decodeInt w d inp).2.1 (decodeInt w d inp).2.2).1 < 1 ∨
        (decodeInt w (decodeInt w d inp).2.1 (decodeInt w d inp).2.2).1 >
          (decodeInt w d inp).1) := by
      rw [n1, i1]
      omega
    -- the data bytes
    have hvals : ∀ v ∈ (bwtSpec blk).1.map (fun b => b.val), v < 256 := by
      intro v hv
      obtain ⟨b, _, rfl⟩ := List.mem_map.mp hv
      exact b.isLt
    have hvl : ((bwtSpec blk).1.map (fun b => b.val)).length = blk.length := by
      rw [List.length_map, hL]
    obtain ⟨d2, inp2, buf2, t2, f1, f2, _, f4⟩ := fillLoop_sync w B (frameArgs divbwt rest)
      extra ((bwtSpec blk).1.map (fun b => b.val)) 0
      (decodeInt w (decodeInt w d inp).2.1 (decodeInt w d inp).2.2).2.1
      (decodeInt w (decodeInt w d inp).2.1 (decodeInt w d inp).2.2).2.2
      (((m.encodeList w [blk.length >>> 24, blk.length >>> 16, blk.length >>> 8,
        blk.length]).1).encodeList w [sufRow blk 0 >>> 24, sufRow blk 0 >>> 16,
        sufRow blk 0 >>> 8, sufRow blk 0]).1
      mem.buf (fun _ => 0) i2 hvals (by rw [hvl]; omega)
    rw [hvl] at f1 f4
    obtain ⟨si, sie⟩ := sync_inv w _ _ _ _ extra i2
    obtain ⟨d3, inp3, buf3, t3, g1, _, _, _, _, g6, g7, g8⟩ :=
      fillLoop_total w B blk.length 0 _ _ mem.buf (fun _ => 0) si sie (by omega) rfl
        (fun c => by simp [cntEq_zero])
    rw [f1] at g1
    simp only [Option.some.injEq, Prod.mk.injEq] at g1
    obtain ⟨rfl, rfl, rfl, rfl⟩ := g1
    rw [Nat.zero_add] at g6 g8
    have hbuf : ∀ x, x < blk.length → buf2 x = bufOf (bwtSpec blk).1 x := by
      intro x hx
      have := f4 x hx
      rw [Nat.zero_add] at this
      rw [this]
      unfold bufOf
      rw [List.getD_eq_getElem _ _ (by rw [hvl]; exact hx),
        List.getD_eq_getElem _ _ (by rw [hL]; exact hx), List.getElem_map]
    have hisb : IsBWT blk buf2 (sufRow blk 0 : Int) := by
      have := bwtSpec_isBWT blk hne
      rw [hidx] at this
      exact isBWT_congr blk _ buf2 _ this hbuf
    obtain ⟨next2, hinv⟩ := inverseBWT_of_isBWT blk hne B (sufRow blk 0 : Int) buf2 t2
      mem.next fuel hisb (fun i hi => g6 i (Nat.zero_le _) hi) g7 g8 (by omega) (by omega)
    have hfl : fillLoop w (B : Int) (decodeInt w d inp).1.toNat 0
        (decodeInt w (decodeInt w d inp).2.1 (decodeInt w d inp).2.2).2.1
        (decodeInt w (decodeInt w d inp).2.1 (decodeInt w d inp).2.2).2.2 mem.buf (fun _ => 0) =
        some (d2, inp2, buf2, t2) := by
      rw [n1, Int.toNat_ofNat]
      exact f1
    have hiv : inverseBWT (B : Int) (decodeInt w d inp).1.toNat
        (decodeInt w (decodeInt w d inp).2.1 (decodeInt w d inp).2.2).1 buf2 t2 mem.next fuel =
        some (some (next2, blk)) := by
      rw [n1, Int.toNat_ofNat, i1]
      exact hinv
    rw [decompressLoop_block w cap fuel d inp mem B hnz hb hv (d2, inp2, buf2, t2) hfl
      (next2, blk) hiv]
    have hrec := ih fuel d2 inp2 _ { bsize := (B : Int), buf := buf2, next := next2 } f2
      (fun b hb => hblk b (List.mem_cons_of_mem _ hb)) (Or.inl rfl) (by omega)
    simp only at hrec ⊢
    rw [hrec]
    simp

/-! ## The blocks of `compress` -/

theorem chunks_nil (b k : Nat) : chunks b k [] = [] := by
  cases k <;> simp [chunks]

theorem chunks_cons (b k : Nat) (l : List Byte) (h : l ≠ []) :
    chunks b (k + 1) l = l.take b :: chunks b k (l.drop b) := by
  rw [chunks, if_neg h]

theorem chunks_flatten (b : Nat) (hb : 1 ≤ b) (k : Nat) : ∀ l : List Byte, l.length ≤ k →
    (chunks b k l).flatten = l := by
  induction k with
  | zero =>
    intro l hl
    have : l = [] := List.length_eq_zero.mp (by omega)
    subst this
    rfl
  | succ k ih =>
    intro l hl
    by_cases h : l = []
    · subst h; rw [chunks_nil]; rfl
    · have hpos : 0 < l.length := List.length_pos.mpr h
      rw [chunks_cons b k l h, List.flatten_cons, ih (l.drop b) (by
        rw [List.length_drop]; omega), List.take_append_drop]

theorem chunks_bounds (b : Nat) (hb : 1 ≤ b) (k : Nat) : ∀ l : List Byte,
    ∀ blk ∈ chunks b k l, 1 ≤ blk.length ∧ blk.length ≤ b ∧ blk.length ≤ l.length := by
  induction k with
  | zero => intro l blk h; simp [chunks] at h
  | succ k ih =>
    intro l blk h
    by_cases hl : l = []
    · subst hl; rw [chunks_nil] at h; simp at h
    · have hpos : 0 < l.length := List.length_pos.mpr hl
      rw [chunks_cons b k l hl] at h
      rcases List.mem_cons.mp h with e | e
      · subst e
        rw [List.length_take]
        omega
      · have := ih (l.drop b) blk e
        rw [List.length_drop] at this
        omega

theorem chunks_length (b : Nat) (hb : 1 ≤ b) (k : Nat) : ∀ l : List Byte, l.length ≤ k →
    (chunks b k l).length = (l.length + b - 1) / b := by
  induction k with
  | zero =>
    intro l hl
    have : l = [] := List.length_eq_zero.mp (by omega)
    subst this
    simp only [chunks, List.length_nil, Nat.zero_add]
    exact (Nat.div_eq_of_lt (by omega)).symm
  | succ k ih =>
    intro l hl
    by_cases h : l = []
    · subst h
      rw [chunks_nil]
      simp only [List.length_nil, Nat.zero_add]
      exact (Nat.div_eq_of_lt (by omega)).symm
    · have hpos : 0 < l.length := List.length_pos.mpr h
      rw [chunks_cons b k l h, List.length_cons, ih (l.drop b) (by
        rw [List.length_drop]; omega), List.length_drop]
      rcases Nat.lt_or_ge l.length b with h1 | h1
      · have e1 : l.length - b + b - 1 = b - 1 := by omega
        rw [e1, Nat.div_eq_of_lt (by omega)]
        have e2 : l.length + b - 1 = (l.length - 1) + b := by omega
        rw [e2, Nat.add_div_right _ (by omega), Nat.div_eq_of_lt (by omega)]
      · have e1 : l.length - b + b - 1 = l.length - 1 := by omega
        have e2 : l.length + b - 1 = (l.length - 1) + b := by omega
        rw [e1, e2, Nat.add_div_right _ (by omega)]

theorem chunks_head (b k : Nat) (l : List Byte) (blk : List Byte) (rest : List (List Byte))
    (h : chunks b k l = blk :: rest) : blk = l.take b := by
  cases k with
  | zero => simp [chunks] at h
  | succ k =>
    by_cases hl : l = []
    · subst hl; rw [chunks_nil] at h; simp at h
    · rw [chunks_cons b k l hl] at h
      simp only [List.cons.injEq] at h
      exact h.1.symm

/-! ## The loop of `compress` -/

theorem frameArgs_eq (divbwt : List Byte → List Byte × Int) (blocks : List (List Byte)) :
    frameArgs divbwt blocks = dataArgs divbwt blocks ++ [0, 0, 0, 0] := by
  induction blocks with
  | nil => rfl
  | cons blk rest ih => simp only [frameArgs, dataArgs, ih, List.append_assoc]

/-- The block loop of `compress`: it encodes the arguments of the chunks of
its input, one block after the other. -/
theorem compressLoop_spec (w : Bool) (divbwt : List Byte → List Byte × Int) (b : Nat)
    (hb : 1 ≤ b) (fuel : Nat) : ∀ (k : Nat) (m : CM) (rest : List Byte),
    rest.length ≤ k → rest.length + 1 ≤ fuel →
    (∀ blk ∈ chunks b k rest, 1 ≤ (divbwt blk).2) →
    compressLoop w divbwt b fuel m rest =
      some ((m.encodeList w (dataArgs divbwt (chunks b k rest))).1,
        (m.encodeList w (dataArgs divbwt (chunks b k rest))).2, true) := by
  induction fuel with
  | zero => intro k m rest _ hf _; omega
  | succ fuel ih =>
    intro k m rest hk hf hd
    by_cases hl : rest = []
    · subst hl
      rw [chunks_nil]
      simp [compressLoop, dataArgs, encodeList_nil]
    · have hpos : 0 < rest.length := List.length_pos.mpr hl
      obtain ⟨k, rfl⟩ : ∃ k', k = k' + 1 := ⟨k - 1, by omega⟩
      rw [chunks_cons b k rest hl] at hd ⊢
      have hidx := hd (rest.take b) (List.mem_cons_self _ _)
      have hn : (rest.take b).length > 0 := by rw [List.length_take]; omega
      have h1 := ih k
        ((m.encodeList w (headerArgs (rest.take b).length (divbwt (rest.take b)).2.toNat)).1.encodeList
          w (((divbwt (rest.take b)).1.take (rest.take b).length).map (fun x => x.val))).1
        (rest.drop b) (by rw [List.length_drop]; omega) (by rw [List.length_drop]; omega)
        (fun blk hblk => hd blk (List.mem_cons_of_mem _ hblk))
      rw [compressLoop]
      simp only [hn, if_true, show ¬ (divbwt (rest.take b)).2 < 1 by omega, if_false, h1]
      simp only [dataArgs, blockArgs, List.append_assoc]
      rw [encodeList_append, encodeList_append]

/-! ## compress and decompress end to end -/

/-- The file written by `compress`: the magic, then the stream of the encoder
for the framed blocks. -/
theorem compress_eq (w : Bool) (cap : Nat) (divbwt : List Byte → List Byte × Int)
    (s : List Byte) (bsize : Nat) (hb : 1 ≤ bsize)
    (hcap : callocOk cap ((min bsize s.length : Nat) : Int) = true)
    (hd : ∀ blk ∈ blocksOf s bsize, 1 ≤ (divbwt blk).2) :
    compress w cap divbwt s bsize =
      some (CompressResult.ok
        (magic ++ CM.new.stream w (frameArgs divbwt (blocksOf s bsize)) [])) := by
  have hmin : (if bsize > s.length then s.length else bsize) = min bsize s.length := by
    split <;> omega
  unfold compress compressFuel
  simp only [hmin, hcap, Bool.not_true, Bool.false_eq_true, if_false]
  by_cases hs : s = []
  · subst hs
    have hloop : compressLoop w divbwt (min bsize ([] : List Byte).length)
        (([] : List Byte).length + 1) CM.new [] = some (CM.new, [], true) := by
      show compressLoop w divbwt _ (0 + 1) CM.new [] = _
      rw [compressLoop]
      simp only [List.take_nil, List.length_nil, gt_iff_lt, lt_self_iff_false, if_false]
    rw [hloop]
    have hblocks : blocksOf [] bsize = [] := rfl
    simp only [if_true, hblocks, frameArgs, CM.stream, List.append_nil, List.append_assoc]
  · have hpos : 0 < s.length := List.length_pos.mpr hs
    rw [compressLoop_spec w divbwt (min bsize s.length) (by omega) (s.length + 1) s.length
      CM.new s (le_refl _) (le_refl _) hd]
    simp only [if_true]
    congr 2
    unfold blocksOf at *
    rw [frameArgs_eq]
    simp only [CM.stream, encodeList_append, List.append_assoc, List.append_nil]

theorem checkMagic_magic (rest : List Byte) : checkMagic (magic ++ rest) = some rest := by
  have e0 : ¬ (((0x42 : Byte).val : Int) ≠ 0x42) := by decide
  have e1 : ¬ (((0x43 : Byte).val : Int) ≠ 0x43) := by decide
  have e2 : ¬ (((0x4D : Byte).val : Int) ≠ 0x4D) := by decide
  have e3 : ¬ (((0x31 : Byte).val : Int) ≠ 0x31) := by decide
  simp only [checkMagic, magic, getc, List.cons_append, List.nil_append]
  rw [if_neg e0, if_neg e1, if_neg e2, if_neg e3]

theorem sum_length_flatten (L : List (List Byte)) :
    (L.map List.length).sum = L.flatten.length := by
  induction L with
  | nil => rfl
  | cons x xs ih =>
    rw [List.map_cons, List.sum_cons, List.flatten_cons, List.length_append, ih]

/-- Decompression of a file written by `compress`, followed by any bytes
`extra`: the input comes back, and exactly `extra` is left unread. -/
theorem decompress_compress (w : Bool) (cap : Nat) (divbwt : List Byte → List Byte × Int)
    (s : List Byte) (bsize : Nat) (extra : List Byte) (hb : 1 ≤ bsize)
    (hlen : s.length < 2147483648)
    (hcap : callocOk cap ((min bsize s.length : Nat) : Int) = true)
    (hd : ∀ blk, blk ≠ [] → divbwt blk = bwtSpec blk) (fuel : Nat)
    (hf : s.length + s.length + 1 ≤ fuel) :
    decompress w cap fuel
        (magic ++ CM.new.stream w (frameArgs divbwt (blocksOf s bsize)) extra) =
      some (Outcome.success, s, extra) := by
  unfold decompress
  rw [checkMagic_magic]
  simp only
  have hS := stream_length w CM.new (frameArgs divbwt (blocksOf s bsize)) extra inv_new
    encInv_new
  have hi : CM.new.enc.Init (CM.new.stream w (frameArgs divbwt (blocksOf s bsize)) extra) =
      ({ code := window (CM.new.stream w (frameArgs divbwt (blocksOf s bsize)) extra), low := 0,
         high := 4294967295 },
        (CM.new.stream w (frameArgs divbwt (blocksOf s bsize)) extra).drop 4) :=
    init_window _ hS
  rw [hi]
  have hsync : Sync w
      { CM.new with enc := { code := window (CM.new.stream w (frameArgs divbwt
        (blocksOf s bsize)) extra), low := 0, high := 4294967295 } }
      ((CM.new.stream w (frameArgs divbwt (blocksOf s bsize)) extra).drop 4) CM.new
      (frameArgs divbwt (blocksOf s bsize)) extra := ⟨inv_new, encInv_new, rfl, rfl⟩
  have hflat : (blocksOf s bsize).flatten = s := by
    by_cases hs : s = []
    · subst hs; rfl
    · have hpos : 0 < s.length := List.length_pos.mpr hs
      exact chunks_flatten _ (by omega) _ s (le_refl _)
  have hblocks : ∀ blk ∈ blocksOf s bsize, blk ≠ [] ∧ blk.length < 2147483648 ∧
      blk.length ≤ min bsize s.length ∧ divbwt blk = bwtSpec blk := by
    intro blk hblk
    by_cases hs : s = []
    · subst hs; simp [blocksOf, chunks] at hblk
    · have hpos : 0 < s.length := List.length_pos.mpr hs
      have := chunks_bounds _ (show 1 ≤ min bsize s.length by omega) _ s blk hblk
      have hne : blk ≠ [] := List.length_pos.mp (by omega)
      exact ⟨hne, by omega, this.2.1, hd blk hne⟩
  have hcount : (blocksOf s bsize).length ≤ s.length := by
    by_cases hs : s = []
    · subst hs; simp [blocksOf, chunks]
    · have hpos : 0 < s.length := List.length_pos.mpr hs
      unfold blocksOf
      rw [chunks_length _ (show 1 ≤ min bsize s.length by omega) _ s (le_refl _)]
      apply Nat.div_le_of_le_mul
      obtain ⟨b1, hb1⟩ : ∃ b1, min bsize s.length = b1 + 1 := ⟨min bsize s.length - 1, by omega⟩
      obtain ⟨l1, hl1⟩ : ∃ l1, s.length = l1 + 1 := ⟨s.length - 1, by omega⟩
      rw [hb1, hl1]
      have : (b1 + 1) * (l1 + 1) = b1 * l1 + b1 + l1 + 1 := by ring
      omega
  have := decompressLoop_sync w cap divbwt (min bsize s.length) extra hcap (blocksOf s bsize)
    fuel _ _ CM.new { bsize := 0, buf := fun _ => 0, next := fun _ => 0 } hsync hblocks
    (Or.inr ⟨rfl, fun blk rest h => by
      have := chunks_head _ _ _ _ _ h
      rw [this, List.length_take]
      omega⟩)
    (by rw [sum_length_flatten, hflat]; omega)
  rw [this, hflat]

/-! ## A decoder on a stream without its last byte -/

theorem twindow_five (S : List Byte) (h : 5 ≤ S.length) : twindow S = window S := by
  unfold twindow
  rw [if_pos h]

theorem twindow_four (S : List Byte) (h : S.length < 5) : twindow S = 4294967295 := by
  unfold twindow
  rw [if_neg (by omega)]

theorem tinput_four (S : List Byte) (h : S.length < 5) : tinput S = [] := by
  unfold tinput
  have : (S.drop 4).length = 0 := by rw [List.length_drop]; omega
  rw [List.length_eq_zero.mp this]
  rfl

/-- One `code=(code<<8)|getc(in)` of the decoder on the shortened stream. -/
theorem shiftIn_trunc (S : List Byte) (h : 5 ≤ S.length) :
    shiftIn (twindow S) (tinput S) = (twindow S.tail, tinput S.tail) := by
  rw [twindow_five S h]
  match S, h with
  | [a, b, c, d, x], _ =>
    have e1 : tinput [a, b, c, d, x] = [] := rfl
    have e2 : twindow ([a, b, c, d, x] : List Byte).tail = 4294967295 := rfl
    have e3 : tinput ([a, b, c, d, x] : List Byte).tail = [] := rfl
    rw [e1, e2, e3, shiftIn_nil]
  | a :: b :: c :: d :: x :: y :: rest, _ =>
    have e1 : tinput (a :: b :: c :: d :: x :: y :: rest) = x :: (y :: rest).dropLast := rfl
    have e2 : twindow (a :: b :: c :: d :: x :: y :: rest).tail =
        window (b :: c :: d :: x :: y :: rest) :=
      twindow_five _ (by simp)
    have e3 : tinput (a :: b :: c :: d :: x :: y :: rest).tail = (y :: rest).dropLast := rfl
    have hw := window_cons5 a b c d x (y :: rest)
    rw [shiftIn_cons] at hw
    rw [e1, e2, e3, shiftIn_cons, (Prod.mk.inj hw).1]

/-- The renormalisation loop of `DecodeBit` on the shortened stream follows
that of the encoder. -/
theorem decRenorm_trunc (k : Nat) : ∀ (l1 h1 : Nat) (S2 : List Byte),
    4 ≤ S2.length →
    decRenorm k (twindow ((encRenorm k l1 h1).2.2 ++ S2)) l1 h1
        (tinput ((encRenorm k l1 h1).2.2 ++ S2)) =
      (twindow S2, (encRenorm k l1 h1).1, (encRenorm k l1 h1).2.1, tinput S2) := by
  induction k with
  | zero =>
    intro l1 h1 S2 _
    simp [encRenorm_zero, decRenorm_zero]
  | succ k ih =>
    intro l1 h1 S2 hlen
    rw [encRenorm_succ, decRenorm_succ]
    by_cases hc : l1 / 16777216 = h1 / 16777216
    · simp only [hc, if_true]
      have ih2 := ih (l1 * 256 % 4294967296) (h1 * 256 % 4294967296 + 255) S2 hlen
      have h5 : ∀ x : Byte, 5 ≤ (x ::
          ((encRenorm k (l1 * 256 % 4294967296) (h1 * 256 % 4294967296 + 255)).2.2 ++ S2)).length := by
        intro x
        rw [List.length_cons, List.length_append]; omega
      rw [List.cons_append, shiftIn_trunc _ (h5 _)]
      exact ih2
    · simp only [hc, if_false, List.nil_append]

/-- The method `Init` on the shortened stream. -/
theorem init_trunc (S : List Byte) (h : 4 ≤ S.length) :
    Encoder.new.Init S.dropLast =
      ({ code := twindow S, low := 0, high := 4294967295 }, tinput S) := by
  have h0 : twindow (0 :: 0 :: 0 :: 0 :: S) = 0 := by
    rw [twindow_five _ (by simp only [List.length_cons]; omega)]
    rfl
  have h1 : tinput (0 :: 0 :: 0 :: 0 :: S) = S.dropLast := rfl
  have s1 := shiftIn_trunc (0 :: 0 :: 0 :: 0 :: S) (by simp only [List.length_cons]; omega)
  have s2 := shiftIn_trunc (0 :: 0 :: 0 :: S) (by simp only [List.length_cons]; omega)
  have s3 := shiftIn_trunc (0 :: 0 :: S) (by simp only [List.length_cons]; omega)
  have s4 := shiftIn_trunc (0 :: S) (by simp only [List.length_cons]; omega)
  rw [h0, h1] at s1
  simp only [List.tail_cons] at s1 s2 s3 s4
  unfold Encoder.Init Encoder.new
  simp only [initLoop, s1, s2, s3, s4]

/-- One `DecodeBit` on the shortened stream: as long as the missing byte has
not been asked for, or the coded bit is 0, the decoder returns the coded bit
and follows the encoder. -/
theorem decodeBit_trunc (w : Bool) (e : Encoder) (p b : Nat) (S2 : List Byte)
    (hinv : EncInv e.low e.high) (hp : p < 262144)
    (ht : Tail w (encodeBit w e p b).1 S2)
    (h5 : 5 ≤ ((encodeBit w e p b).2 ++ S2).length ∨ ¬ b ≠ 0) :
    Encoder.DecodeBit w
        { code := twindow ((encodeBit w e p b).2 ++ S2), low := e.low, high := e.high }
        p (tinput ((encodeBit w e p b).2 ++ S2)) =
      ((if b ≠ 0 then 1 else 0),
        { code := twindow S2, low := (encodeBit w e p b).1.low,
          high := (encodeBit w e p b).1.high },
        tinput S2) := by
  have hinv2 := encodeBit_inv w e p b hinv hp
  obtain ⟨ia, ib, ic⟩ := tail_bounds w _ S2 hinv2 ht
  have hwin := encodeBit_window w e p b S2 hinv hp ic ia ib
  have hlt := encInv_lt hinv
  obtain ⟨h1, h2, h3⟩ := hinv
  have hd := split_lt w e.low e.high p hlt h2 hp
  have hm : (e.low + split w e.low e.high p) % 4294967296 = e.low + split w e.low e.high p := by
    omega
  revert hwin h5
  by_cases hb : b ≠ 0
  · rw [encodeBit_pos w e p b hb, if_pos hb]
    simp only [Encoder.EncodeBit1, W32, Encoder.DecodeBit, hm]
    intro h5 hwin
    have h5b := h5.resolve_right (not_not.mpr hb)
    have hs := decRenorm_trunc 4 e.low (e.low + split w e.low e.high p) S2 ic
    have hle := hwin.2.2.1 hb
    rw [← twindow_five _ h5b] at hle
    simp only [hle, if_true, ne_eq, one_ne_zero, not_false_eq_true]
    rw [hs]
  · rw [encodeBit_neg w e p b hb, if_neg hb]
    simp only [Encoder.EncodeBit0, W32, Encoder.DecodeBit]
    have hm1 : (e.low + (split w e.low e.high p + 1)) % 4294967296 =
        e.low + split w e.low e.high p + 1 := by
      omega
    simp only [hm1, hm]
    have hm2 : (e.low + split w e.low e.high p + 1) % 4294967296 =
        e.low + split w e.low e.high p + 1 := by
      omega
    simp only [hm2]
    intro _ hwin
    have hs := decRenorm_trunc 4 (e.low + split w e.low e.high p + 1) e.high S2 ic
    have hn : ¬ (twindow ((encRenorm 4 (e.low + split w e.low e.high p + 1) e.high).2.2 ++ S2)
        ≤ e.low + split w e.low e.high p) := by
      by_cases h5c : 5 ≤ ((encRenorm 4 (e.low + split w e.low e.high p + 1) e.high).2.2 ++
          S2).length
      · rw [twindow_five _ h5c]
        have := hwin.2.2.2 hb
        omega
      · rw [twindow_four _ (by omega)]
        omega
    simp only [hn, if_false, ne_eq, not_true_eq_false]
    rw [hs]

/-- The loop body of `Decode` on the shortened stream while the decoder follows
the encoder. -/
theorem decodeStep_trunc (w : Bool) (m : CM) (f ctx c : Nat) (S2 : List Byte)
    (h : m.Inv) (he : EncInv m.enc.low m.enc.high)
    (ht : Tail w (m.encodeStep w f ctx c).1.enc S2)
    (h5 : 5 ≤ ((m.encodeStep w f ctx c).2.2.2 ++ S2).length ∨ topBit c = 0) :
    (m.withCode (twindow ((m.encodeStep w f ctx c).2.2.2 ++ S2))).decodeStep w f ctx
        (tinput ((m.encodeStep w f ctx c).2.2.2 ++ S2)) =
      ((m.encodeStep w f ctx c).1.withCode (twindow S2), (m.encodeStep w f ctx c).2.1,
        tinput S2) := by
  rw [encodeStep_eq] at ht h5 ⊢
  have hp := prob_lt m f ctx h
  have hs := decodeBit_trunc w m.enc (toU32 (m.mix f ctx).prob) (topBit c) S2 he hp ht
    (h5.imp id (fun h0 => by rw [h0]; decide))
  unfold CM.decodeStep
  simp only [mix_withCode]
  have hd : ∀ cd : Nat, (m.withCode cd).enc = ⟨cd, m.enc.low, m.enc.high⟩ := fun _ => rfl
  rw [hd, hs]
  rcases topBit_cases c with h0 | h1
  · simp only [h0, ne_eq, not_true_eq_false, if_false]
    rfl
  · simp only [h1, ne_eq, one_ne_zero, not_false_eq_true, if_true]
    rfl

theorem decRank_dead (low high : Nat) :
    decRank { code := 4294967295, low := low, high := high } [] = 0 := by
  unfold decRank
  rw [if_pos ⟨rfl, rfl⟩]

/-- The bit loop of `Decode` on the shortened stream: either the decoder
follows the encoder to the end of the loop, or it has read past the end of the
input, decodes a smaller value than the one encoded, and stays past the end. -/
theorem decodeLoop_trunc (w : Bool) (k : Nat) : ∀ (m : CM) (f ctx c : Nat) (S2 : List Byte),
    m.Inv → EncInv m.enc.low m.enc.high →
    Tail w (CM.encodeLoop w k m f ctx c).1.enc S2 →
    k ≤ 8 → 2 ^ (8 - k) ≤ ctx → ctx < 2 ^ (9 - k) →
    CM.decodeLoop w k (m.withCode (twindow ((CM.encodeLoop w k m f ctx c).2.2 ++ S2))) f ctx
        (tinput ((CM.encodeLoop w k m f ctx c).2.2 ++ S2)) =
      ((CM.encodeLoop w k m f ctx c).1.withCode (twindow S2),
        (CM.encodeLoop w k m f ctx c).2.1, tinput S2) ∨
    ((CM.decodeLoop w k (m.withCode (twindow ((CM.encodeLoop w k m f ctx c).2.2 ++ S2))) f ctx
        (tinput ((CM.encodeLoop w k m f ctx c).2.2 ++ S2))).2.1 <
        (CM.encodeLoop w k m f ctx c).2.1 ∧
      (CM.decodeLoop w k (m.withCode (twindow ((CM.encodeLoop w k m f ctx c).2.2 ++ S2))) f ctx
        (tinput ((CM.encodeLoop w k m f ctx c).2.2 ++ S2))).1.Inv ∧
      EncInv
        (CM.decodeLoop w k (m.withCode (twindow ((CM.encodeLoop w k m f ctx c).2.2 ++ S2))) f ctx
          (tinput ((CM.encodeLoop w k m f ctx c).2.2 ++ S2))).1.enc.low
        (CM.decodeLoop w k (m.withCode (twindow ((CM.encodeLoop w k m f ctx c).2.2 ++ S2))) f ctx
          (tinput ((CM.encodeLoop w k m f ctx c).2.2 ++ S2))).1.enc.high ∧
      decRank
        (CM.decodeLoop w k (m.withCode (twindow ((CM.encodeLoop w k m f ctx c).2.2 ++ S2))) f ctx
          (tinput ((CM.encodeLoop w k m f ctx c).2.2 ++ S2))).1.enc
        (CM.decodeLoop w k (m.withCode (twindow ((CM.encodeLoop w k m f ctx c).2.2 ++ S2))) f ctx
          (tinput ((CM.encodeLoop w k m f ctx c).2.2 ++ S2))).2.2 = 0 ∧
      256 ≤ (CM.decodeLoop w k (m.withCode (twindow ((CM.encodeLoop w k m f ctx c).2.2 ++ S2)))
        f ctx (tinput ((CM.encodeLoop w k m f ctx c).2.2 ++ S2))).2.1) := by
  induction k with
  | zero =>
    intro m f ctx c S2 _ _ _ _ _ _
    left
    simp [CM.encodeLoop, CM.decodeLoop]
  | succ k ih =>
    intro m f ctx c S2 h he ht hk hlo hhi
    have hc : ctx < 256 := by
      have : 2 ^ (9 - (k + 1)) ≤ 2 ^ 8 := Nat.pow_le_pow_right (by norm_num) (by omega)
      omega
    have e1 : 8 - k = (8 - (k + 1)) + 1 := by omega
    have e2 : 9 - k = (9 - (k + 1)) + 1 := by omega
    have hE := encodeLoop_ctx w (k + 1) m f ctx c hk hlo hhi
    rw [CM.encodeLoop, if_pos hc] at ht hE ⊢
    rw [CM.decodeLoop, if_pos hc]
    dsimp only at ht hE ⊢
    have hi := encodeStep_inv w m f ctx c h
    have hie := encodeStep_inv_enc w m f ctx c h he
    have ht2 := encodeLoop_tail w k _ _ _ _ S2 hi ht
    have hx := encodeStep_ctx w m f ctx c
    rw [List.append_assoc]
    by_cases h5 : 5 ≤ ((m.encodeStep w f ctx c).2.2.2 ++
        ((CM.encodeLoop w k (m.encodeStep w f ctx c).1 f (m.encodeStep w f ctx c).2.1
          (m.encodeStep w f ctx c).2.2.1).2.2 ++ S2)).length ∨ topBit c = 0
    · rw [decodeStep_trunc w m f ctx c _ h he ht2 h5]
      exact ih _ _ _ _ S2 hi hie ht (by omega)
        (by rw [hx, e1, pow_succ]; omega) (by rw [hx, e2, pow_succ]; omega)
    · right
      simp only [not_or, not_le] at h5
      obtain ⟨h5a, h5b⟩ := h5
      have hb1 : topBit c = 1 := (topBit_cases c).resolve_left h5b
      rw [twindow_four _ h5a, tinput_four _ h5a]
      have hr0 : decRank (m.withCode 4294967295).enc [] = 0 := decRank_dead _ _
      obtain ⟨s1, s2, s3, _, s5⟩ := decodeStep_rank w (m.withCode 4294967295) f ctx []
        (withCode_inv m _ h) he
      obtain ⟨i1, i2, i3, i4, i5⟩ := decodeLoop_rank w k
        ((m.withCode 4294967295).decodeStep w f ctx []).1 f
        ((m.withCode 4294967295).decodeStep w f ctx []).2.1
        ((m.withCode 4294967295).decodeStep w f ctx []).2.2 s1 s2 (by omega)
        (by rw [s5 hr0, e1, pow_succ]; omega) (by rw [s5 hr0, e2, pow_succ]; omega)
      refine ⟨?_, i1, i2, by omega, i4.1⟩
      rw [i5 (by omega), s5 hr0, hE]
      have hc2 : 2 ^ (8 - (k + 1)) ≤ c % 256 := by
        rw [topBit_eq] at hb1
        have : 2 ^ (8 - (k + 1)) ≤ 2 ^ 7 := Nat.pow_le_pow_right (by norm_num) (by omega)
        omega
      have hq : 1 ≤ c % 256 / 2 ^ (8 - (k + 1)) :=
        (Nat.one_le_div_iff (by positivity)).mpr hc2
      have : 2 * ctx * 2 ^ k = ctx * 2 ^ (k + 1) := by rw [pow_succ]; ring
      omega

/-- One `Decode` call on the shortened stream: either the decoder returns the
encoded byte and follows the encoder, or it returns a smaller value and is past
the end of its input. -/
theorem decode_trunc (w : Bool) (m : CM) (c : Nat) (S2 : List Byte)
    (h : m.Inv) (he : EncInv m.enc.low m.enc.high)
    (ht : Tail w (m.Encode w c).1.enc S2) :
    (m.withCode (twindow ((m.Encode w c).2 ++ S2))).Decode w (tinput ((m.Encode w c).2 ++ S2)) =
      (c % 256, (m.Encode w c).1.withCode (twindow S2), tinput S2) ∨
    (((m.withCode (twindow ((m.Encode w c).2 ++ S2))).Decode w
        (tinput ((m.Encode w c).2 ++ S2))).1 < c % 256 ∧
      PastEnd
        ((m.withCode (twindow ((m.Encode w c).2 ++ S2))).Decode w
          (tinput ((m.Encode w c).2 ++ S2))).2.1
        ((m.withCode (twindow ((m.Encode w c).2 ++ S2))).Decode w
          (tinput ((m.Encode w c).2 ++ S2))).2.2) := by
  rw [encode_enc] at ht
  rw [encode_out]
  have hs := decodeLoop_trunc w 8 { m with run := m.nextRun } m.flag 1 c S2 (inv_run m _ h) he ht
    (le_refl _) (by norm_num) (by norm_num)
  have hx := encodeLoop_ctx8 w { m with run := m.nextRun } m.flag c
  set E := CM.encodeLoop w 8 { m with run := m.nextRun } m.flag 1 c with hE
  have e1 : ∀ (cd : Nat) (inp : List Byte), (m.withCode cd).Decode w inp =
      ((CM.decodeLoop w 8 (({ m with run := m.nextRun } : CM).withCode cd) m.flag 1 inp).2.1
          &&& 255,
        { (CM.decodeLoop w 8 (({ m with run := m.nextRun } : CM).withCode cd) m.flag 1 inp).1 with
          c2 := (CM.decodeLoop w 8 (({ m with run := m.nextRun } : CM).withCode cd) m.flag 1
            inp).1.c1,
          c1 := (CM.decodeLoop w 8 (({ m with run := m.nextRun } : CM).withCode cd) m.flag 1
            inp).2.1 &&& 255 },
        (CM.decodeLoop w 8 (({ m with run := m.nextRun } : CM).withCode cd) m.flag 1 inp).2.2) :=
    fun _ _ => rfl
  have hmod : (256 + c % 256) % 256 = c % 256 := by omega
  rw [e1]
  rcases hs with hs | ⟨s1, s2, s3, s4, s5⟩
  · left
    rw [hs, hx, and_255, hmod]
    have e3 : (m.Encode w c).1 = { E.1 with c2 := E.1.c1, c1 := E.2.1 &&& 255 } := rfl
    rw [e3, hx, and_255, hmod]
    rfl
  · right
    dsimp only
    rw [hx] at s1
    refine ⟨?_, inv_ctx _ _ _ s2, s3, s4⟩
    rw [and_255]
    omega

theorem tsync_decode (w : Bool) (d : CM) (inp : List Byte) (m : CM) (c : Nat) (cs : List Nat)
    (h : TSync w d inp m (c :: cs)) :
    ((d.Decode w inp).1 = c % 256 ∧
      TSync w (d.Decode w inp).2.1 (d.Decode w inp).2.2 (m.Encode w c).1 cs) ∨
    ((d.Decode w inp).1 < c % 256 ∧ PastEnd (d.Decode w inp).2.1 (d.Decode w inp).2.2) := by
  obtain ⟨h1, h2, h3, h4⟩ := h
  have hi := encode_inv w m c h1
  have hie := encode_inv_enc w m c h1 h2
  have ht := stream_tail w cs (m.Encode w c).1 [] hi hie
  have hs := decode_trunc w m c _ h1 h2 ht
  rw [h3, h4, stream_cons]
  rcases hs with hs | hs
  · left
    rw [hs]
    exact ⟨rfl, hi, hie, rfl, rfl⟩
  · right
    exact hs

theorem past_decode (w : Bool) (d : CM) (inp : List Byte) (h : PastEnd d inp) :
    (d.Decode w inp).1 = 0 ∧ PastEnd (d.Decode w inp).2.1 (d.Decode w inp).2.2 := by
  obtain ⟨h1, h2, h3⟩ := h
  obtain ⟨r1, r2, r3, _, r5⟩ := decode_rank w d inp h1 h2
  exact ⟨r5 h3, r1, r2, by omega⟩

/-- The value of a header of which the decoder has got a prefix of the bits
right and zeros after it. -/
theorem header_le (n a b c e : Nat) (hn : n < 2147483648)
    (h : (a = n >>> 24 % 256 ∧ b = n >>> 16 % 256 ∧ c = n >>> 8 % 256 ∧ e ≤ n % 256) ∨
      (a = n >>> 24 % 256 ∧ b = n >>> 16 % 256 ∧ c < n >>> 8 % 256 ∧ e = 0) ∨
      (a = n >>> 24 % 256 ∧ b < n >>> 16 % 256 ∧ c = 0 ∧ e = 0) ∨
      (a < n >>> 24 % 256 ∧ b = 0 ∧ c = 0 ∧ e = 0)) :
    0 ≤ toI32 (a <<< 24 ||| b <<< 16 ||| c <<< 8 ||| e) ∧
      toI32 (a <<< 24 ||| b <<< 16 ||| c <<< 8 ||| e) ≤ (n : Int) := by
  simp only [Nat.shiftRight_eq_div_pow] at h
  norm_num at h
  have hb : b < 256 := by omega
  have hc : c < 256 := by omega
  have he : e < 256 := by omega
  rw [be32_value a b c e hb hc he]
  have hle : a * 16777216 + b * 65536 + c * 256 + e ≤ n := by omega
  unfold toI32
  have hmod : (a * 16777216 + b * 65536 + c * 256 + e) % 4294967296 =
      a * 16777216 + b * 65536 + c * 256 + e := by omega
  rw [hmod, if_pos (by omega)]
  constructor
  · exact Int.natCast_nonneg _
  · exact_mod_cast hle

/-- The first header decoded from the shortened stream is at most the header
that was encoded, and not negative. -/
theorem trunc_header (w : Bool) (d : CM) (inp : List Byte) (m : CM) (n : Nat)
    (hn : n < 2147483648) (cs : List Nat)
    (h : TSync w d inp m (n >>> 24 :: n >>> 16 :: n >>> 8 :: n :: cs)) :
    0 ≤ (decodeInt w d inp).1 ∧ (decodeInt w d inp).1 ≤ (n : Int) := by
  unfold decodeInt
  dsimp only
  apply header_le n _ _ _ _ hn
  rcases tsync_decode w d inp m _ _ h with ⟨a1, a2⟩ | ⟨a1, a2⟩
  · rcases tsync_decode w _ _ _ _ _ a2 with ⟨b1, b2⟩ | ⟨b1, b2⟩
    · rcases tsync_decode w _ _ _ _ _ b2 with ⟨c1, c2⟩ | ⟨c1, c2⟩
      · rcases tsync_decode w _ _ _ _ _ c2 with ⟨e1, _⟩ | ⟨e1, _⟩
        · exact Or.inl ⟨a1, b1, c1, le_of_eq e1⟩
        · exact Or.inl ⟨a1, b1, c1, le_of_lt e1⟩
      · obtain ⟨e1, _⟩ := past_decode w _ _ c2
        exact Or.inr (Or.inl ⟨a1, b1, c1, e1⟩)
    · obtain ⟨c1, c2⟩ := past_decode w _ _ b2
      obtain ⟨e1, _⟩ := past_decode w _ _ c2
      exact Or.inr (Or.inr (Or.inl ⟨a1, b1, c1, e1⟩))
  · obtain ⟨b1, b2⟩ := past_decode w _ _ a2
    obtain ⟨c1, c2⟩ := past_decode w _ _ b2
    obtain ⟨e1, _⟩ := past_decode w _ _ c2
    exact Or.inr (Or.inr (Or.inr ⟨a1, b1, c1, e1⟩))

/-! ## The coder, the predictor and the inverse BWT -/

theorem span_split (span p : Nat) (hs : span < 4294967296) (hp : p < 262144) :
    ((span * p) % W64) >>> 18 = span * p / 262144 ∧
      ((span * ((p <<< 14) % W32)) % W64) >>> 32 = span * p / 262144 := by
  unfold W32 W64
  have h3 : (p <<< 14) % 4294967296 = p * 16384 := by
    rw [Nat.shiftLeft_eq]; omega
  have h2 : span * p < 4294967296 * 262144 := Nat.mul_lt_mul'' hs hp
  have h4 : span * (p * 16384) = span * p * 16384 := by ring
  have h5 : (2 : Nat) ^ 32 = 262144 * 16384 := by norm_num
  constructor
  · rw [Nat.shiftRight_eq_div_pow, Nat.mod_eq_of_lt (by omega)]
  · rw [h3, Nat.shiftRight_eq_div_pow, h4, Nat.mod_eq_of_lt (by omega), h5,
      Nat.mul_div_mul_right _ _ (by norm_num)]

theorem split_variants (low high p : Nat) (hp : p < 262144) :
    splitWin64 low high p = split32 low high p := by
  have hs : (high + W32 - low) % W32 < 4294967296 := Nat.mod_lt _ (by unfold W32; omega)
  have h := span_split ((high + W32 - low) % W32) p hs hp
  unfold splitWin64 split32
  rw [h.1, h.2]

theorem split_bool (low high p : Nat) (hp : p < 262144) :
    split true low high p = split false low high p := by
  unfold split
  simp only [if_true, Bool.false_eq_true, if_false]
  exact split_variants low high p hp

/-- C9: for a probability `p` below `2^18` the shift `p<<14` does not overflow
32 bits, both formulas of the split offset give the same value for every 32-bit
span (and so for the span `high-low` of any coder state), and the `_WIN64` and
the other variant of `EncodeBit0`, `EncodeBit1` and `DecodeBit` agree. -/
theorem split_bit_exact (e : Encoder) (p : Nat) (hp : p < 262144) :
    p <<< 14 < 4294967296 ∧
    (∀ span, span < 4294967296 →
      ((span * p) % W64) >>> 18 = ((span * ((p <<< 14) % W32)) % W64) >>> 32) ∧
    splitWin64 e.low e.high p = split32 e.low e.high p ∧
    e.EncodeBit0 true p = e.EncodeBit0 false p ∧
    e.EncodeBit1 true p = e.EncodeBit1 false p ∧
    ∀ inp, e.DecodeBit true p inp = e.DecodeBit false p inp := by
  refine ⟨?_, ?_, split_variants e.low e.high p hp, ?_, ?_, ?_⟩
  · rw [Nat.shiftLeft_eq]; omega
  · intro span hs
    have h := span_split span p hs hp
    rw [h.1, h.2]
  · unfold Encoder.EncodeBit0
    rw [split_bool e.low e.high p hp]
  · unfold Encoder.EncodeBit1
    rw [split_bool e.low e.high p hp]
  · intro inp
    unfold Encoder.DecodeBit
    rw [split_bool e.low e.high p hp]

/-- C9 at the fresh coder with `p = 100000`. -/
theorem split_bit_exact_witness :
    (100000 : Nat) < 262144 ∧
    splitWin64 Encoder.new.low Encoder.new.high 100000 =
      split32 Encoder.new.low Encoder.new.high 100000 :=
  ⟨by decide, (split_bit_exact Encoder.new 100000 (by decide)).2.2.1⟩

theorem encodeStep_ctx_le (w : Bool) (m : CM) (f ctx c : Nat) :
    (m.encodeStep w f ctx c).2.1 ≤ 2 * ctx + 1 := by
  rw [encodeStep_ctx]
  omega

theorem decodeStep_ctx_le (w : Bool) (m : CM) (f ctx : Nat) (inp : List Byte) :
    (m.decodeStep w f ctx inp).2.1 ≤ 2 * ctx + 1 := by
  unfold CM.decodeStep
  dsimp only
  split <;> dsimp only <;> omega

theorem encodeLoop_ctx_le (w : Bool) (k : Nat) : ∀ (m : CM) (f ctx c : Nat),
    (CM.encodeLoop w k m f ctx c).2.1 + 1 ≤ 2 ^ k * (ctx + 1) := by
  induction k with
  | zero => intro m f ctx c; simp [CM.encodeLoop]
  | succ k ih =>
    intro m f ctx c
    rw [CM.encodeLoop]
    have hpos : 1 ≤ 2 ^ k := Nat.one_le_two_pow
    have hpow : 2 ^ (k + 1) * (ctx + 1) = 2 ^ k * (2 * ctx + 1 + 1) := by ring
    split
    · dsimp only
      have h1 := ih (m.encodeStep w f ctx c).1 f (m.encodeStep w f ctx c).2.1
        (m.encodeStep w f ctx c).2.2.1
      have h2 := encodeStep_ctx_le w m f ctx c
      have h3 : 2 ^ k * ((m.encodeStep w f ctx c).2.1 + 1) ≤ 2 ^ k * (2 * ctx + 1 + 1) :=
        Nat.mul_le_mul_left _ (by omega)
      omega
    · dsimp only
      have h3 : 1 * (ctx + 1) ≤ 2 ^ (k + 1) * (ctx + 1) :=
        Nat.mul_le_mul_right _ Nat.one_le_two_pow
      omega

theorem decodeLoop_ctx_le (w : Bool) (k : Nat) : ∀ (m : CM) (f ctx : Nat) (inp : List Byte),
    (CM.decodeLoop w k m f ctx inp).2.1 + 1 ≤ 2 ^ k * (ctx + 1) := by
  induction k with
  | zero => intro m f ctx inp; simp [CM.decodeLoop]
  | succ k ih =>
    intro m f ctx inp
    rw [CM.decodeLoop]
    have hpow : 2 ^ (k + 1) * (ctx + 1) = 2 ^ k * (2 * ctx + 1 + 1) := by ring
    split
    · dsimp only
      have h1 := ih (m.decodeStep w f ctx inp).1 f (m.decodeStep w f ctx inp).2.1
        (m.decodeStep w f ctx inp).2.2
      have h2 := decodeStep_ctx_le w m f ctx inp
      have h3 : 2 ^ k * ((m.decodeStep w f ctx inp).2.1 + 1) ≤ 2 ^ k * (2 * ctx + 1 + 1) :=
        Nat.mul_le_mul_left _ (by omega)
      omega
    · dsimp only
      have h3 : 1 * (ctx + 1) ≤ 2 ^ (k + 1) * (ctx + 1) :=
        Nat.mul_le_mul_right _ Nat.one_le_two_pow
      omega

theorem ctx_lt_256 (k x : Nat) (hk : k < 8) (h : x + 1 ≤ 2 ^ k * (1 + 1)) : x < 256 := by
  have h1 : 2 ^ k ≤ 2 ^ 7 := Nat.pow_le_pow_right (by norm_num) (by omega)
  have h2 : (2 : Nat) ^ 7 = 128 := by norm_num
  omega

theorem flag_le (m : CM) : m.flag ≤ 1 := by
  unfold CM.flag
  split <;> omega

/-- C10: in a state `m` reached from the constructor by `Encode` and `Decode`
calls, at each of the 8 bits of a further `Encode(c)` or `Decode()` (that is,
after `k < 8` rounds of the bit loop) the locals satisfy: `p` in `[0, 65535]`,
`j = p >> 12` in `[0, 15]`, `ssep` between `x1` and `x2` and in `[0, 65535]`,
and `p + 3*ssep` in `[0, 2^18)`; moreover `f <= 1` and `ctx < 256`, so every
counter index is in bounds. -/
theorem coder_probability_range (w : Bool) (m : CM) (h : CM.Reachable w m) (c : Nat)
    (inp : List Byte) (k : Nat) (hk : k < 8) :
    m.flag ≤ 1 ∧
    ((CM.encodeLoop w k { m with run := m.nextRun } m.flag 1 c).2.1 < 256 ∧
      MixOk ((CM.encodeLoop w k { m with run := m.nextRun } m.flag 1 c).1.mix m.flag
        (CM.encodeLoop w k { m with run := m.nextRun } m.flag 1 c).2.1)) ∧
    ((CM.decodeLoop w k { m with run := m.nextRun } m.flag 1 inp).2.1 < 256 ∧
      MixOk ((CM.decodeLoop w k { m with run := m.nextRun } m.flag 1 inp).1.mix m.flag
        (CM.decodeLoop w k { m with run := m.nextRun } m.flag 1 inp).2.1)) := by
  have hinv : ({ m with run := m.nextRun } : CM).Inv := inv_run m _ (reachable_inv w m h)
  refine ⟨flag_le m, ⟨?_, ?_⟩, ⟨?_, ?_⟩⟩
  · exact ctx_lt_256 k _ hk (encodeLoop_ctx_le w k _ _ 1 c)
  · exact mix_ok _ _ _ (encodeLoop_inv w k _ _ _ _ hinv)
  · exact ctx_lt_256 k _ hk (decodeLoop_ctx_le w k _ _ 1 inp)
  · exact mix_ok _ _ _ (decodeLoop_inv w k _ _ _ _ hinv)

/-- C10 at the first bit of `Encode(65)` in the initial state. -/
theorem coder_probability_range_witness :
    CM.Reachable false CM.new ∧ (0 : Nat) < 8 ∧
    MixOk ((CM.encodeLoop false 0 { CM.new with run := CM.new.nextRun } CM.new.flag 1 65).1.mix
      CM.new.flag (CM.encodeLoop false 0 { CM.new with run := CM.new.nextRun } CM.new.flag 1 65).2.1) :=
  ⟨CM.Reachable.new, by decide,
    (coder_probability_range false CM.new CM.Reachable.new 65 [] 0 (by decide)).2.1.2⟩

/-- C2: a fresh coder encodes the bits `b_i` with probabilities `p_i` below
`2^18` and is flushed; a fresh coder that runs `Init` on the bytes written
(followed by any bytes `extra`) and calls `DecodeBit(p_1)`, `DecodeBit(p_2)`,
... returns `b_1`, `b_2`, ... in order, and leaves exactly `extra` unread. -/
theorem coder_symmetry (w : Bool) (l : List (Nat × Nat)) (extra : List Byte)
    (h : ∀ x ∈ l, x.1 < 262144 ∧ x.2 ≤ 1) :
    (decodeBits w
        (Encoder.new.Init ((encodeBits w Encoder.new l).2 ++
          ((encodeBits w Encoder.new l).1.Flush).2 ++ extra)).1
        (l.map Prod.fst)
        (Encoder.new.Init ((encodeBits w Encoder.new l).2 ++
          ((encodeBits w Encoder.new l).1.Flush).2 ++ extra)).2).1 = l.map Prod.snd ∧
    (decodeBits w
        (Encoder.new.Init ((encodeBits w Encoder.new l).2 ++
          ((encodeBits w Encoder.new l).1.Flush).2 ++ extra)).1
        (l.map Prod.fst)
        (Encoder.new.Init ((encodeBits w Encoder.new l).2 ++
          ((encodeBits w Encoder.new l).1.Flush).2 ++ extra)).2).2.2 = extra := by
  have hS : (encodeBits w Encoder.new l).2 ++ ((encodeBits w Encoder.new l).1.Flush).2 ++ extra =
      streamOf w Encoder.new l ++ extra := rfl
  have hlen := (tail_window w l Encoder.new extra encInv_new (fun x hx => (h x hx).1)).2.2
  rw [hS, init_window _ hlen]
  have hd := decodeBits_sync w l Encoder.new extra encInv_new h
  simp only [Encoder.new] at hd
  simp only [Encoder.new]
  rw [hd]
  exact ⟨rfl, rfl⟩

/-- C2 for the three bits 1, 0, 1 with probabilities 1000, 200000, 262143. -/
theorem coder_symmetry_witness :
    (∀ x ∈ [((1000 : Nat), (1 : Nat)), (200000, 0), (262143, 1)], x.1 < 262144 ∧ x.2 ≤ 1) ∧
    (decodeBits false
        (Encoder.new.Init ((encodeBits false Encoder.new [(1000, 1), (200000, 0), (262143, 1)]).2 ++
          ((encodeBits false Encoder.new [(1000, 1), (200000, 0), (262143, 1)]).1.Flush).2 ++ [])).1
        ([(1000, 1), (200000, 0), (262143, 1)].map Prod.fst)
        (Encoder.new.Init ((encodeBits false Encoder.new [(1000, 1), (200000, 0), (262143, 1)]).2 ++
          ((encodeBits false Encoder.new [(1000, 1), (200000, 0), (262143, 1)]).1.Flush).2 ++ [])).2).1
      = [1, 0, 1] :=
  ⟨by decide, (coder_symmetry false [(1000, 1), (200000, 0), (262143, 1)] [] (by decide)).1⟩

/-- C3: for a non-empty string `s` of length `n` with forward BWT `(L, idx)`
in the divbwt convention, `idx` lies in `[1, n]`, `L` has `n` bytes, and the
inverse-BWT code of `decompress` (run on `buf = L` with its histogram `t`, any
previous content of `next`, room for at least `n` entries and at least `n`
rounds of the last loop) writes exactly the bytes of `s` in order, with every
array access in bounds. -/
theorem inverse_bwt_correct (s : List Byte) (hs : s ≠ []) (cap : Int) (next : Nat → Int)
    (fuel : Nat) (hcap : (s.length : Int) ≤ cap) (hf : s.length ≤ fuel) :
    1 ≤ (bwtSpec s).2 ∧ (bwtSpec s).2 ≤ (s.length : Int) ∧
    (bwtSpec s).1.length = s.length ∧
    ∃ next2, inverseBWT cap s.length (bwtSpec s).2 (bufOf (bwtSpec s).1)
      (histogram (bwtSpec s).1) next fuel = some (some (next2, s)) := by
  have hb := sufRow_zero_bounds s hs
  have hi := bwtSpec_idx s hs
  have hl := bwtSpec_length s hs
  refine ⟨by rw [hi]; exact_mod_cast hb.1, by rw [hi]; exact_mod_cast hb.2, hl, ?_⟩
  have hh := histogram_spec (bwtSpec s).1
  rw [hl] at hh
  exact inverseBWT_of_isBWT s hs cap (bwtSpec s).2 (bufOf (bwtSpec s).1)
    (histogram (bwtSpec s).1) next fuel (bwtSpec_isBWT s hs) (fun i _ => bufOf_lt _ i) hh.1 hh.2
    hcap hf

/-- C3 for the string `banana`: its transform is `annbaa` with primary index
4. -/
theorem inverse_bwt_correct_witness :
    ([98, 97, 110, 97, 110, 97] : List Byte) ≠ [] ∧
    bwtSpec [98, 97, 110, 97, 110, 97] = ([97, 110, 110, 98, 97, 97], 4) ∧
    ∃ next2, inverseBWT 6 ([98, 97, 110, 97, 110, 97] : List Byte).length
      (bwtSpec [98, 97, 110, 97, 110, 97]).2 (bufOf (bwtSpec [98, 97, 110, 97, 110, 97]).1)
      (histogram (bwtSpec [98, 97, 110, 97, 110, 97]).1) (fun _ => 0) 6 =
        some (some (next2, [98, 97, 110, 97, 110, 97])) :=
  ⟨by decide, by decide,
    (inverse_bwt_correct [98, 97, 110, 97, 110, 97] (by decide) 6 (fun _ => 0) 6
      (by decide) (by decide)).2.2.2⟩

/-! ## The functions `compress` and `decompress` -/

/-- The bit loop of `Encode` reads only the low eight bits of its argument. -/
theorem encodeLoop_mod (w : Bool) (k : Nat) : ∀ (m : CM) (f ctx c c2 : Nat),
    c % 256 = c2 % 256 → CM.encodeLoop w k m f ctx c = CM.encodeLoop w k m f ctx c2 := by
  induction k with
  | zero => intro m f ctx c c2 _; rfl
  | succ k ih =>
    intro m f ctx c c2 h
    have ht : topBit c = topBit c2 := by rw [topBit_eq, topBit_eq]; omega
    rw [CM.encodeLoop, CM.encodeLoop]
    split
    · rw [encodeStep_eq w m f ctx c, encodeStep_eq w m f ctx c2, ht]
      dsimp only
      rw [ih _ f _ (c + c) (c2 + c2) (by omega)]
    · rfl

theorem encode_mod (w : Bool) (m : CM) (c : Nat) : m.Encode w c = m.Encode w (c % 256) := by
  unfold CM.Encode
  rw [encodeLoop_mod w 8 _ _ 1 c (c % 256) (by omega)]

theorem encodeList_mod (w : Bool) (cs : List Nat) : ∀ (m : CM),
    m.encodeList w cs = m.encodeList w (cs.map (fun c => c % 256)) := by
  induction cs with
  | nil => intro m; rfl
  | cons c cs ih =>
    intro m
    rw [List.map_cons, encodeList_cons, encodeList_cons, ← encode_mod, ih]

theorem headerArgs_mod (n idx : Nat) :
    (headerArgs n idx).map (fun c => c % 256) = bigEndian n ++ bigEndian idx := by
  simp only [headerArgs, bigEndian, List.map_cons, List.map_nil, Nat.shiftRight_eq_div_pow,
    List.cons_append, List.nil_append]

theorem bytes_mod (L : List Byte) :
    (L.map (fun b => b.val)).map (fun c => c % 256) = L.map (fun b => b.val) := by
  rw [List.map_map]
  apply List.map_congr_left
  intro b _
  exact Nat.mod_eq_of_lt b.isLt

theorem frameArgs_mod (divbwt : List Byte → List Byte × Int) (blocks : List (List Byte)) :
    (frameArgs divbwt blocks).map (fun c => c % 256) = frameBytes divbwt blocks := by
  induction blocks with
  | nil => rfl
  | cons blk rest ih =>
    rw [frameArgs, frameBytes, List.map_append, ih, blockArgs, blockBytes, List.map_append,
      headerArgs_mod, bytes_mod]

theorem bigEndian_lt (n : Nat) : ∀ x ∈ bigEndian n, x < 256 := by
  intro x hx
  simp only [bigEndian, List.mem_cons, List.mem_singleton, List.not_mem_nil, or_false] at hx
  omega

theorem frameBytes_lt (divbwt : List Byte → List Byte × Int) (blocks : List (List Byte)) :
    ∀ x ∈ frameBytes divbwt blocks, x < 256 := by
  induction blocks with
  | nil =>
    intro x hx
    simp only [frameBytes, List.mem_cons, List.mem_singleton, List.not_mem_nil, or_false] at hx
    omega
  | cons blk rest ih =>
    intro x hx
    rw [frameBytes, blockBytes, List.mem_append, List.mem_append, List.mem_append] at hx
    rcases hx with ((h | h) | h) | h
    · exact bigEndian_lt _ x h
    · exact bigEndian_lt _ x h
    · obtain ⟨b, _, rfl⟩ := List.mem_map.mp h
      exact b.isLt
    · exact ih x h

theorem chunks_getD (b : Nat) (hb : 1 ≤ b) (k : Nat) : ∀ (l : List Byte) (i : Nat),
    l.length ≤ k → (chunks b k l).getD i [] = (l.drop (i * b)).take b := by
  induction k with
  | zero =>
    intro l i h
    have hl : l = [] := List.length_eq_zero.mp (by omega)
    subst hl
    simp [chunks]
  | succ k ih =>
    intro l i h
    by_cases hl : l = []
    · subst hl
      simp [chunks]
    · rw [chunks_cons b k l hl]
      have hpos : 0 < l.length := List.length_pos.mpr hl
      cases i with
      | zero => simp
      | succ i =>
        rw [List.getD_cons_succ, ih (l.drop b) i (by rw [List.length_drop]; omega),
          List.drop_drop]
        congr 2
        ring

theorem blocksOf_nil (bsize : Nat) : blocksOf [] bsize = [] := rfl

theorem blocksOf_bounds (s : List Byte) (bsize : Nat) (hb : 1 ≤ bsize) :
    ∀ blk ∈ blocksOf s bsize, 1 ≤ blk.length ∧ blk.length ≤ min bsize s.length := by
  intro blk hblk
  by_cases hs : s = []
  · subst hs
    rw [blocksOf_nil] at hblk
    exact absurd hblk (List.not_mem_nil _)
  · have hpos : 0 < s.length := List.length_pos.mpr hs
    have := chunks_bounds _ (show 1 ≤ min bsize s.length by omega) _ s blk hblk
    exact ⟨this.1, this.2.1⟩

theorem blocksOf_flatten (s : List Byte) (bsize : Nat) (hb : 1 ≤ bsize) :
    (blocksOf s bsize).flatten = s := by
  by_cases hs : s = []
  · subst hs; rfl
  · have hpos : 0 < s.length := List.length_pos.mpr hs
    exact chunks_flatten _ (by omega) _ s (le_refl _)

theorem blocksOf_getD (s : List Byte) (bsize : Nat) (hb : 1 ≤ bsize) (i : Nat) :
    (blocksOf s bsize).getD i [] =
      (s.drop (i * min bsize s.length)).take (min bsize s.length) := by
  by_cases hs : s = []
  · subst hs
    rw [blocksOf_nil, List.drop_nil, List.take_nil]
    rfl
  · have hpos : 0 < s.length := List.length_pos.mpr hs
    exact chunks_getD _ (by omega) _ s i (le_refl _)

theorem blocksOf_length (s : List Byte) (bsize : Nat) (hb : 1 ≤ bsize) :
    (blocksOf s bsize).length = (s.length + min bsize s.length - 1) / min bsize s.length := by
  by_cases hs : s = []
  · subst hs
    have h0 : min bsize ([] : List Byte).length = 0 := Nat.min_zero bsize
    rw [blocksOf_nil, h0, Nat.div_zero]
    rfl
  · have hpos : 0 < s.length := List.length_pos.mpr hs
    exact chunks_length _ (by omega) _ s (le_refl _)

theorem flushLoop_length (k : Nat) : ∀ low, (flushLoop k low).2.length = k := by
  induction k with
  | zero => intro low; rfl
  | succ k ih => intro low; rw [flushLoop]; simp only [List.length_cons, ih]

theorem flush_length (e : Encoder) : e.Flush.2.length = 4 := flushLoop_length 4 e.low

/-- C1: with a block size of at least 1, an input shorter than `2^31` bytes,
enough memory for the block buffer, and a forward BWT `divbwt` that meets its
contract, `compress` writes a file, and `decompress` of that file (with fuel for
at least `2*|s|+1` loop rounds) succeeds, writes exactly `s` and reads the whole
file. -/
theorem roundtrip (w : Bool) (cap : Nat) (divbwt : List Byte → List Byte × Int)
    (s : List Byte) (bsize : Nat) (hb : 1 ≤ bsize) (hlen : s.length < 2147483648)
    (hcap : callocOk cap ((min bsize s.length : Nat) : Int) = true)
    (hd : ∀ blk, blk ≠ [] → divbwt blk = bwtSpec blk) :
    ∃ file, compress w cap divbwt s bsize = some (CompressResult.ok file) ∧
      ∀ fuel, s.length + s.length + 1 ≤ fuel →
        decompress w cap fuel file = some (Outcome.success, s, []) := by
  refine ⟨magic ++ CM.new.stream w (frameArgs divbwt (blocksOf s bsize)) [], ?_, ?_⟩
  · apply compress_eq w cap divbwt s bsize hb hcap
    intro blk hblk
    have hne : blk ≠ [] := List.length_pos.mp (blocksOf_bounds s bsize hb blk hblk).1
    rw [hd blk hne, bwtSpec_idx blk hne]
    exact_mod_cast (sufRow_zero_bounds blk hne).1
  · intro fuel hf
    exact decompress_compress w cap divbwt s bsize [] hb hlen hcap hd fuel hf

/-- C1 for the two bytes 1, 2 cut into blocks of one byte. -/
theorem roundtrip_witness :
    (1 : Nat) ≤ 1 ∧ ([1, 2] : List Byte).length < 2147483648 ∧
    callocOk 100 ((min 1 ([1, 2] : List Byte).length : Nat) : Int) = true ∧
    (∀ blk : List Byte, blk ≠ [] → bwtSpec blk = bwtSpec blk) ∧
    ∃ file, compress false 100 bwtSpec [1, 2] 1 = some (CompressResult.ok file) ∧
      ∀ fuel, ([1, 2] : List Byte).length + ([1, 2] : List Byte).length + 1 ≤ fuel →
        decompress false 100 fuel file = some (Outcome.success, [1, 2], []) :=
  ⟨by decide, by decide, by decide, fun _ _ => rfl,
    roundtrip false 100 bwtSpec [1, 2] 1 (by decide) (by decide) (by decide) (fun _ _ => rfl)⟩

/-- C5: `compress` writes the magic `BCM1`, then what the predictor writes for
one `Encode` call per value of the frame (the arguments of the calls in the
source agree with these values modulo 256, and `Encode` reads only the low
eight bits), then the four bytes of `Flush`. The frame is: for each block the
four big-endian bytes of its length, the four big-endian bytes of its primary
index and its transformed bytes; then four zero bytes. The blocks are the
consecutive chunks of `min(bsize, |s|)` bytes of the input, the last one
possibly shorter: block `i` starts at byte `i * min(bsize, |s|)`, there are
`ceil(|s| / min(bsize, |s|))` blocks, each of 1 to `bsize` bytes. -/
theorem framing_layout (w : Bool) (cap : Nat) (divbwt : List Byte → List Byte × Int)
    (s : List Byte) (bsize : Nat) (hb : 1 ≤ bsize)
    (hcap : callocOk cap ((min bsize s.length : Nat) : Int) = true)
    (hd : ∀ blk ∈ blocksOf s bsize, 1 ≤ (divbwt blk).2) :
    compress w cap divbwt s bsize =
      some (CompressResult.ok (magic ++
        (CM.new.encodeList w (frameBytes divbwt (blocksOf s bsize))).2 ++
        ((CM.new.encodeList w (frameBytes divbwt (blocksOf s bsize))).1.enc.Flush).2)) ∧
    ((CM.new.encodeList w (frameBytes divbwt (blocksOf s bsize))).1.enc.Flush).2.length = 4 ∧
    (frameArgs divbwt (blocksOf s bsize)).map (fun c => c % 256) =
      frameBytes divbwt (blocksOf s bsize) ∧
    (∀ x ∈ frameBytes divbwt (blocksOf s bsize), x < 256) ∧
    (∀ i, (blocksOf s bsize).getD i [] =
      (s.drop (i * min bsize s.length)).take (min bsize s.length)) ∧
    (blocksOf s bsize).length = (s.length + min bsize s.length - 1) / min bsize s.length ∧
    (∀ blk ∈ blocksOf s bsize, 1 ≤ blk.length ∧ blk.length ≤ bsize) ∧
    (blocksOf s bsize).flatten = s := by
  refine ⟨?_, flush_length _, frameArgs_mod _ _, frameBytes_lt _ _, blocksOf_getD s bsize hb,
    blocksOf_length s bsize hb, ?_, blocksOf_flatten s bsize hb⟩
  · rw [compress_eq w cap divbwt s bsize hb hcap hd, CM.stream, encodeList_mod, frameArgs_mod,
      List.append_nil, List.append_assoc]
  · intro blk hblk
    have := blocksOf_bounds s bsize hb blk hblk
    omega

/-- C5 for the three bytes 7, 8, 9 with blocks of two bytes and a transform
that leaves the block as it is and returns index 1. -/
theorem framing_layout_witness :
    (1 : Nat) ≤ 2 ∧
    callocOk 100 ((min 2 ([7, 8, 9] : List Byte).length : Nat) : Int) = true ∧
    blocksOf [7, 8, 9] 2 = [[7, 8], [9]] ∧
    frameBytes (fun blk => (blk, 1)) (blocksOf [7, 8, 9] 2) =
      [0, 0, 0, 2, 0, 0, 0, 1, 7, 8, 0, 0, 0, 1, 0, 0, 0, 1, 9, 0, 0, 0, 0] ∧
    compress false 100 (fun blk => (blk, 1)) [7, 8, 9] 2 =
      some (CompressResult.ok (magic ++
        (CM.new.encodeList false
          (frameBytes (fun blk => (blk, 1)) (blocksOf [7, 8, 9] 2))).2 ++
        ((CM.new.encodeList false
          (frameBytes (fun blk => (blk, 1)) (blocksOf [7, 8, 9] 2))).1.enc.Flush).2)) :=
  ⟨by decide, by decide, by decide, by decide,
    (framing_layout false 100 (fun blk => (blk, 1)) [7, 8, 9] 2 (by decide) (by decide)
      (fun _ _ => le_refl _)).1⟩

theorem compress_nil (w : Bool) (cap : Nat) (divbwt : List Byte → List Byte × Int)
    (bsize : Nat) :
    compress w cap divbwt [] bsize =
      some (CompressResult.ok (magic ++ (CM.new.encodeList w [0, 0, 0, 0]).2 ++
        ((CM.new.encodeList w [0, 0, 0, 0]).1.enc.Flush).2)) := by
  have hmin : (if bsize > ([] : List Byte).length then ([] : List Byte).length else bsize) = 0 := by
    split
    · rfl
    · have : ([] : List Byte).length = 0 := rfl
      omega
  have hcap : callocOk cap ((0 : Nat) : Int) = true := by
    unfold callocOk
    simp
  have hloop : compressLoop w divbwt 0 (0 + 1) CM.new [] = some (CM.new, [], true) := by
    rw [compressLoop]
    simp only [List.take_nil, List.length_nil, gt_iff_lt, lt_self_iff_false, if_false]
  unfold compress compressFuel
  simp only [hmin, hcap, Bool.not_true, Bool.false_eq_true, if_false]
  have hlen : ([] : List Byte).length + 1 = 0 + 1 := rfl
  rw [hlen, hloop]
  simp only [if_true, List.append_nil]

/-- C6: `compress` of the empty input (with any block size and any memory)
writes the magic bytes 0x42 0x43 0x4D 0x31, then the bytes the coder writes
while four zero bytes are encoded from the initial state, then the four bytes
of `Flush`; `decompress` of that file succeeds, writes nothing and reads the
whole file. -/
theorem empty_input (w : Bool) (cap : Nat) (divbwt : List Byte → List Byte × Int)
    (bsize fuel : Nat) :
    compress w cap divbwt [] bsize =
      some (CompressResult.ok (magic ++ (CM.new.encodeList w [0, 0, 0, 0]).2 ++
        ((CM.new.encodeList w [0, 0, 0, 0]).1.enc.Flush).2)) ∧
    magic = [0x42, 0x43, 0x4D, 0x31] ∧
    ((CM.new.encodeList w [0, 0, 0, 0]).1.enc.Flush).2.length = 4 ∧
    decompress w cap (fuel + 1) (magic ++ (CM.new.encodeList w [0, 0, 0, 0]).2 ++
        ((CM.new.encodeList w [0, 0, 0, 0]).1.enc.Flush).2) =
      some (Outcome.success, [], []) := by
  refine ⟨compress_nil w cap divbwt bsize, rfl, flush_length _, ?_⟩
  have hcap : callocOk cap ((min 1 ([] : List Byte).length : Nat) : Int) = true := by
    unfold callocOk
    simp
  have h := decompress_compress w cap bwtSpec [] 1 [] (le_refl _) (by simp) hcap
    (fun _ _ => rfl) (fuel + 1) (by simp)
  rw [blocksOf_nil] at h
  simp only [frameArgs, CM.stream, List.append_nil] at h
  rw [List.append_assoc]
  exact h

theorem initLoop_length (k : Nat) : ∀ (code : Nat) (inp : List Byte),
    (initLoop k code inp).2.length ≤ inp.length := by
  induction k with
  | zero => intro code inp; exact le_refl _
  | succ k ih =>
    intro code inp
    rw [initLoop]
    cases inp with
    | nil => rw [shiftIn_nil]; exact ih _ _
    | cons b rest =>
      rw [shiftIn_cons]
      have := ih (code * 256 % 4294967296 + b.val) rest
      simp only [List.length_cons]
      omega

theorem getc_length (inp : List Byte) : (getc inp).2.length ≤ inp.length := by
  cases inp with
  | nil => exact le_refl _
  | cons b rest => simp [getc]

theorem checkMagic_length (inp rest : List Byte) (h : checkMagic inp = some rest) :
    rest.length ≤ inp.length := by
  unfold checkMagic at h
  dsimp only at h
  split at h
  · exact absurd h (by simp)
  split at h
  · exact absurd h (by simp)
  split at h
  · exact absurd h (by simp)
  split at h
  · exact absurd h (by simp)
  have e : rest = (getc (getc (getc (getc inp).2).2).2).2 := (Option.some.inj h).symm
  rw [e]
  have h1 := getc_length inp
  have h2 := getc_length (getc inp).2
  have h3 := getc_length (getc (getc inp).2).2
  have h4 := getc_length (getc (getc (getc inp).2).2).2
  omega

theorem decRank_le (e : Encoder) (inp : List Byte) (h : e.high < 4294967296) :
    decRank e inp ≤ (inp.length + 1) * 4294967296 := by
  unfold decRank
  split
  · omega
  · have : (inp.length + 1) * 4294967296 = inp.length * 4294967296 + 4294967296 := by ring
    omega

/-- The function `decompress` ends for every input, without an access out of
bounds; it ends in `Out of memory` only when the allocation for the length
decoded from the first header fails. -/
theorem decompress_total (w : Bool) (cap : Nat) (inp : List Byte) (k : Nat) :
    ∃ r, decompress w cap (fuelFor inp + k) inp = some r ∧
      (r.1 = Outcome.success ∨ (r.1 = Outcome.notBCM ∧ checkMagic inp = none) ∨
        r.1 = Outcome.corrupt ∨
        (r.1 = Outcome.outOfMemory ∧ ∃ rest, checkMagic inp = some rest ∧
          callocOk cap (decodeInt w { CM.new with enc := (CM.new.enc.Init rest).1 }
            (CM.new.enc.Init rest).2).1 = false)) := by
  unfold decompress
  cases hm : checkMagic inp with
  | none => exact ⟨_, rfl, Or.inr (Or.inl ⟨rfl, rfl⟩)⟩
  | some rest =>
    dsimp only
    have hl := checkMagic_length inp rest hm
    have hi := initLoop_length 4 CM.new.enc.code rest
    have hr := decRank_le (CM.new.enc.Init rest).1 (CM.new.enc.Init rest).2
      (by show (4294967295 : Nat) < 4294967296; omega)
    have hlen : (CM.new.enc.Init rest).2.length ≤ inp.length := le_trans hi hl
    have hmul : ((CM.new.enc.Init rest).2.length + 1) * 4294967296 ≤
        (inp.length + 1) * 4294967296 := Nat.mul_le_mul_right _ (by omega)
    obtain ⟨r, h1, h2⟩ := decompressLoop_total w cap ((inp.length + 1) * 4294967296)
      (fuelFor inp + k) { CM.new with enc := (CM.new.enc.Init rest).1 } (CM.new.enc.Init rest).2
      { bsize := 0, buf := fun _ => 0, next := fun _ => 0 } inv_new encInv_new (le_refl _)
      (le_trans hr hmul) (by unfold fuelFor; omega)
    refine ⟨r, h1, ?_⟩
    rcases h2 with h | h | ⟨h, _, hc⟩
    · exact Or.inl h
    · exact Or.inr (Or.inr (Or.inl h))
    · exact Or.inr (Or.inr (Or.inr ⟨h, rest, rfl, hc⟩))

/-- C7: for every input file, `decompress` with the fuel `fuelFor inp` (or
more) returns: it ends in success, `Not in BCM format`, `Out of memory` or
`File corrupted`, and never in an access outside `buf`, `next` or `t`. A read
past the end of the input yields the value -1 of `getc`. -/
theorem decompress_never_hangs (w : Bool) (cap : Nat) (inp : List Byte) (k : Nat) :
    ∃ r, decompress w cap (fuelFor inp + k) inp = some r ∧
      r.1 ≠ Outcome.outOfBounds ∧
      (r.1 = Outcome.success ∨ r.1 = Outcome.notBCM ∨ r.1 = Outcome.outOfMemory ∨
        r.1 = Outcome.corrupt) := by
  obtain ⟨r, h1, h2⟩ := decompress_total w cap inp k
  refine ⟨r, h1, ?_, ?_⟩
  · rcases h2 with h | ⟨h, _⟩ | h | ⟨h, _⟩ <;> rw [h] <;> decide
  · rcases h2 with h | ⟨h, _⟩ | h | ⟨h, _⟩
    · exact Or.inl h
    · exact Or.inr (Or.inl h)
    · exact Or.inr (Or.inr (Or.inr h))
    · exact Or.inr (Or.inr (Or.inl h))

theorem header_negative (w : Bool) :
    (decodeInt w { CM.new with enc := (CM.new.enc.Init [0, 0, 0, 0]).1 }
      (CM.new.enc.Init [0, 0, 0, 0]).2).1 = -16777216 ∧
    (decodeInt w { CM.new with enc := (CM.new.enc.Init [0, 0, 0, 0]).1 }
      (CM.new.enc.Init [0, 0, 0, 0]).2).2.2 = [] := by
  cases w <;> decide!

/-- C4: on the file `42 43 4D 31 00 00 00 00` the first block header decodes
to `n = -16777216`; `decompress` allocates before it validates the header, the
allocation of a negative count fails, and the run ends in `Out of memory`, not
in `File corrupted`, whatever the memory available. -/
theorem negative_first_header (w : Bool) (cap fuel : Nat) :
    decompress w cap (fuel + 1) [0x42, 0x43, 0x4D, 0x31, 0, 0, 0, 0] =
      some (Outcome.outOfMemory, [], []) := by
  have hm : ([0x42, 0x43, 0x4D, 0x31, 0, 0, 0, 0] : List Byte) = magic ++ [0, 0, 0, 0] := rfl
  have hn := header_negative w
  unfold decompress
  rw [hm, checkMagic_magic]
  dsimp only
  rw [decompressLoop_oom w cap fuel _ _ _ (by rw [hn.1]; decide) rfl
    (callocOk_neg cap _ (by rw [hn.1]; decide) (by rw [hn.1]; decide)), hn.2]

/-- C8 fails for the input `00 C3` coded as one block: `compress` writes 14
bytes, and `decompress` of the first 13 of them succeeds with the output
`00 C0`. -/
theorem truncation_counterexample :
    compress false 100 bwtSpec [0, 195] 2 =
      some (CompressResult.ok ([66, 67, 77, 49, 255, 255, 254, 65, 134, 7, 128, 255, 88] ++
        [50])) ∧
    decompress false 100 10 [66, 67, 77, 49, 255, 255, 254, 65, 134, 7, 128, 255, 88] =
      some (Outcome.success, [0, 192], []) ∧
    ([0, 192] : List Byte) ≠ [0, 195] := by
  refine ⟨by decide!, by decide!, by decide⟩

theorem callocOk_mono (cap : Nat) (N : Nat) (n : Int) (hN : N < 2147483648)
    (h : callocOk cap (N : Int) = true) (h0 : 0 ≤ n) (h1 : n ≤ (N : Int)) :
    callocOk cap n = true := by
  unfold callocOk at h ⊢
  rw [decide_eq_true_eq] at h ⊢
  have e1 : ((N : Int) % 18446744073709551616).toNat = N := by omega
  have e2 : (n % 18446744073709551616).toNat ≤ N := by omega
  rw [e1] at h
  omega

/-- The arguments of the `Encode` calls of `compress` start with the four
shifts of a length that is at most the block size. -/
theorem frameArgs_head (divbwt : List Byte → List Byte × Int) (s : List Byte) (bsize : Nat)
    (hb : 1 ≤ bsize) :
    ∃ n cs, n ≤ min bsize s.length ∧
      frameArgs divbwt (blocksOf s bsize) = n >>> 24 :: n >>> 16 :: n >>> 8 :: n :: cs := by
  cases hB : blocksOf s bsize with
  | nil => exact ⟨0, [], Nat.zero_le _, rfl⟩
  | cons blk rest =>
    have hmem : blk ∈ blocksOf s bsize := by rw [hB]; exact List.mem_cons_self _ _
    exact ⟨blk.length, _, (blocksOf_bounds s bsize hb blk hmem).2, rfl⟩

theorem dropLast_magic (S : List Byte) (h : S ≠ []) :
    (magic ++ S).dropLast = magic ++ S.dropLast :=
  List.dropLast_append_of_ne_nil _ h

/-- C8 as amended: for every input `s` shorter than `2^31` bytes and every
block size of at least 1 (with enough memory for the block buffer and a forward
BWT that returns a primary index of at least 1 on the blocks), `compress`
writes a file, and `decompress` of that file without its last byte returns: it
ends in success or in `File corrupted`, and in no other way. Its output on
success is not claimed to be `s`. -/
theorem truncation_outcome (w : Bool) (cap : Nat) (divbwt : List Byte → List Byte × Int)
    (s : List Byte) (bsize : Nat) (k : Nat) (hb : 1 ≤ bsize) (hlen : s.length < 2147483648)
    (hcap : callocOk cap ((min bsize s.length : Nat) : Int) = true)
    (hd : ∀ blk ∈ blocksOf s bsize, 1 ≤ (divbwt blk).2) :
    ∃ file, compress w cap divbwt s bsize = some (CompressResult.ok file) ∧
      ∃ r, decompress w cap (fuelFor file.dropLast + k) file.dropLast = some r ∧
        (r.1 = Outcome.success ∨ r.1 = Outcome.corrupt) := by
  refine ⟨_, compress_eq w cap divbwt s bsize hb hcap hd, ?_⟩
  have hS := stream_length w CM.new (frameArgs divbwt (blocksOf s bsize)) [] inv_new encInv_new
  have hne : CM.new.stream w (frameArgs divbwt (blocksOf s bsize)) [] ≠ [] :=
    List.length_pos.mp (by omega)
  rw [dropLast_magic _ hne]
  obtain ⟨r, h1, h2⟩ := decompress_total w cap
    (magic ++ (CM.new.stream w (frameArgs divbwt (blocksOf s bsize)) []).dropLast) k
  refine ⟨r, h1, ?_⟩
  rcases h2 with h | ⟨_, h⟩ | h | ⟨_, rest, hm, hc⟩
  · exact Or.inl h
  · rw [checkMagic_magic] at h
    exact absurd h (by simp)
  · exact Or.inr h
  · exfalso
    rw [checkMagic_magic] at hm
    have hrest := (Option.some.inj hm).symm
    subst hrest
    have hinit : CM.new.enc.Init
        (CM.new.stream w (frameArgs divbwt (blocksOf s bsize)) []).dropLast =
        ({ code := twindow (CM.new.stream w (frameArgs divbwt (blocksOf s bsize)) []),
           low := 0, high := 4294967295 },
          tinput (CM.new.stream w (frameArgs divbwt (blocksOf s bsize)) [])) :=
      init_trunc _ hS
    rw [hinit] at hc
    obtain ⟨n, cs, hn, hargs⟩ := frameArgs_head divbwt s bsize hb
    have ht : TSync w
        { CM.new with enc := { code := twindow (CM.new.stream w (frameArgs divbwt
          (blocksOf s bsize)) []), low := 0, high := 4294967295 } }
        (tinput (CM.new.stream w (frameArgs divbwt (blocksOf s bsize)) [])) CM.new
        (n >>> 24 :: n >>> 16 :: n >>> 8 :: n :: cs) := by
      rw [← hargs]
      exact ⟨inv_new, encInv_new, rfl, rfl⟩
    obtain ⟨t0, t1⟩ := trunc_header w _ _ CM.new n (by omega) cs ht
    have hmono := callocOk_mono cap (min bsize s.length) _ (by omega) hcap t0
      (le_trans t1 (by exact_mod_cast hn))
    rw [hmono] at hc
    exact absurd hc (by simp)

/-- C8 as amended, for the input `00 C3` coded as one block. -/
theorem truncation_outcome_witness :
    (1 : Nat) ≤ 2 ∧ ([0, 195] : List Byte).length < 2147483648 ∧
    callocOk 100 ((min 2 ([0, 195] : List Byte).length : Nat) : Int) = true ∧
    (∀ blk ∈ blocksOf [0, 195] 2, 1 ≤ (bwtSpec blk).2) ∧
    ∃ file, compress false 100 bwtSpec [0, 195] 2 = some (CompressResult.ok file) ∧
      ∃ r, decompress false 100 (fuelFor file.dropLast + 0) file.dropLast = some r ∧
        (r.1 = Outcome.success ∨ r.1 = Outcome.corrupt) :=
  ⟨by decide, by decide, by decide, by decide,
    truncation_outcome false 100 bwtSpec [0, 195] 2 0 (by decide) (by decide) (by decide)
      (by decide)⟩

/-! ## The counters -/

theorem updates_nil (r : Nat) (p : Int) : updates r [] p = p := rfl

theorem updates_cons (r b : Nat) (bits : List Nat) (p : Int) :
    updates r (b :: bits) p = updates r bits (updateBit r b p) := rfl

theorem updates_range (r : Nat) (bits : List Nat) : ∀ p : Int, 0 ≤ p → p ≤ 65535 →
    0 ≤ updates r bits p ∧ updates r bits p ≤ 65535 := by
  induction bits with
  | nil => intro p h0 h1; exact ⟨h0, h1⟩
  | cons b bits ih =>
    intro p h0 h1
    have h := updateBit_range r b p h0 h1
    rw [updates_cons]
    exact ih _ h.1 h.2

/-- C11: for every rate (2, 4 and 6 among them) and every `p` in `[0, 65535]`,
`UpdateBit0` and `UpdateBit1` give a value in `[0, 65535]`; so does every
sequence of updates of one counter, and in every state of `CM` reached from the
constructor by `Encode` and `Decode` calls every counter of `counter0`,
`counter1` and `counter2` holds a value in `[0, 65535]`. -/
theorem counter_range (r : Nat) (p : Int) (h0 : 0 ≤ p) (h1 : p ≤ 65535) :
    (0 ≤ UpdateBit0 r p ∧ UpdateBit0 r p ≤ 65535) ∧
    (0 ≤ UpdateBit1 r p ∧ UpdateBit1 r p ≤ 65535) ∧
    (∀ bits, 0 ≤ updates r bits p ∧ updates r bits p ≤ 65535) ∧
    CM.new.Inv ∧
    (∀ w m, CM.Reachable w m →
      (∀ i, 0 ≤ m.counter0 i ∧ m.counter0 i ≤ 65535) ∧
      (∀ a i, 0 ≤ m.counter1 a i ∧ m.counter1 a i ≤ 65535) ∧
      (∀ f i k, k ≤ 16 → 0 ≤ m.counter2 f i k ∧ m.counter2 f i k ≤ 65535)) :=
  ⟨updateBit0_range r p h0 h1, updateBit1_range r p h0 h1,
    fun bits => updates_range r bits p h0 h1, inv_new, fun w m h => reachable_inv w m h⟩

/-- C11 for a counter of rate 2 at its initial value 32768. -/
theorem counter_range_witness :
    (0 : Int) ≤ 32768 ∧ (32768 : Int) ≤ 65535 ∧
    (0 ≤ UpdateBit0 2 32768 ∧ UpdateBit0 2 32768 ≤ 65535) :=
  ⟨by decide, by decide, (counter_range 2 32768 (by decide) (by decide)).1⟩

theorem updateBit_strict (r b : Nat) (hr : 1 ≤ r) (p : Int) (h0 : 1 ≤ p) (h1 : p ≤ 65534) :
    1 ≤ updateBit r b p ∧ updateBit r b p ≤ 65534 := by
  have hpos : (0 : Int) < ((2 ^ r : Nat) : Int) := by positivity
  have h2 : (2 : Int) ≤ ((2 ^ r : Nat) : Int) := by
    have : 2 ^ 1 ≤ 2 ^ r := Nat.pow_le_pow_right (by norm_num) hr
    exact_mod_cast this
  unfold updateBit
  split
  · unfold UpdateBit1
    rw [int_xor_65535 p (by omega) (by omega), shr_eq_div]
    have ha : 0 ≤ (65535 - p) / ((2 ^ r : Nat) : Int) := Int.ediv_nonneg (by omega) (le_of_lt hpos)
    have hb : (65535 - p) / ((2 ^ r : Nat) : Int) < 65535 - p :=
      Int.ediv_lt_of_lt_mul hpos (by nlinarith)
    omega
  · unfold UpdateBit0
    rw [shr_eq_div]
    have ha : 0 ≤ p / ((2 ^ r : Nat) : Int) := Int.ediv_nonneg (by omega) (le_of_lt hpos)
    have hb : p / ((2 ^ r : Nat) : Int) < p := Int.ediv_lt_of_lt_mul hpos (by nlinarith)
    omega

theorem updates_strict (r : Nat) (hr : 1 ≤ r) (bits : List Nat) : ∀ p : Int, 1 ≤ p →
    p ≤ 65534 → 1 ≤ updates r bits p ∧ updates r bits p ≤ 65534 := by
  induction bits with
  | nil => intro p h0 h1; exact ⟨h0, h1⟩
  | cons b bits ih =>
    intro p h0 h1
    have h := updateBit_strict r b hr p h0 h1
    rw [updates_cons]
    exact ih _ h.1 h.2

theorem updateBit_zero (b : Nat) :
    (b = 0 → updateBit 6 b 0 = 0) ∧ (b ≠ 0 → updateBit 6 b 0 = 1023) := by
  constructor
  · intro hb
    unfold updateBit
    rw [if_neg (by simpa using hb)]
    rfl
  · intro hb
    unfold updateBit
    rw [if_pos hb]
    rfl

/-- A counter of rate 6 that starts at 0 stays at 0 under `UpdateBit0` and is
in `[1, 65534]` from the first `UpdateBit1` on. -/
theorem updates_zero (bits : List Nat) :
    ((∀ b ∈ bits, b = 0) → updates 6 bits 0 = 0) ∧
      ((∃ b ∈ bits, b ≠ 0) → 1 ≤ updates 6 bits 0 ∧ updates 6 bits 0 ≤ 65534) := by
  induction bits with
  | nil =>
    refine ⟨fun _ => rfl, ?_⟩
    rintro ⟨b, hb, _⟩
    exact absurd hb (List.not_mem_nil _)
  | cons b bits ih =>
    rw [updates_cons]
    by_cases hb : b = 0
    · rw [(updateBit_zero b).1 hb]
      constructor
      · intro h
        exact ih.1 (fun x hx => h x (List.mem_cons_of_mem _ hx))
      · rintro ⟨x, hx, hx0⟩
        rcases List.mem_cons.mp hx with rfl | hx
        · exact absurd hb hx0
        · exact ih.2 ⟨x, hx, hx0⟩
    · rw [(updateBit_zero b).2 hb]
      constructor
      · intro h
        exact absurd (h b (List.mem_cons_self _ _)) hb
      · intro _
        exact updates_strict 6 (by norm_num) bits 1023 (by norm_num) (by norm_num)

/-- C12 fails for bin 0 of `counter2`: its initial value is 0, and after one
`UpdateBit0` call it is still 0, outside `[1, 65534]`. -/
theorem strict_range_counterexample :
    CM.new.counter2 0 0 0 = 0 ∧ updates 6 [0] (CM.new.counter2 0 0 0) = 0 ∧
    ¬ (1 ≤ updates 6 [0] (CM.new.counter2 0 0 0) ∧
      updates 6 [0] (CM.new.counter2 0 0 0) ≤ 65534) := by
  refine ⟨by decide, by decide, by decide⟩

/-- C12 as amended: every counter of `counter0` (rate 2), of `counter1`
(rate 4) and of the bins 1 to 16 of `counter2` (rate 6) lies in `[1, 65534]`
after any sequence of updates from its initial value; bin 0 of `counter2`,
which starts at 0, stays in `[0, 65534]`, is still 0 after `UpdateBit0` calls
only, and lies in `[1, 65534]` once the sequence holds an `UpdateBit1`. -/
theorem strict_range (bits : List Nat) :
    (∀ i, 1 ≤ updates 2 bits (CM.new.counter0 i) ∧ updates 2 bits (CM.new.counter0 i) ≤ 65534) ∧
    (∀ a i, 1 ≤ updates 4 bits (CM.new.counter1 a i) ∧
      updates 4 bits (CM.new.counter1 a i) ≤ 65534) ∧
    (∀ f i k, 1 ≤ k → k ≤ 16 → 1 ≤ updates 6 bits (CM.new.counter2 f i k) ∧
      updates 6 bits (CM.new.counter2 f i k) ≤ 65534) ∧
    (∀ f i, (0 ≤ updates 6 bits (CM.new.counter2 f i 0) ∧
        updates 6 bits (CM.new.counter2 f i 0) ≤ 65534) ∧
      ((∀ b ∈ bits, b = 0) → updates 6 bits (CM.new.counter2 f i 0) = 0) ∧
      ((∃ b ∈ bits, b ≠ 0) → 1 ≤ updates 6 bits (CM.new.counter2 f i 0))) := by
  have h0 : ∀ f i, CM.new.counter2 f i 0 = 0 := fun _ _ => by simp [CM.new]
  refine ⟨fun i => updates_strict 2 (by norm_num) bits _ (by simp [CM.new]) (by simp [CM.new]),
    fun a i => updates_strict 4 (by norm_num) bits _ (by simp [CM.new]) (by simp [CM.new]),
    fun f i k hk1 hk2 => updates_strict 6 (by norm_num) bits _ ?_ ?_, fun f i => ?_⟩
  · simp only [CM.new]
    split <;> omega
  · simp only [CM.new]
    split <;> omega
  · rw [h0]
    have hz := updates_zero bits
    refine ⟨?_, hz.1, fun h => (hz.2 h).1⟩
    by_cases hall : ∀ b ∈ bits, b = 0
    · rw [hz.1 hall]
      norm_num
    · have hex : ∃ b ∈ bits, b ≠ 0 := by
        by_contra hne
        exact hall (fun b hb => by
          by_contra hb0
          exact hne ⟨b, hb, hb0⟩)
      have := hz.2 hex
      omega

/-! ## The interval of the coder and its renormalisation -/

theorem encRenorm_stable (k low high : Nat) (h : low / 16777216 ≠ high / 16777216) :
    encRenorm k low high = (low, high, []) := by
  cases k with
  | zero => rfl
  | succ k => rw [encRenorm_succ, if_neg h]

theorem decRenorm_stable (k code low high : Nat) (inp : List Byte)
    (h : low / 16777216 ≠ high / 16777216) :
    decRenorm k code low high inp = (code, low, high, inp) := by
  cases k with
  | zero => rfl
  | succ k => rw [decRenorm_succ, if_neg h]

/-- The loop of `DecodeBit` changes `low` and `high` as the loop of
`EncodeBit0` and `EncodeBit1` does, and reads at most one byte per byte
written there. -/
theorem decRenorm_low_high (k : Nat) : ∀ (code low high : Nat) (inp : List Byte),
    (decRenorm k code low high inp).2.1 = (encRenorm k low high).1 ∧
    (decRenorm k code low high inp).2.2.1 = (encRenorm k low high).2.1 ∧
    inp.length ≤ (decRenorm k code low high inp).2.2.2.length +
      (encRenorm k low high).2.2.length := by
  induction k with
  | zero => intro code low high inp; exact ⟨rfl, rfl, by simp [encRenorm_zero, decRenorm_zero]⟩
  | succ k ih =>
    intro code low high inp
    rw [encRenorm_succ, decRenorm_succ]
    by_cases hc : low / 16777216 = high / 16777216
    · rw [if_pos hc, if_pos hc]
      obtain ⟨h1, h2, h3⟩ := ih (shiftIn code inp).1 (low * 256 % 4294967296)
        (high * 256 % 4294967296 + 255) (shiftIn code inp).2
      refine ⟨h1, h2, ?_⟩
      have hs : inp.length ≤ (shiftIn code inp).2.length + 1 := by
        cases inp with
        | nil => rw [shiftIn_nil]; simp
        | cons b rest => rw [shiftIn_cons]; simp
      simp only [List.length_cons]
      omega
    · rw [if_neg hc, if_neg hc]
      exact ⟨rfl, rfl, by simp⟩

theorem encRenorm_length (k : Nat) : ∀ (low high : Nat),
    (encRenorm k low high).2.2.length ≤ k := by
  induction k with
  | zero => intro low high; simp [encRenorm_zero]
  | succ k ih =>
    intro low high
    rw [encRenorm_succ]
    split
    · have := ih (low * 256 % 4294967296) (high * 256 % 4294967296 + 255)
      simp only [List.length_cons]
      omega
    · simp

/-- After `j` rounds of the loop the low `j` bytes of `low` are zero and those
of `high` are all ones; so the loop condition fails after the fourth round at
the latest. -/
theorem encRenorm_exit (k : Nat) : ∀ (j low high : Nat), j + k = 4 →
    (1 ≤ j → low < 4294967296 ∧ high < 4294967296) →
    low % 256 ^ j = 0 → high % 256 ^ j = 256 ^ j - 1 →
    (encRenorm k low high).1 / 16777216 ≠ (encRenorm k low high).2.1 / 16777216 := by
  induction k with
  | zero =>
    intro j low high hj hb hl hh
    have : j = 4 := by omega
    subst this
    have := hb (by norm_num)
    norm_num at hl hh
    rw [encRenorm_zero]
    simp only
    omega
  | succ k ih =>
    intro j low high hj hb hl hh
    rw [encRenorm_succ]
    by_cases hc : low / 16777216 = high / 16777216
    · rw [if_pos hc]
      simp only
      apply ih (j + 1) _ _ (by omega)
      · intro _
        omega
      · have hj3 : j ≤ 3 := by omega
        interval_cases j <;> norm_num at hl hh ⊢ <;> omega
      · have hj3 : j ≤ 3 := by omega
        interval_cases j <;> norm_num at hl hh ⊢ <;> omega
    · rw [if_neg hc]
      exact hc

theorem encRenorm_more (k : Nat) : ∀ (j low high : Nat),
    (encRenorm k low high).1 / 16777216 ≠ (encRenorm k low high).2.1 / 16777216 →
    encRenorm (k + j) low high = encRenorm k low high := by
  induction k with
  | zero =>
    intro j low high h
    rw [encRenorm_zero] at h
    rw [Nat.zero_add, encRenorm_zero]
    exact encRenorm_stable j low high h
  | succ k ih =>
    intro j low high h
    have e : k + 1 + j = (k + j) + 1 := by omega
    rw [e, encRenorm_succ, encRenorm_succ]
    rw [encRenorm_succ] at h
    by_cases hc : low / 16777216 = high / 16777216
    · rw [if_pos hc] at h ⊢
      rw [if_pos hc, ih j _ _ h]
    · rw [if_neg hc, if_neg hc]

theorem decRenorm_more (k : Nat) : ∀ (j code low high : Nat) (inp : List Byte),
    (encRenorm k low high).1 / 16777216 ≠ (encRenorm k low high).2.1 / 16777216 →
    decRenorm (k + j) code low high inp = decRenorm k code low high inp := by
  induction k with
  | zero =>
    intro j code low high inp h
    rw [encRenorm_zero] at h
    rw [Nat.zero_add, decRenorm_zero]
    exact decRenorm_stable j code low high inp h
  | succ k ih =>
    intro j code low high inp h
    have e : k + 1 + j = (k + j) + 1 := by omega
    rw [e, decRenorm_succ, decRenorm_succ]
    rw [encRenorm_succ] at h
    by_cases hc : low / 16777216 = high / 16777216
    · rw [if_pos hc] at h ⊢
      rw [if_pos hc, ih j _ _ _ _ h]
    · rw [if_neg hc, if_neg hc]

/-- C14: for all values of `low` and `high`, the renormalisation loop of
`EncodeBit0`, `EncodeBit1` and `DecodeBit` has left its loop condition
`(low^high) < 2^24` false after at most 4 rounds: with room for 4 rounds or
for any larger number the loop gives the same result, at which the condition
is false; it writes at most 4 bytes, and in `DecodeBit` reads at most 4. -/
theorem renorm_terminates (low high fuel code : Nat) (inp : List Byte) :
    encRenorm (4 + fuel) low high = encRenorm 4 low high ∧
    ¬ ((encRenorm 4 low high).1 ^^^ (encRenorm 4 low high).2.1 < 16777216) ∧
    (encRenorm 4 low high).2.2.length ≤ 4 ∧
    decRenorm (4 + fuel) code low high inp = decRenorm 4 code low high inp ∧
    ¬ ((decRenorm 4 code low high inp).2.1 ^^^ (decRenorm 4 code low high inp).2.2.1
      < 16777216) ∧
    inp.length ≤ (decRenorm 4 code low high inp).2.2.2.length + 4 := by
  have hx := encRenorm_exit 4 0 low high (by norm_num) (by intro h; omega)
    (by rw [pow_zero]; exact Nat.mod_one _) (by rw [pow_zero]; exact Nat.mod_one _)
  obtain ⟨d1, d2, d3⟩ := decRenorm_low_high 4 code low high inp
  have hl := encRenorm_length 4 low high
  refine ⟨encRenorm_more 4 fuel low high hx, ?_, hl, decRenorm_more 4 fuel code low high inp hx,
    ?_, by omega⟩
  · rw [renorm_cond]
    exact hx
  · rw [renorm_cond, d1, d2]
    exact hx

theorem encRenorm_le (k : Nat) : ∀ (low high : Nat), low ≤ high → high < 4294967296 →
    (encRenorm k low high).1 ≤ (encRenorm k low high).2.1 ∧
      (encRenorm k low high).2.1 < 4294967296 := by
  induction k with
  | zero => intro low high h1 h2; exact ⟨h1, h2⟩
  | succ k ih =>
    intro low high h1 h2
    rw [encRenorm_succ]
    by_cases hc : low / 16777216 = high / 16777216
    · rw [if_pos hc]
      exact ih _ _ (by omega) (by omega)
    · rw [if_neg hc]
      exact ⟨h1, h2⟩

theorem reachable_encInv (w : Bool) (e : Encoder) (h : Encoder.Reachable w e) :
    EncInv e.low e.high := by
  induction h with
  | new => exact encInv_new
  | init e inp _ ih => exact ih
  | bit0 e p hp _ ih =>
    have := encodeBit_inv w e p 0 ih hp
    rw [encodeBit_neg w e p 0 (by simp)] at this
    exact this
  | bit1 e p hp _ ih =>
    have := encodeBit_inv w e p 1 ih hp
    rw [encodeBit_pos w e p 1 (by simp)] at this
    exact this
  | decode e p inp hp _ ih => exact decodeBit_inv w e p inp ih hp

/-- C13: in every state of the coder reached from `low = 0`, `high = 2^32-1`
by `EncodeBit0`, `EncodeBit1` and `DecodeBit` calls with probabilities below
`2^18` (and `Init`, any input bytes): `low <= high < 2^32` and the top bytes of
`low` and `high` differ; in the next call, `mid = low + split` and `mid + 1` do
not wrap around and `low <= mid < mid + 1 <= high`; and `low <= high` holds
after every number `k` of rounds of the renormalisation loop, for the interval
of a 0 bit and for that of a 1 bit, in the encoder and in the decoder. -/
theorem interval_invariant (w : Bool) (e : Encoder) (h : Encoder.Reachable w e) (p : Nat)
    (hp : p < 262144) (k : Nat) (inp : List Byte) :
    (e.low ≤ e.high ∧ e.high < 4294967296 ∧ e.low / 16777216 ≠ e.high / 16777216) ∧
    ((e.low + split w e.low e.high p) % W32 = e.low + split w e.low e.high p ∧
      (e.low + (split w e.low e.high p + 1)) % W32 = e.low + split w e.low e.high p + 1 ∧
      e.low + split w e.low e.high p + 1 ≤ e.high) ∧
    ((encRenorm k ((e.low + (split w e.low e.high p + 1)) % W32) e.high).1 ≤
        (encRenorm k ((e.low + (split w e.low e.high p + 1)) % W32) e.high).2.1 ∧
      (encRenorm k e.low ((e.low + split w e.low e.high p) % W32)).1 ≤
        (encRenorm k e.low ((e.low + split w e.low e.high p) % W32)).2.1) ∧
    ((decRenorm k e.code ((e.low + split w e.low e.high p + 1) % W32) e.high inp).2.1 ≤
        (decRenorm k e.code ((e.low + split w e.low e.high p + 1) % W32) e.high inp).2.2.1 ∧
      (decRenorm k e.code e.low ((e.low + split w e.low e.high p) % W32) inp).2.1 ≤
        (decRenorm k e.code e.low ((e.low + split w e.low e.high p) % W32) inp).2.2.1) := by
  have hinv := reachable_encInv w e h
  have hlt := encInv_lt hinv
  obtain ⟨h1, h2, h3⟩ := hinv
  have hd := split_lt w e.low e.high p hlt h2 hp
  have m1 : (e.low + split w e.low e.high p) % W32 = e.low + split w e.low e.high p := by
    unfold W32; omega
  have m2 : (e.low + (split w e.low e.high p + 1)) % W32 = e.low + split w e.low e.high p + 1 := by
    unfold W32; omega
  have m3 : (e.low + split w e.low e.high p + 1) % W32 = e.low + split w e.low e.high p + 1 := by
    unfold W32; omega
  refine ⟨⟨h1, h2, h3⟩, ⟨m1, m2, by omega⟩, ⟨?_, ?_⟩, ⟨?_, ?_⟩⟩
  · rw [m2]
    exact (encRenorm_le k _ _ (by omega) h2).1
  · rw [m1]
    exact (encRenorm_le k _ _ (by omega) (by omega)).1
  · obtain ⟨d1, d2, _⟩ := decRenorm_low_high k e.code (e.low + split w e.low e.high p + 1)
      e.high inp
    rw [m3, d1, d2]
    exact (encRenorm_le k _ _ (by omega) h2).1
  · obtain ⟨d1, d2, _⟩ := decRenorm_low_high k e.code e.low (e.low + split w e.low e.high p) inp
    rw [m1, d1, d2]
    exact (encRenorm_le k _ _ (by omega) (by omega)).1

/-- C13 at the fresh coder with `p = 1000`. -/
theorem interval_invariant_witness :
    Encoder.Reachable false Encoder.new ∧ (1000 : Nat) < 262144 ∧
    (Encoder.new.low ≤ Encoder.new.high ∧ Encoder.new.high < 4294967296 ∧
      Encoder.new.low / 16777216 ≠ Encoder.new.high / 16777216) :=
  ⟨Encoder.Reachable.new, by decide,
    (interval_invariant false Encoder.new Encoder.Reachable.new 1000 (by decide) 0 []).1⟩

/-! ## The bit loops of `Encode` and `Decode`, round by round -/

theorem decodedBit_le (w : Bool) (d : CM) (f ctx : Nat) (inp : List Byte) :
    d.decodedBit w f ctx inp ≤ 1 := by
  unfold CM.decodedBit Encoder.DecodeBit
  dsimp only
  split <;> omega

/-- The loop body of `Decode` in terms of the decoded bit. -/
theorem decodeStep_eq (w : Bool) (d : CM) (f ctx : Nat) (inp : List Byte) :
    d.decodeStep w f ctx inp =
      (({ d with enc := (d.enc.DecodeBit w (toU32 (d.mix f ctx).prob) inp).2.1 }).update
          f ctx (d.mix f ctx).j (d.decodedBit w f ctx inp),
        ctx + (ctx + d.decodedBit w f ctx inp),
        (d.enc.DecodeBit w (toU32 (d.mix f ctx).prob) inp).2.2) := by
  have hle := decodedBit_le w d f ctx inp
  unfold CM.decodeStep
  dsimp only
  unfold CM.decodedBit at hle ⊢
  by_cases hb : (d.enc.DecodeBit w (toU32 (d.mix f ctx).prob) inp).1 ≠ 0
  · have h1 : (d.enc.DecodeBit w (toU32 (d.mix f ctx).prob) inp).1 = 1 := by omega
    rw [if_pos hb, h1]
  · have h0 : (d.enc.DecodeBit w (toU32 (d.mix f ctx).prob) inp).1 = 0 := by omega
    rw [if_neg hb, h0]
    rfl

theorem encodeLoop_done (w : Bool) (k : Nat) (m : CM) (f ctx c : Nat) (h : ¬ ctx < 256) :
    CM.encodeLoop w k m f ctx c = (m, ctx, []) := by
  cases k with
  | zero => rfl
  | succ k => rw [CM.encodeLoop, if_neg h]

theorem decodeLoop_done (w : Bool) (k : Nat) (d : CM) (f ctx : Nat) (inp : List Byte)
    (h : ¬ ctx < 256) : CM.decodeLoop w k d f ctx inp = (d, ctx, inp) := by
  cases k with
  | zero => rfl
  | succ k => rw [CM.decodeLoop, if_neg h]

/-- The bit loop of `Encode` for `a + b` rounds is the loop for `a` rounds
followed by the loop for `b` rounds, which sees the argument shifted left by
`a` bits. -/
theorem encodeLoop_add (w : Bool) (a b : Nat) : ∀ (m : CM) (f ctx c : Nat),
    CM.encodeLoop w (a + b) m f ctx c =
      ((CM.encodeLoop w b (CM.encodeLoop w a m f ctx c).1 f (CM.encodeLoop w a m f ctx c).2.1
          (c * 2 ^ a)).1,
        (CM.encodeLoop w b (CM.encodeLoop w a m f ctx c).1 f (CM.encodeLoop w a m f ctx c).2.1
          (c * 2 ^ a)).2.1,
        (CM.encodeLoop w a m f ctx c).2.2 ++
          (CM.encodeLoop w b (CM.encodeLoop w a m f ctx c).1 f (CM.encodeLoop w a m f ctx c).2.1
            (c * 2 ^ a)).2.2) := by
  induction a with
  | zero =>
    intro m f ctx c
    simp [CM.encodeLoop]
  | succ a ih =>
    intro m f ctx c
    have e : a + 1 + b = (a + b) + 1 := by omega
    rw [e]
    by_cases hc : ctx < 256
    · rw [CM.encodeLoop, if_pos hc]
      dsimp only
      rw [ih]
      have e2 : CM.encodeLoop w (a + 1) m f ctx c =
          ((CM.encodeLoop w a (m.encodeStep w f ctx c).1 f (m.encodeStep w f ctx c).2.1
              (m.encodeStep w f ctx c).2.2.1).1,
            (CM.encodeLoop w a (m.encodeStep w f ctx c).1 f (m.encodeStep w f ctx c).2.1
              (m.encodeStep w f ctx c).2.2.1).2.1,
            (m.encodeStep w f ctx c).2.2.2 ++
              (CM.encodeLoop w a (m.encodeStep w f ctx c).1 f (m.encodeStep w f ctx c).2.1
                (m.encodeStep w f ctx c).2.2.1).2.2) := by
        rw [CM.encodeLoop, if_pos hc]
      rw [e2]
      dsimp only
      have e3 : (m.encodeStep w f ctx c).2.2.1 * 2 ^ a = c * 2 ^ (a + 1) := by
        rw [encodeStep_c, pow_succ]; ring
      rw [e3, List.append_assoc]
    · rw [encodeLoop_done w _ m f ctx c hc, encodeLoop_done w _ m f ctx c hc]
      dsimp only
      rw [encodeLoop_done w _ m f ctx _ hc]
      rfl

/-- The bit loop of `Decode` for `a + b` rounds is the loop for `a` rounds
followed by the loop for `b` rounds. -/
theorem decodeLoop_add (w : Bool) (a b : Nat) : ∀ (d : CM) (f ctx : Nat) (inp : List Byte),
    CM.decodeLoop w (a + b) d f ctx inp =
      CM.decodeLoop w b (CM.decodeLoop w a d f ctx inp).1 f (CM.decodeLoop w a d f ctx inp).2.1
        (CM.decodeLoop w a d f ctx inp).2.2 := by
  induction a with
  | zero =>
    intro d f ctx inp
    simp [CM.decodeLoop]
  | succ a ih =>
    intro d f ctx inp
    have e : a + 1 + b = (a + b) + 1 := by omega
    rw [e]
    by_cases hc : ctx < 256
    · rw [CM.decodeLoop, if_pos hc]
      dsimp only
      rw [ih]
      have e2 : CM.decodeLoop w (a + 1) d f ctx inp =
          CM.decodeLoop w a (d.decodeStep w f ctx inp).1 f (d.decodeStep w f ctx inp).2.1
            (d.decodeStep w f ctx inp).2.2 := by
        rw [CM.decodeLoop, if_pos hc]
      rw [e2]
    · rw [decodeLoop_done w _ d f ctx inp hc, decodeLoop_done w _ d f ctx inp hc]
      dsimp only
      rw [decodeLoop_done w _ d f ctx inp hc]

theorem topBit_shift (c k : Nat) (hk : k < 8) : topBit (c * 2 ^ k) = c / 2 ^ (7 - k) % 2 := by
  rw [topBit_eq]
  have e : (128 : Nat) = 2 ^ k * 2 ^ (7 - k) := by
    rw [← pow_add]
    have : k + (7 - k) = 7 := by omega
    rw [this]
    norm_num
  rw [e, Nat.mul_comm c, ← Nat.div_div_eq_div_mul,
    Nat.mul_div_cancel_left _ (by positivity : 0 < 2 ^ k)]

/-- The value of `ctx` after `k` rounds of the bit loop of `Decode`. -/
theorem decodeLoop_ctx_range (w : Bool) (k : Nat) : ∀ (d : CM) (f ctx : Nat) (inp : List Byte),
    k ≤ 8 → ctx < 2 ^ (9 - k) →
    ctx * 2 ^ k ≤ (CM.decodeLoop w k d f ctx inp).2.1 ∧
      (CM.decodeLoop w k d f ctx inp).2.1 < (ctx + 1) * 2 ^ k := by
  induction k with
  | zero =>
    intro d f ctx inp _ _
    simp [CM.decodeLoop]
  | succ k ih =>
    intro d f ctx inp hk hhi
    have hc : ctx < 256 := by
      have : 2 ^ (9 - (k + 1)) ≤ 2 ^ 8 := Nat.pow_le_pow_right (by norm_num) (by omega)
      omega
    have e2 : 9 - k = (9 - (k + 1)) + 1 := by omega
    rw [CM.decodeLoop, if_pos hc]
    dsimp only
    have hb := decodedBit_le w d f ctx inp
    have hx : (d.decodeStep w f ctx inp).2.1 = ctx + (ctx + d.decodedBit w f ctx inp) := by
      rw [decodeStep_eq]
    obtain ⟨i1, i2⟩ := ih (d.decodeStep w f ctx inp).1 f (d.decodeStep w f ctx inp).2.1
      (d.decodeStep w f ctx inp).2.2 (by omega) (by rw [hx, e2, pow_succ]; omega)
    rw [hx] at i1 i2 ⊢
    have p1 : ctx * 2 ^ (k + 1) = (ctx + ctx) * 2 ^ k := by rw [pow_succ]; ring
    have p2 : (ctx + 1) * 2 ^ (k + 1) = (ctx + (ctx + 1) + 1) * 2 ^ k := by rw [pow_succ]; ring
    have m1 : (ctx + ctx) * 2 ^ k ≤ (ctx + (ctx + d.decodedBit w f ctx inp)) * 2 ^ k :=
      Nat.mul_le_mul_right _ (by omega)
    have m2 : (ctx + (ctx + d.decodedBit w f ctx inp) + 1) * 2 ^ k ≤
        (ctx + (ctx + 1) + 1) * 2 ^ k := Nat.mul_le_mul_right _ (by omega)
    omega

theorem update_c1 (m : CM) (f ctx : Nat) (j : Int) (b : Nat) : (m.update f ctx j b).c1 = m.c1 :=
  rfl

theorem update_c2 (m : CM) (f ctx : Nat) (j : Int) (b : Nat) : (m.update f ctx j b).c2 = m.c2 :=
  rfl

theorem update_run (m : CM) (f ctx : Nat) (j : Int) (b : Nat) :
    (m.update f ctx j b).run = m.run := rfl

theorem encodeLoop_fields (w : Bool) (k : Nat) : ∀ (m : CM) (f ctx c : Nat),
    (CM.encodeLoop w k m f ctx c).1.c1 = m.c1 ∧ (CM.encodeLoop w k m f ctx c).1.c2 = m.c2 ∧
      (CM.encodeLoop w k m f ctx c).1.run = m.run := by
  induction k with
  | zero => intro m f ctx c; exact ⟨rfl, rfl, rfl⟩
  | succ k ih =>
    intro m f ctx c
    rw [CM.encodeLoop]
    split
    · dsimp only
      obtain ⟨h1, h2, h3⟩ := ih (m.encodeStep w f ctx c).1 f (m.encodeStep w f ctx c).2.1
        (m.encodeStep w f ctx c).2.2.1
      rw [h1, h2, h3, encodeStep_eq]
      exact ⟨rfl, rfl, rfl⟩
    · exact ⟨rfl, rfl, rfl⟩

theorem decodeLoop_fields (w : Bool) (k : Nat) : ∀ (d : CM) (f ctx : Nat) (inp : List Byte),
    (CM.decodeLoop w k d f ctx inp).1.c1 = d.c1 ∧ (CM.decodeLoop w k d f ctx inp).1.c2 = d.c2 ∧
      (CM.decodeLoop w k d f ctx inp).1.run = d.run := by
  induction k with
  | zero => intro d f ctx inp; exact ⟨rfl, rfl, rfl⟩
  | succ k ih =>
    intro d f ctx inp
    rw [CM.decodeLoop]
    split
    · dsimp only
      obtain ⟨h1, h2, h3⟩ := ih (d.decodeStep w f ctx inp).1 f (d.decodeStep w f ctx inp).2.1
        (d.decodeStep w f ctx inp).2.2
      rw [h1, h2, h3, decodeStep_eq]
      exact ⟨rfl, rfl, rfl⟩
    · exact ⟨rfl, rfl, rfl⟩

/-- The fields `c1`, `c2` and `run` after `Encode(c)`. -/
theorem encode_fields (w : Bool) (m : CM) (c : Nat) :
    (m.Encode w c).1.c1 = c % 256 ∧ (m.Encode w c).1.c2 = m.c1 ∧
      (m.Encode w c).1.run = m.nextRun := by
  obtain ⟨h1, _, h3⟩ := encodeLoop_fields w 8 { m with run := m.nextRun } m.flag 1 c
  have hx := encodeLoop_ctx8 w { m with run := m.nextRun } m.flag c
  unfold CM.Encode
  dsimp only
  refine ⟨?_, h1, h3⟩
  rw [hx, and_255]
  omega

/-- The fields `c1`, `c2` and `run` after `Decode()`. -/
theorem decode_fields (w : Bool) (d : CM) (inp : List Byte) :
    (d.Decode w inp).2.1.c1 = (d.Decode w inp).1 ∧ (d.Decode w inp).2.1.c2 = d.c1 ∧
      (d.Decode w inp).2.1.run = d.nextRun := by
  obtain ⟨h1, _, h3⟩ := decodeLoop_fields w 8 { d with run := d.nextRun } d.flag 1 inp
  unfold CM.Decode
  dsimp only
  exact ⟨rfl, h1, h3⟩

/-! ## The inverse BWT on arbitrary blocks -/

/-- C18: for every block `L` of `n` bytes and every `idx` in `[1, n]`, whether
or not it is the BWT of a string, the inverse-BWT code run on arrays of exactly
`n` entries stays inside them (it reads `next` and `buf` only at indices in
`[0, n-1]`); the first `n` entries of `next` then hold exactly the members of
`{0..n}` other than `idx`, each once; the last loop visits no `p` twice and
ends after writing at least 1 and at most `n` bytes. -/
theorem inverse_bwt_safe (L : List Byte) (idx : Int) (next : Nat → Int) (fuel : Nat)
    (h1 : 1 ≤ idx) (h2 : idx ≤ (L.length : Int)) (hf : L.length ≤ fuel) :
    ∃ next2 out,
      inverseBWT (L.length : Int) L.length idx (bufOf L) (histogram L) next fuel =
        some (some (next2, out)) ∧
      (∀ x, x < L.length → 0 ≤ next2 x ∧ next2 x ≤ (L.length : Int) ∧ next2 x ≠ idx) ∧
      (∀ x y, x < L.length → y < L.length → next2 x = next2 y → x = y) ∧
      (∀ v : Int, 0 ≤ v → v ≤ (L.length : Int) → v ≠ idx → ∃ x, x < L.length ∧ next2 x = v) ∧
      1 ≤ out.length ∧ out.length ≤ L.length ∧
      (∀ k, k < out.length → emitOrbit next2 idx k ≠ 0) ∧
      emitOrbit next2 idx out.length = 0 ∧
      (∀ a b, a < b → b ≤ out.length → emitOrbit next2 idx a ≠ emitOrbit next2 idx b) ∧
      out = (List.range' 0 out.length).map
        (fun k => putc (bufOf L (emitPos idx (emitOrbit next2 idx (k + 1))).toNat)) := by
  have hh := histogram_spec L
  obtain ⟨next2, out, e1, e2, e3, e4, e5, e6⟩ := inverseBWT_total (L.length : Int) idx (bufOf L)
    L.length (histogram L) next fuel (fun i _ => bufOf_lt L i) hh.1 hh.2 h1 h2 (le_refl _) hf
  have e0 : emitOrbit next2 idx 0 = idx := rfl
  rw [← e0] at e6
  obtain ⟨o1, o2, o3⟩ := emitLoop_out (L.length : Int) idx (bufOf L) next2 fuel 0 out e6
  simp only [Nat.zero_add] at o1 o2
  refine ⟨next2, out, e1, e4.1, e4.2, ?_, e2, e3, o1, o2, ?_, o3⟩
  · intro v v0 v1 v2
    by_cases hv : v < idx
    · refine ⟨sigma (bufOf L) L.length v.toNat, sigma_lt _ _ _ (by omega), ?_⟩
      rw [e5 v.toNat (by omega), if_neg (by omega)]
      omega
    · refine ⟨sigma (bufOf L) L.length (v - 1).toNat, sigma_lt _ _ _ (by omega), ?_⟩
      rw [e5 (v - 1).toNat (by omega), if_pos (by omega)]
      omega
  · intro a b hab hb
    by_cases hbl : b = out.length
    · subst hbl
      rw [o2]
      exact o1 a hab
    · exact emitOrbit_distinct next2 L.length idx e4 h1 h2 (out.length - 1)
        (fun k hk => o1 k (by omega)) a b hab (by omega)

/-- C18 for the block `01 02` with `idx = 1`. -/
theorem inverse_bwt_safe_witness :
    (1 : Int) ≤ 1 ∧ (1 : Int) ≤ (([1, 2] : List Byte).length : Int) ∧
    ([1, 2] : List Byte).length ≤ 2 ∧
    ∃ next2 out,
      inverseBWT (([1, 2] : List Byte).length : Int) ([1, 2] : List Byte).length 1
        (bufOf [1, 2]) (histogram [1, 2]) (fun _ => 0) 2 = some (some (next2, out)) ∧
      1 ≤ out.length ∧ out.length ≤ ([1, 2] : List Byte).length := by
  refine ⟨by decide, by decide, by decide, ?_⟩
  obtain ⟨next2, out, e1, _, _, _, e2, e3, _⟩ :=
    inverse_bwt_safe [1, 2] 1 (fun _ => 0) 2 (by decide) (by decide) (by decide)
  exact ⟨next2, out, e1, e2, e3⟩

/-! ## What the decoder reads -/

theorem stream_extra (w : Bool) (m : CM) (cs : List Nat) (extra : List Byte) :
    m.stream w cs extra = m.stream w cs [] ++ extra := by
  unfold CM.stream
  rw [List.append_nil]

/-- C19: when the pairs `l` are encoded by a fresh coder and flushed, `k + 4`
bytes are written, `k` of them before the flush. A fresh coder that runs `Init`
on these bytes followed by any bytes `extra` and decodes as many bits with the
same probabilities ends with exactly `extra` unread and in a state that does
not depend on `extra`: it has read the `k + 4` bytes, no fewer and no more. In
the same way `decompress` of a file written by `compress`, followed by any
bytes `extra`, leaves exactly `extra` unread. -/
theorem decoder_consumes_exactly (w : Bool) (l : List (Nat × Nat)) (extra : List Byte)
    (cap : Nat) (divbwt : List Byte → List Byte × Int) (s : List Byte) (bsize : Nat)
    (h : ∀ x ∈ l, x.1 < 262144 ∧ x.2 ≤ 1)
    (hb : 1 ≤ bsize) (hlen : s.length < 2147483648)
    (hcap : callocOk cap ((min bsize s.length : Nat) : Int) = true)
    (hd : ∀ blk, blk ≠ [] → divbwt blk = bwtSpec blk) :
    ((encodeBits w Encoder.new l).2 ++ ((encodeBits w Encoder.new l).1.Flush).2).length =
      (encodeBits w Encoder.new l).2.length + 4 ∧
    decodeBits w
        (Encoder.new.Init ((encodeBits w Encoder.new l).2 ++
          ((encodeBits w Encoder.new l).1.Flush).2 ++ extra)).1
        (l.map Prod.fst)
        (Encoder.new.Init ((encodeBits w Encoder.new l).2 ++
          ((encodeBits w Encoder.new l).1.Flush).2 ++ extra)).2 =
      (l.map Prod.snd,
        { code := (encodeBits w Encoder.new l).1.low, low := (encodeBits w Encoder.new l).1.low,
          high := (encodeBits w Encoder.new l).1.high }, extra) ∧
    ∃ file, compress w cap divbwt s bsize = some (CompressResult.ok file) ∧
      ∀ fuel, s.length + s.length + 1 ≤ fuel →
        decompress w cap fuel (file ++ extra) = some (Outcome.success, s, extra) := by
  refine ⟨?_, ?_, ?_⟩
  · rw [List.length_append, flush_length]
  · have hS : (encodeBits w Encoder.new l).2 ++ ((encodeBits w Encoder.new l).1.Flush).2 ++ extra =
        streamOf w Encoder.new l ++ extra := rfl
    have hl := (tail_window w l Encoder.new extra encInv_new (fun x hx => (h x hx).1)).2.2
    rw [hS, init_window _ hl]
    have hd := decodeBits_sync w l Encoder.new extra encInv_new h
    simp only [Encoder.new] at hd
    simp only [Encoder.new]
    rw [hd]
  · refine ⟨magic ++ CM.new.stream w (frameArgs divbwt (blocksOf s bsize)) [], ?_, ?_⟩
    · apply compress_eq w cap divbwt s bsize hb hcap
      intro blk hblk
      have hne : blk ≠ [] := List.length_pos.mp (blocksOf_bounds s bsize hb blk hblk).1
      rw [hd blk hne, bwtSpec_idx blk hne]
      exact_mod_cast (sufRow_zero_bounds blk hne).1
    · intro fuel hf
      rw [List.append_assoc, ← stream_extra]
      exact decompress_compress w cap divbwt s bsize extra hb hlen hcap hd fuel hf

/-- C19 for the bits 1, 0 with probabilities 1000, 200000 and the input
`01 02`, each followed by the byte `09`. -/
theorem decoder_consumes_exactly_witness :
    (∀ x ∈ [((1000 : Nat), (1 : Nat)), (200000, 0)], x.1 < 262144 ∧ x.2 ≤ 1) ∧
    (1 : Nat) ≤ 1 ∧ ([1, 2] : List Byte).length < 2147483648 ∧
    callocOk 100 ((min 1 ([1, 2] : List Byte).length : Nat) : Int) = true ∧
    (∀ blk : List Byte, blk ≠ [] → bwtSpec blk = bwtSpec blk) ∧
    ∃ file, compress false 100 bwtSpec [1, 2] 1 = some (CompressResult.ok file) ∧
      ∀ fuel, ([1, 2] : List Byte).length + ([1, 2] : List Byte).length + 1 ≤ fuel →
        decompress false 100 fuel (file ++ [9]) = some (Outcome.success, [1, 2], [9]) :=
  ⟨by decide, by decide, by decide, by decide, fun _ _ => rfl,
    (decoder_consumes_exactly false [(1000, 1), (200000, 0)] [9] 100 bwtSpec [1, 2] 1 (by decide)
      (by decide) (by decide) (by decide) (fun _ _ => rfl)).2.2⟩

/-! ## The run feature -/

theorem byteAt_neg (cs : List Nat) (i : Int) (h : i < 0) : byteAt cs i = 0 := by
  unfold byteAt
  rw [if_pos h]

theorem byteAt_nat (cs : List Nat) (k : Nat) : byteAt cs (k : Int) = cs.getD k 0 % 256 := by
  unfold byteAt
  rw [if_neg (by omega)]
  rfl

theorem runCount_zero (cs : List Nat) : runCount cs 0 = 1 := by
  unfold runCount
  have h : byteAt cs (-1) = byteAt cs (-2) := by
    rw [byteAt_neg _ _ (by norm_num), byteAt_neg _ _ (by norm_num)]
  simp [List.range_succ, List.takeWhile_cons, h]

theorem runCount_succ (cs : List Nat) (k : Nat) :
    runCount cs (k + 1) =
      if byteAt cs (k : Int) = byteAt cs ((k : Int) - 1) then runCount cs k + 1 else 0 := by
  unfold runCount
  rw [List.range_succ_eq_map, List.takeWhile_cons]
  have e1 : (((k + 1 : Nat) : Int) - ((0 : Nat) : Int) - 1) = (k : Int) := by push_cast; ring
  have e2 : (((k + 1 : Nat) : Int) - ((0 : Nat) : Int) - 2) = (k : Int) - 1 := by
    push_cast; ring
  rw [e1, e2]
  by_cases h : byteAt cs (k : Int) = byteAt cs ((k : Int) - 1)
  · rw [if_pos h]
    simp only [h, decide_True, if_true, List.length_cons, List.takeWhile_map, List.length_map]
    congr 3
    funext i
    simp only [Function.comp]
    have e3 : (((k + 1 : Nat) : Int) - ((i.succ : Nat) : Int) - 1) = (k : Int) - (i : Int) - 1 := by
      push_cast; ring
    have e4 : (((k + 1 : Nat) : Int) - ((i.succ : Nat) : Int) - 2) = (k : Int) - (i : Int) - 2 := by
      push_cast; ring
    rw [e3, e4]
  · rw [if_neg h]
    simp [h]

theorem runCount_pos (cs : List Nat) (k : Nat) :
    1 ≤ runCount cs k ↔ byteAt cs ((k : Int) - 1) = byteAt cs ((k : Int) - 2) := by
  cases k with
  | zero =>
    rw [runCount_zero, byteAt_neg _ _ (by norm_num), byteAt_neg _ _ (by norm_num)]
    simp
  | succ k =>
    rw [runCount_succ]
    have e1 : ((k + 1 : Nat) : Int) - 1 = (k : Int) := by push_cast; ring
    have e2 : ((k + 1 : Nat) : Int) - 2 = (k : Int) - 1 := by push_cast; ring
    rw [e1, e2]
    split
    · simpa
    · simpa

/-- The run is above 2 exactly when the last four byte values are equal and at
least two bytes have been coded. -/
theorem runCount_gt (cs : List Nat) (k : Nat) :
    2 < runCount cs k ↔ 2 ≤ k ∧ byteAt cs ((k : Int) - 1) = byteAt cs ((k : Int) - 2) ∧
      byteAt cs ((k : Int) - 2) = byteAt cs ((k : Int) - 3) ∧
      byteAt cs ((k : Int) - 3) = byteAt cs ((k : Int) - 4) := by
  match k with
  | 0 =>
    rw [runCount_zero]
    constructor
    · intro h; omega
    · intro h; omega
  | 1 =>
    rw [runCount_succ, runCount_zero]
    constructor
    · intro h
      split at h <;> omega
    · intro h; omega
  | k + 2 =>
    rw [runCount_succ, runCount_succ]
    have hp := runCount_pos cs k
    have e1 : ((k + 2 : Nat) : Int) - 1 = ((k + 1 : Nat) : Int) := by push_cast; ring
    have e2 : ((k + 2 : Nat) : Int) - 2 = ((k + 1 : Nat) : Int) - 1 := by push_cast; ring
    have e3 : ((k + 2 : Nat) : Int) - 3 = (k : Int) - 1 := by push_cast; ring
    have e4 : ((k + 2 : Nat) : Int) - 4 = (k : Int) - 2 := by push_cast; ring
    have e5 : ((k + 1 : Nat) : Int) - 1 = (k : Int) := by push_cast; ring
    rw [e1, e2, e3, e4, e5]
    constructor
    · intro h
      split at h
      · rename_i ha
        split at h
        · rename_i hb
          exact ⟨by omega, ha, hb, hp.mp (by omega)⟩
        · omega
      · omega
    · rintro ⟨_, ha, hb, hc⟩
      rw [if_pos ha, if_pos hb]
      have := hp.mpr hc
      omega

/-- What the model remembers of the bytes coded so far: `c1` and `c2` are the
last two byte values and the next run is the run count. -/
theorem history_new (cs : List Nat) (m : CM) (h1 : m.c1 = 0) (h2 : m.c2 = 0) (h3 : m.run = 0) :
    m.c1 = byteAt cs (((0 : Nat) : Int) - 1) ∧ m.c2 = byteAt cs (((0 : Nat) : Int) - 2) ∧
      m.nextRun = runCount cs 0 := by
  rw [byteAt_neg _ _ (by norm_num), byteAt_neg _ _ (by norm_num), runCount_zero]
  refine ⟨h1, h2, ?_⟩
  unfold CM.nextRun
  rw [h1, h2, h3]
  rfl

theorem history_step (cs : List Nat) (k : Nat) (m m2 : CM)
    (h : m.c1 = byteAt cs ((k : Int) - 1) ∧ m.c2 = byteAt cs ((k : Int) - 2) ∧
      m.nextRun = runCount cs k)
    (h1 : m2.c1 = byteAt cs (k : Int)) (h2 : m2.c2 = m.c1) (h3 : m2.run = m.nextRun) :
    m2.c1 = byteAt cs (((k + 1 : Nat) : Int) - 1) ∧
      m2.c2 = byteAt cs (((k + 1 : Nat) : Int) - 2) ∧ m2.nextRun = runCount cs (k + 1) := by
  have e1 : ((k + 1 : Nat) : Int) - 1 = (k : Int) := by push_cast; ring
  have e2 : ((k + 1 : Nat) : Int) - 2 = (k : Int) - 1 := by push_cast; ring
  rw [e1, e2, runCount_succ]
  refine ⟨h1, by rw [h2, h.1], ?_⟩
  unfold CM.nextRun
  rw [h1, h2, h3, h.1, h.2.2]

theorem flag_iff (cs : List Nat) (k : Nat) (m : CM) (h : m.nextRun = runCount cs k) :
    (m.flag = 1 ↔ 2 ≤ k ∧ byteAt cs ((k : Int) - 1) = byteAt cs ((k : Int) - 2) ∧
      byteAt cs ((k : Int) - 2) = byteAt cs ((k : Int) - 3) ∧
      byteAt cs ((k : Int) - 3) = byteAt cs ((k : Int) - 4)) ∧
    (m.flag = 0 ∨ m.flag = 1) := by
  rw [← runCount_gt, ← h]
  unfold CM.flag
  constructor
  · constructor
    · intro hf
      split at hf
      · assumption
      · omega
    · intro hf
      rw [if_pos hf]
  · split
    · exact Or.inr rfl
    · exact Or.inl rfl

theorem take_succ_getD (cs : List Nat) (k : Nat) (hk : k < cs.length) :
    cs.take (k + 1) = cs.take k ++ [cs.getD k 0] := by
  rw [List.take_succ, List.getD_eq_getElem?_getD, List.getElem?_eq_getElem hk]
  rfl

theorem encode_history (w : Bool) (cs : List Nat) (k : Nat) : k ≤ cs.length →
    (CM.new.encodeList w (cs.take k)).1.c1 = byteAt cs ((k : Int) - 1) ∧
    (CM.new.encodeList w (cs.take k)).1.c2 = byteAt cs ((k : Int) - 2) ∧
    (CM.new.encodeList w (cs.take k)).1.nextRun = runCount cs k := by
  induction k with
  | zero =>
    intro _
    exact history_new cs _ rfl rfl rfl
  | succ k ih =>
    intro hk
    have hs := take_succ_getD cs k (by omega)
    have ea : (CM.new.encodeList w (cs.take (k + 1))).1 =
        ((CM.new.encodeList w (cs.take k)).1.Encode w (cs.getD k 0)).1 := by
      rw [hs, encodeList_append]
      rfl
    rw [ea]
    obtain ⟨f1, f2, f3⟩ := encode_fields w (CM.new.encodeList w (cs.take k)).1 (cs.getD k 0)
    exact history_step cs k _ _ (ih (by omega)) (by rw [f1, byteAt_nat]) f2 f3

theorem decodeList_snoc (w : Bool) (k : Nat) : ∀ (d : CM) (inp : List Byte),
    CM.decodeList w (k + 1) d inp =
      ((CM.decodeList w k d inp).1 ++
          [((CM.decodeList w k d inp).2.1.Decode w (CM.decodeList w k d inp).2.2).1],
        ((CM.decodeList w k d inp).2.1.Decode w (CM.decodeList w k d inp).2.2).2.1,
        ((CM.decodeList w k d inp).2.1.Decode w (CM.decodeList w k d inp).2.2).2.2) := by
  induction k with
  | zero => intro d inp; rfl
  | succ k ih =>
    intro d inp
    rw [CM.decodeList, ih]
    rfl

theorem decodeList_length (w : Bool) (n : Nat) : ∀ (d : CM) (inp : List Byte),
    (CM.decodeList w n d inp).1.length = n := by
  induction n with
  | zero => intro d inp; rfl
  | succ n ih =>
    intro d inp
    rw [CM.decodeList]
    simp only [List.length_cons, ih]

theorem decodeList_take (w : Bool) (k : Nat) : ∀ (n : Nat) (d : CM) (inp : List Byte), k ≤ n →
    (CM.decodeList w k d inp).1 = (CM.decodeList w n d inp).1.take k := by
  induction k with
  | zero => intro n d inp _; rfl
  | succ k ih =>
    intro n d inp hk
    obtain ⟨n, rfl⟩ : ∃ n2, n = n2 + 1 := ⟨n - 1, by omega⟩
    rw [CM.decodeList, CM.decodeList]
    rw [List.take_succ_cons, ih n _ _ (by omega)]

theorem decode_value_mod (w : Bool) (d : CM) (inp : List Byte) :
    (d.Decode w inp).1 % 256 = (d.Decode w inp).1 := by
  unfold CM.Decode
  dsimp only
  rw [and_255, Nat.mod_mod]

theorem decode_history (w : Bool) (n : Nat) (d : CM) (inp : List Byte) (h1 : d.c1 = 0)
    (h2 : d.c2 = 0) (h3 : d.run = 0) (k : Nat) : k ≤ n →
    (CM.decodeList w k d inp).2.1.c1 = byteAt (CM.decodeList w n d inp).1 ((k : Int) - 1) ∧
    (CM.decodeList w k d inp).2.1.c2 = byteAt (CM.decodeList w n d inp).1 ((k : Int) - 2) ∧
    (CM.decodeList w k d inp).2.1.nextRun = runCount (CM.decodeList w n d inp).1 k := by
  induction k with
  | zero =>
    intro _
    exact history_new _ _ h1 h2 h3
  | succ k ih =>
    intro hk
    have hlen := decodeList_length w n d inp
    have hs := take_succ_getD (CM.decodeList w n d inp).1 k (by omega)
    have ht1 := decodeList_take w (k + 1) n d inp hk
    have ht0 := decodeList_take w k n d inp (by omega)
    rw [decodeList_snoc, hs, ht0] at ht1
    have hv := List.append_cancel_left ht1
    simp only [List.cons.injEq, and_true] at hv
    rw [decodeList_snoc]
    dsimp only
    obtain ⟨f1, f2, f3⟩ := decode_fields w (CM.decodeList w k d inp).2.1
      (CM.decodeList w k d inp).2.2
    refine history_step _ k _ _ (ih (by omega)) ?_ f2 f3
    rw [f1, byteAt_nat, ← hv, decode_value_mod]

theorem runCount_le (cs : List Nat) (k : Nat) : runCount cs k ≤ k + 1 := by
  unfold runCount
  have h := (List.takeWhile_sublist (l := List.range (k + 1))
    (fun (i : Nat) =>
      decide (byteAt cs ((k : Int) - (i : Int) - 1) =
        byteAt cs ((k : Int) - (i : Int) - 2)))).length_le
  rw [List.length_range] at h
  exact h

/-- C20: in a session that starts from the constructor, let `b_i` be the low
eight bits of the `i`-th value coded (`b_i = 0` for `i < 0`). When `Encode` is
called for `b_k`, after the values `cs[0..k-1]`, the flag `f` is 1 exactly when
`k >= 2` and `b_(k-1) = b_(k-2) = b_(k-3) = b_(k-4)`, and 0 otherwise, and the
run is the number of consecutive most recent byte starts (at most `k + 1`) at
which `c1 = c2` held; it is at most `k + 1`, so that for `k < 2^31 - 1` the
`int` of the source holds it without overflow. The same holds in a decoding
session for the `k`-th call of `Decode`, with the values `Decode` has
returned. -/
theorem run_feature (w : Bool) (cs : List Nat) (k : Nat) (e : Encoder) (inp : List Byte)
    (n : Nat) (hk : k ≤ cs.length) (hn : k ≤ n) (hk31 : k < 2147483647) :
    (((CM.new.encodeList w (cs.take k)).1.flag = 1 ↔
        2 ≤ k ∧ byteAt cs ((k : Int) - 1) = byteAt cs ((k : Int) - 2) ∧
        byteAt cs ((k : Int) - 2) = byteAt cs ((k : Int) - 3) ∧
        byteAt cs ((k : Int) - 3) = byteAt cs ((k : Int) - 4)) ∧
      ((CM.new.encodeList w (cs.take k)).1.flag = 0 ∨
        (CM.new.encodeList w (cs.take k)).1.flag = 1) ∧
      (CM.new.encodeList w (cs.take k)).1.nextRun = runCount cs k ∧
      (CM.new.encodeList w (cs.take k)).1.nextRun < 2147483648) ∧
    (((CM.decodeList w k { CM.new with enc := e } inp).2.1.flag = 1 ↔
        2 ≤ k ∧
        byteAt (CM.decodeList w n { CM.new with enc := e } inp).1 ((k : Int) - 1) =
          byteAt (CM.decodeList w n { CM.new with enc := e } inp).1 ((k : Int) - 2) ∧
        byteAt (CM.decodeList w n { CM.new with enc := e } inp).1 ((k : Int) - 2) =
          byteAt (CM.decodeList w n { CM.new with enc := e } inp).1 ((k : Int) - 3) ∧
        byteAt (CM.decodeList w n { CM.new with enc := e } inp).1 ((k : Int) - 3) =
          byteAt (CM.decodeList w n { CM.new with enc := e } inp).1 ((k : Int) - 4)) ∧
      ((CM.decodeList w k { CM.new with enc := e } inp).2.1.flag = 0 ∨
        (CM.decodeList w k { CM.new with enc := e } inp).2.1.flag = 1) ∧
      (CM.decodeList w k { CM.new with enc := e } inp).2.1.nextRun =
        runCount (CM.decodeList w n { CM.new with enc := e } inp).1 k ∧
      (CM.decodeList w k { CM.new with enc := e } inp).2.1.nextRun < 2147483648) := by
  have he := (encode_history w cs k hk).2.2
  have hd := (decode_history w n { CM.new with enc := e } inp rfl rfl rfl k hn).2.2
  have fe := flag_iff cs k _ he
  have fd := flag_iff _ k _ hd
  have le := runCount_le cs k
  have ld := runCount_le (CM.decodeList w n { CM.new with enc := e } inp).1 k
  exact ⟨⟨fe.1, fe.2, he, by omega⟩, ⟨fd.1, fd.2, hd, by omega⟩⟩

/-- C20 for the session that codes five zero bytes, at its last byte. -/
theorem run_feature_witness :
    (4 : Nat) ≤ ([0, 0, 0, 0, 0] : List Nat).length ∧ (4 : Nat) ≤ 4 ∧ (4 : Nat) < 2147483647 ∧
    (CM.new.encodeList false (([0, 0, 0, 0, 0] : List Nat).take 4)).1.nextRun =
      runCount [0, 0, 0, 0, 0] 4 ∧
    runCount [0, 0, 0, 0, 0] 4 = 5 :=
  ⟨by decide, by decide, by decide,
    (run_feature false [0, 0, 0, 0, 0] 4 Encoder.new [] 4 (by decide) (by decide)
      (by decide)).1.2.2.1,
    by decide⟩

/-! ## The counters touched by one bit -/

theorem update_counter0 (m : CM) (f ctx : Nat) (j : Int) (b : Nat) (i : Nat) :
    (m.update f ctx j b).counter0 i =
      if i = ctx then updateBit 2 b (m.counter0 ctx) else m.counter0 i := by
  simp only [CM.update, set1]

theorem update_counter1 (m : CM) (f ctx : Nat) (j : Int) (b : Nat) (a i : Nat) :
    (m.update f ctx j b).counter1 a i =
      if a = m.c1 ∧ i = ctx then updateBit 4 b (m.counter1 m.c1 ctx) else m.counter1 a i := by
  simp only [CM.update, set2]

theorem update_counter2 (m : CM) (f ctx : Nat) (j : Int) (b : Nat) (hj : 0 ≤ j) (g i k : Nat) :
    (m.update f ctx j b).counter2 g i k =
      if g = f ∧ i = ctx ∧ k = j.toNat then updateBit 6 b (m.counter2 f ctx j.toNat)
      else if g = f ∧ i = ctx ∧ k = j.toNat + 1 then
        updateBit 6 b (m.counter2 f ctx (j.toNat + 1))
      else m.counter2 g i k := by
  have e : (j + 1).toNat = j.toNat + 1 := by omega
  simp only [CM.update, set3, e]
  by_cases h1 : g = f ∧ i = ctx ∧ k = j.toNat + 1
  · have h2 : ¬ (g = f ∧ i = ctx ∧ k = j.toNat) := by omega
    have h3 : ¬ (True ∧ True ∧ j.toNat + 1 = j.toNat) := by omega
    rw [if_pos h1, if_neg h2, if_pos h1, if_neg h3]
  · rw [if_neg h1, if_neg h1]

/-- The counters after one round of the bit loop of `Encode`. -/
theorem encodeStep_counters (w : Bool) (m : CM) (f ctx c : Nat) :
    (m.encodeStep w f ctx c).1.counter0 =
        (m.update f ctx (m.mix f ctx).j (topBit c)).counter0 ∧
      (m.encodeStep w f ctx c).1.counter1 =
        (m.update f ctx (m.mix f ctx).j (topBit c)).counter1 ∧
      (m.encodeStep w f ctx c).1.counter2 =
        (m.update f ctx (m.mix f ctx).j (topBit c)).counter2 := by
  rw [encodeStep_eq]
  exact ⟨rfl, rfl, rfl⟩

/-- The counters after one round of the bit loop of `Decode`. -/
theorem decodeStep_counters (w : Bool) (d : CM) (f ctx : Nat) (inp : List Byte) :
    (d.decodeStep w f ctx inp).1.counter0 =
        (d.update f ctx (d.mix f ctx).j (d.decodedBit w f ctx inp)).counter0 ∧
      (d.decodeStep w f ctx inp).1.counter1 =
        (d.update f ctx (d.mix f ctx).j (d.decodedBit w f ctx inp)).counter1 ∧
      (d.decodeStep w f ctx inp).1.counter2 =
        (d.update f ctx (d.mix f ctx).j (d.decodedBit w f ctx inp)).counter2 := by
  rw [decodeStep_eq]
  exact ⟨rfl, rfl, rfl⟩

/-- C16 fails in the initial state, where `c1 = c2 = 0`: the first bit of
`Encode(0)` is coded with `ctx = 1` and updates `counter1[c1][1]`, which is
`counter1[c2][1]`: its value goes from 32768 to 30720. -/
theorem footprint_counterexample :
    CM.Reachable false CM.new ∧ CM.new.c1 = CM.new.c2 ∧
    CM.new.counter1 CM.new.c2 1 = 32768 ∧
    (CM.encodeLoop false 1 { CM.new with run := CM.new.nextRun } CM.new.flag 1 0).1.counter1
      CM.new.c2 1 = 30720 :=
  ⟨CM.Reachable.new, by decide, by decide, by decide⟩

/-- C16 as amended: in every reachable state, one round of the bit loop of
`Encode` or `Decode` with flag `f` and context `ctx` applies the update for the
coded bit once to each of `counter0[ctx]`, `counter1[c1][ctx]`,
`counter2[f][ctx][j]` and `counter2[f][ctx][j+1]` (where `j = p >> 12` is in
`[0, 15]`), and every other counter keeps its value; `counter1[c2][ctx]` keeps
its value when `c2` differs from `c1`, and is the counter that is updated when
`c2 = c1`. -/
theorem update_footprint (w : Bool) (m : CM) (h : CM.Reachable w m) (f ctx c : Nat)
    (inp : List Byte) :
    (0 ≤ (m.mix f ctx).j ∧ (m.mix f ctx).j ≤ 15) ∧
    ((∀ i, (m.encodeStep w f ctx c).1.counter0 i =
        if i = ctx then updateBit 2 (topBit c) (m.counter0 ctx) else m.counter0 i) ∧
      (∀ a i, (m.encodeStep w f ctx c).1.counter1 a i =
        if a = m.c1 ∧ i = ctx then updateBit 4 (topBit c) (m.counter1 m.c1 ctx)
        else m.counter1 a i) ∧
      (∀ g i k, (m.encodeStep w f ctx c).1.counter2 g i k =
        if g = f ∧ i = ctx ∧ k = (m.mix f ctx).j.toNat then
          updateBit 6 (topBit c) (m.counter2 f ctx (m.mix f ctx).j.toNat)
        else if g = f ∧ i = ctx ∧ k = (m.mix f ctx).j.toNat + 1 then
          updateBit 6 (topBit c) (m.counter2 f ctx ((m.mix f ctx).j.toNat + 1))
        else m.counter2 g i k) ∧
      (m.c2 ≠ m.c1 → (m.encodeStep w f ctx c).1.counter1 m.c2 ctx = m.counter1 m.c2 ctx) ∧
      (m.c2 = m.c1 → (m.encodeStep w f ctx c).1.counter1 m.c2 ctx =
        updateBit 4 (topBit c) (m.counter1 m.c2 ctx))) ∧
    ((∀ i, (m.decodeStep w f ctx inp).1.counter0 i =
        if i = ctx then updateBit 2 (m.decodedBit w f ctx inp) (m.counter0 ctx)
        else m.counter0 i) ∧
      (∀ a i, (m.decodeStep w f ctx inp).1.counter1 a i =
        if a = m.c1 ∧ i = ctx then updateBit 4 (m.decodedBit w f ctx inp) (m.counter1 m.c1 ctx)
        else m.counter1 a i) ∧
      (∀ g i k, (m.decodeStep w f ctx inp).1.counter2 g i k =
        if g = f ∧ i = ctx ∧ k = (m.mix f ctx).j.toNat then
          updateBit 6 (m.decodedBit w f ctx inp) (m.counter2 f ctx (m.mix f ctx).j.toNat)
        else if g = f ∧ i = ctx ∧ k = (m.mix f ctx).j.toNat + 1 then
          updateBit 6 (m.decodedBit w f ctx inp) (m.counter2 f ctx ((m.mix f ctx).j.toNat + 1))
        else m.counter2 g i k) ∧
      (m.c2 ≠ m.c1 → (m.decodeStep w f ctx inp).1.counter1 m.c2 ctx = m.counter1 m.c2 ctx) ∧
      (m.c2 = m.c1 → (m.decodeStep w f ctx inp).1.counter1 m.c2 ctx =
        updateBit 4 (m.decodedBit w f ctx inp) (m.counter1 m.c2 ctx))) := by
  have hj := (mix_ok m f ctx (reachable_inv w m h)).2.1
  obtain ⟨e0, e1, e2⟩ := encodeStep_counters w m f ctx c
  obtain ⟨d0, d1, d2⟩ := decodeStep_counters w m f ctx inp
  refine ⟨hj, ⟨?_, ?_, ?_, ?_, ?_⟩, ⟨?_, ?_, ?_, ?_, ?_⟩⟩
  · intro i; rw [e0, update_counter0]
  · intro a i; rw [e1, update_counter1]
  · intro g i k; rw [e2, update_counter2 _ _ _ _ _ hj.1]
  · intro hne
    rw [e1, update_counter1, if_neg (fun hc => hne hc.1)]
  · intro heq
    rw [e1, update_counter1, if_pos ⟨heq, rfl⟩, heq]
  · intro i; rw [d0, update_counter0]
  · intro a i; rw [d1, update_counter1]
  · intro g i k; rw [d2, update_counter2 _ _ _ _ _ hj.1]
  · intro hne
    rw [d1, update_counter1, if_neg (fun hc => hne hc.1)]
  · intro heq
    rw [d1, update_counter1, if_pos ⟨heq, rfl⟩, heq]

/-- C16 as amended, at the first bit of `Encode(0)` in the initial state. -/
theorem update_footprint_witness :
    CM.Reachable false CM.new ∧
    (∀ a i, (CM.new.encodeStep false 0 1 0).1.counter1 a i =
      if a = CM.new.c1 ∧ i = 1 then updateBit 4 (topBit 0) (CM.new.counter1 CM.new.c1 1)
      else CM.new.counter1 a i) :=
  ⟨CM.Reachable.new, (update_footprint false CM.new CM.Reachable.new 0 1 0 []).2.1.2.1⟩

/-! ## The coding of one byte -/

/-- The value of `ctx` after the first `k` rounds of the bit loop of `Encode`:
the old `ctx` followed by the top `k` bits of the byte. -/
theorem encodeLoop_ctx_any (w : Bool) (k : Nat) : ∀ (m : CM) (f ctx c : Nat), k ≤ 8 →
    ctx < 2 ^ (9 - k) →
    (CM.encodeLoop w k m f ctx c).2.1 = ctx * 2 ^ k + c % 256 / 2 ^ (8 - k) := by
  induction k with
  | zero =>
    intro m f ctx c _ _
    simp only [CM.encodeLoop, pow_zero, mul_one, Nat.sub_zero]
    have : c % 256 / 2 ^ 8 = 0 := by
      have e : (2 : Nat) ^ 8 = 256 := by norm_num
      rw [e]; omega
    omega
  | succ k ih =>
    intro m f ctx c hk hhi
    have hc : ctx < 256 := by
      have : 2 ^ (9 - (k + 1)) ≤ 2 ^ 8 := Nat.pow_le_pow_right (by norm_num) (by omega)
      omega
    rw [CM.encodeLoop, if_pos hc]
    dsimp only
    have e2 : 9 - k = (9 - (k + 1)) + 1 := by omega
    rw [ih _ _ _ _ (by omega) (by rw [encodeStep_ctx, e2, pow_succ]; omega), encodeStep_ctx,
      encodeStep_c]
    have hk8 : k < 8 := by omega
    interval_cases k <;> norm_num <;> omega

theorem pow_le_256 (k : Nat) (hk : k ≤ 8) : 2 ^ k ≤ 256 := by
  have : 2 ^ k ≤ 2 ^ 8 := Nat.pow_le_pow_right (by norm_num) hk
  omega

/-- The value of `ctx` after the first `k` rounds of `Encode(c)`. -/
theorem encode_ctx (w : Bool) (m : CM) (f c k : Nat) (hk : k ≤ 8) :
    (CM.encodeLoop w k m f 1 c).2.1 = 2 ^ k + c % 256 / 2 ^ (8 - k) ∧
      2 ^ k ≤ (CM.encodeLoop w k m f 1 c).2.1 ∧ (CM.encodeLoop w k m f 1 c).2.1 < 2 ^ (k + 1) := by
  have h1 : (1 : Nat) < 2 ^ (9 - k) := Nat.one_lt_two_pow (by omega)
  have h := encodeLoop_ctx_any w k m f 1 c hk h1
  rw [Nat.one_mul] at h
  refine ⟨h, by rw [h]; exact Nat.le_add_right _ _, ?_⟩
  rw [h, pow_succ]
  have hlt : c % 256 / 2 ^ (8 - k) < 2 ^ k := by
    apply Nat.div_lt_of_lt_mul
    have e : 2 ^ (8 - k) * 2 ^ k = 256 := by
      rw [← pow_add]
      have : 8 - k + k = 8 := by omega
      rw [this]
      norm_num
    omega
  omega

/-- Round `k + 1` of the bit loop of `Encode(c)` codes bit `7 - k` of `c` with
the probability of the state after `k` rounds. -/
theorem encode_round (w : Bool) (m : CM) (f c k : Nat) (hk : k < 8) :
    (CM.encodeLoop w (k + 1) m f 1 c).1.enc =
        (encodeBit w (CM.encodeLoop w k m f 1 c).1.enc
          (toU32 ((CM.encodeLoop w k m f 1 c).1.mix f (CM.encodeLoop w k m f 1 c).2.1).prob)
          (c / 2 ^ (7 - k) % 2)).1 ∧
      (CM.encodeLoop w (k + 1) m f 1 c).2.2 =
        (CM.encodeLoop w k m f 1 c).2.2 ++
          (encodeBit w (CM.encodeLoop w k m f 1 c).1.enc
            (toU32 ((CM.encodeLoop w k m f 1 c).1.mix f (CM.encodeLoop w k m f 1 c).2.1).prob)
            (c / 2 ^ (7 - k) % 2)).2 := by
  have hx := (encode_ctx w m f c k (by omega)).2.2
  have hc : (CM.encodeLoop w k m f 1 c).2.1 < 256 := by
    have := pow_le_256 (k + 1) (by omega)
    omega
  rw [encodeLoop_add w k 1]
  dsimp only
  rw [CM.encodeLoop, if_pos hc]
  dsimp only
  rw [CM.encodeLoop, encodeStep_eq, topBit_shift c k hk]
  dsimp only
  rw [List.append_nil]
  exact ⟨rfl, rfl⟩

/-- The bit loop of `Encode` makes exactly 8 rounds. -/
theorem encode_eight (w : Bool) (m : CM) (f c j : Nat) :
    CM.encodeLoop w (8 + j) m f 1 c = CM.encodeLoop w 8 m f 1 c := by
  have hx := encodeLoop_ctx8 w m f c
  rw [encodeLoop_add w 8 j, encodeLoop_done w j _ f _ _ (by rw [hx]; omega)]
  dsimp only
  rw [List.append_nil]

/-- The value of `ctx` after the first `k` rounds of `Decode()`. -/
theorem decode_ctx (w : Bool) (d : CM) (f : Nat) (inp : List Byte) (k : Nat) (hk : k ≤ 8) :
    2 ^ k ≤ (CM.decodeLoop w k d f 1 inp).2.1 ∧ (CM.decodeLoop w k d f 1 inp).2.1 < 2 ^ (k + 1) := by
  have h1 : (1 : Nat) < 2 ^ (9 - k) := Nat.one_lt_two_pow (by omega)
  have h := decodeLoop_ctx_range w k d f 1 inp hk h1
  rw [Nat.one_mul] at h
  refine ⟨h.1, ?_⟩
  rw [pow_succ]
  omega

/-- Round `k + 1` of the bit loop of `Decode()` is one `DecodeBit` call in the
state after `k` rounds, and appends the decoded bit to `ctx`. -/
theorem decode_round (w : Bool) (d : CM) (f : Nat) (inp : List Byte) (k : Nat) (hk : k < 8) :
    CM.decodeLoop w (k + 1) d f 1 inp =
        (CM.decodeLoop w k d f 1 inp).1.decodeStep w f (CM.decodeLoop w k d f 1 inp).2.1
          (CM.decodeLoop w k d f 1 inp).2.2 ∧
      (CM.decodeLoop w (k + 1) d f 1 inp).2.1 =
        2 * (CM.decodeLoop w k d f 1 inp).2.1 +
          (CM.decodeLoop w k d f 1 inp).1.decodedBit w f (CM.decodeLoop w k d f 1 inp).2.1
            (CM.decodeLoop w k d f 1 inp).2.2 := by
  have hx := (decode_ctx w d f inp k (by omega)).2
  have hc : (CM.decodeLoop w k d f 1 inp).2.1 < 256 := by
    have := pow_le_256 (k + 1) (by omega)
    omega
  have e : CM.decodeLoop w (k + 1) d f 1 inp =
      (CM.decodeLoop w k d f 1 inp).1.decodeStep w f (CM.decodeLoop w k d f 1 inp).2.1
        (CM.decodeLoop w k d f 1 inp).2.2 := by
    rw [decodeLoop_add w k 1, CM.decodeLoop, if_pos hc]
    dsimp only
    rw [CM.decodeLoop]
  refine ⟨e, ?_⟩
  rw [e, decodeStep_eq]
  dsimp only
  omega

/-- The bit loop of `Decode` makes exactly 8 rounds. -/
theorem decode_eight (w : Bool) (d : CM) (f : Nat) (inp : List Byte) (j : Nat) :
    CM.decodeLoop w (8 + j) d f 1 inp = CM.decodeLoop w 8 d f 1 inp := by
  have hx := (decode_ctx w d f inp 8 (le_refl _)).1
  rw [decodeLoop_add w 8 j, decodeLoop_done w j _ f _ _ (by norm_num at hx; omega)]

/-- The value of `ctx` after `k` rounds of `Decode()` is a leading 1 followed
by the `k` decoded bits. -/
theorem decode_ctx_sum (w : Bool) (d : CM) (f : Nat) (inp : List Byte) (k : Nat) : k ≤ 8 →
    (CM.decodeLoop w k d f 1 inp).2.1 = 2 ^ k +
      ∑ i in Finset.range k,
        (CM.decodeLoop w i d f 1 inp).1.decodedBit w f (CM.decodeLoop w i d f 1 inp).2.1
          (CM.decodeLoop w i d f 1 inp).2.2 * 2 ^ (k - 1 - i) := by
  induction k with
  | zero => intro _; rfl
  | succ k ih =>
    intro hk
    have hr := (decode_round w d f inp k (by omega)).2
    have hi := ih (by omega)
    have e : k + 1 - 1 - k = 0 := by omega
    have hs : ∑ i in Finset.range k,
        (CM.decodeLoop w i d f 1 inp).1.decodedBit w f (CM.decodeLoop w i d f 1 inp).2.1
          (CM.decodeLoop w i d f 1 inp).2.2 * 2 ^ (k + 1 - 1 - i) =
        2 * ∑ i in Finset.range k,
          (CM.decodeLoop w i d f 1 inp).1.decodedBit w f (CM.decodeLoop w i d f 1 inp).2.1
            (CM.decodeLoop w i d f 1 inp).2.2 * 2 ^ (k - 1 - i) := by
      rw [Finset.mul_sum]
      apply Finset.sum_congr rfl
      intro i hi
      have hi2 : i < k := Finset.mem_range.mp hi
      have e2 : k + 1 - 1 - i = (k - 1 - i) + 1 := by omega
      rw [e2, pow_succ]
      ring
    rw [Finset.sum_range_succ, e, pow_zero, Nat.mul_one, hs, hr, pow_succ]
    omega

/-- C15: `Encode(c)`, for any argument `c` (also one above 255), makes exactly
8 rounds; round `k + 1` runs with `ctx` in `[1, 255]` and codes bit `7 - k` of
`c` (the most significant of the low eight bits first); on exit `ctx` is in
`[256, 511]` with `ctx & 255 = c & 255`, `c2` holds the previous `c1` and
`c1 = c & 255`. `Decode()` makes exactly 8 rounds, each with `ctx` in
`[1, 255]` and one `DecodeBit` call; it returns the value in `[0, 255]` whose
bits, most significant first, are the 8 decoded bits, sets `c2` to the previous
`c1` and `c1` to the value returned. -/
theorem byte_coding (w : Bool) (m : CM) (c : Nat) (inp : List Byte) (j : Nat) :
    (∀ k, k < 8 →
      (1 ≤ (CM.encodeLoop w k { m with run := m.nextRun } m.flag 1 c).2.1 ∧
        (CM.encodeLoop w k { m with run := m.nextRun } m.flag 1 c).2.1 ≤ 255) ∧
      (CM.encodeLoop w (k + 1) { m with run := m.nextRun } m.flag 1 c).1.enc =
        (encodeBit w (CM.encodeLoop w k { m with run := m.nextRun } m.flag 1 c).1.enc
          (toU32 ((CM.encodeLoop w k { m with run := m.nextRun } m.flag 1 c).1.mix m.flag
            (CM.encodeLoop w k { m with run := m.nextRun } m.flag 1 c).2.1).prob)
          (c / 2 ^ (7 - k) % 2)).1 ∧
      (CM.encodeLoop w (k + 1) { m with run := m.nextRun } m.flag 1 c).2.2 =
        (CM.encodeLoop w k { m with run := m.nextRun } m.flag 1 c).2.2 ++
          (encodeBit w (CM.encodeLoop w k { m with run := m.nextRun } m.flag 1 c).1.enc
            (toU32 ((CM.encodeLoop w k { m with run := m.nextRun } m.flag 1 c).1.mix m.flag
              (CM.encodeLoop w k { m with run := m.nextRun } m.flag 1 c).2.1).prob)
            (c / 2 ^ (7 - k) % 2)).2) ∧
    CM.encodeLoop w (8 + j) { m with run := m.nextRun } m.flag 1 c =
      CM.encodeLoop w 8 { m with run := m.nextRun } m.flag 1 c ∧
    (256 ≤ (CM.encodeLoop w 8 { m with run := m.nextRun } m.flag 1 c).2.1 ∧
      (CM.encodeLoop w 8 { m with run := m.nextRun } m.flag 1 c).2.1 ≤ 511 ∧
      (CM.encodeLoop w 8 { m with run := m.nextRun } m.flag 1 c).2.1 &&& 255 = c &&& 255) ∧
    ((m.Encode w c).1.c2 = m.c1 ∧ (m.Encode w c).1.c1 = c &&& 255 ∧
      (m.Encode w c).1.enc =
        (CM.encodeLoop w 8 { m with run := m.nextRun } m.flag 1 c).1.enc ∧
      (m.Encode w c).2 = (CM.encodeLoop w 8 { m with run := m.nextRun } m.flag 1 c).2.2) ∧
    (∀ k, k < 8 →
      (1 ≤ (CM.decodeLoop w k { m with run := m.nextRun } m.flag 1 inp).2.1 ∧
        (CM.decodeLoop w k { m with run := m.nextRun } m.flag 1 inp).2.1 ≤ 255) ∧
      CM.decodeLoop w (k + 1) { m with run := m.nextRun } m.flag 1 inp =
        (CM.decodeLoop w k { m with run := m.nextRun } m.flag 1 inp).1.decodeStep w m.flag
          (CM.decodeLoop w k { m with run := m.nextRun } m.flag 1 inp).2.1
          (CM.decodeLoop w k { m with run := m.nextRun } m.flag 1 inp).2.2 ∧
      (CM.decodeLoop w k { m with run := m.nextRun } m.flag 1 inp).1.decodedBit w m.flag
        (CM.decodeLoop w k { m with run := m.nextRun } m.flag 1 inp).2.1
        (CM.decodeLoop w k { m with run := m.nextRun } m.flag 1 inp).2.2 ≤ 1) ∧
    CM.decodeLoop w (8 + j) { m with run := m.nextRun } m.flag 1 inp =
      CM.decodeLoop w 8 { m with run := m.nextRun } m.flag 1 inp ∧
    ((m.Decode w inp).1 =
        ∑ k in Finset.range 8,
          (CM.decodeLoop w k { m with run := m.nextRun } m.flag 1 inp).1.decodedBit w m.flag
            (CM.decodeLoop w k { m with run := m.nextRun } m.flag 1 inp).2.1
            (CM.decodeLoop w k { m with run := m.nextRun } m.flag 1 inp).2.2 * 2 ^ (7 - k) ∧
      (m.Decode w inp).1 ≤ 255 ∧
      (m.Decode w inp).2.1.c2 = m.c1 ∧ (m.Decode w inp).2.1.c1 = (m.Decode w inp).1) := by
  have hx8 := encodeLoop_ctx8 w { m with run := m.nextRun } m.flag c
  obtain ⟨f1, f2, _⟩ := encode_fields w m c
  obtain ⟨g1, g2, _⟩ := decode_fields w m inp
  have hd8 := decode_ctx w { m with run := m.nextRun } m.flag inp 8 (le_refl _)
  have hsum := decode_ctx_sum w { m with run := m.nextRun } m.flag inp 8 (le_refl _)
  have hval : (m.Decode w inp).1 =
      (CM.decodeLoop w 8 { m with run := m.nextRun } m.flag 1 inp).2.1 % 256 := by
    unfold CM.Decode
    dsimp only
    rw [and_255]
  norm_num at hd8
  refine ⟨?_, encode_eight w _ _ c j, ⟨by omega, by omega, ?_⟩, ⟨f2, ?_, rfl, rfl⟩, ?_,
    decode_eight w _ _ inp j, ⟨?_, ?_, g2, g1⟩⟩
  · intro k hk
    obtain ⟨_, c1, c2⟩ := encode_ctx w { m with run := m.nextRun } m.flag c k (by omega)
    have hp := pow_le_256 (k + 1) (by omega)
    have hp1 : 1 ≤ 2 ^ k := Nat.one_le_two_pow
    obtain ⟨r1, r2⟩ := encode_round w { m with run := m.nextRun } m.flag c k hk
    exact ⟨⟨by omega, by omega⟩, r1, r2⟩
  · rw [hx8, and_255, and_255]
    omega
  · rw [f1, and_255]
  · intro k hk
    obtain ⟨c1, c2⟩ := decode_ctx w { m with run := m.nextRun } m.flag inp k (by omega)
    have hp := pow_le_256 (k + 1) (by omega)
    have hp1 : 1 ≤ 2 ^ k := Nat.one_le_two_pow
    exact ⟨⟨by omega, by omega⟩, (decode_round w _ _ inp k hk).1, decodedBit_le w _ _ _ _⟩
  · rw [hval]
    have e : (2 : Nat) ^ 8 = 256 := by norm_num
    rw [e] at hsum
    have hs7 : ∑ i in Finset.range 8,
        (CM.decodeLoop w i { m with run := m.nextRun } m.flag 1 inp).1.decodedBit w m.flag
          (CM.decodeLoop w i { m with run := m.nextRun } m.flag 1 inp).2.1
          (CM.decodeLoop w i { m with run := m.nextRun } m.flag 1 inp).2.2 * 2 ^ (8 - 1 - i) =
        ∑ k in Finset.range 8,
          (CM.decodeLoop w k { m with run := m.nextRun } m.flag 1 inp).1.decodedBit w m.flag
            (CM.decodeLoop w k { m with run := m.nextRun } m.flag 1 inp).2.1
            (CM.decodeLoop w k { m with run := m.nextRun } m.flag 1 inp).2.2 * 2 ^ (7 - k) :=
      rfl
    rw [hs7] at hsum
    omega
  · rw [hval]
    omega

/-! ## The models of the encoder and of the decoder -/

theorem sameModel_mix (d m : CM) (h : d.SameModel m) (f ctx : Nat) :
    d.mix f ctx = m.mix f ctx := by
  obtain ⟨h0, h1, h2, h3, h4, _⟩ := h
  simp only [CM.mix, h0, h1, h2, h3, h4]

theorem sameModel_run (d m : CM) (h : d.SameModel m) :
    d.nextRun = m.nextRun ∧ d.flag = m.flag := by
  obtain ⟨_, _, _, h3, h4, h5⟩ := h
  simp only [CM.flag, CM.nextRun, h3, h4, h5, and_self]

theorem sameModel_update (d m : CM) (h : d.SameModel m) (f ctx : Nat) (j : Int) (b : Nat)
    (e1 e2 : Encoder) :
    (({ d with enc := e1 } : CM).update f ctx j b).SameModel
      (({ m with enc := e2 } : CM).update f ctx j b) := by
  obtain ⟨h0, h1, h2, h3, h4, h5⟩ := h
  simp only [CM.SameModel, CM.update, h0, h1, h2, h3, h4, h5, and_self]

theorem sameModel_start (d m : CM) (h : d.SameModel m) :
    ({ d with run := d.nextRun } : CM).SameModel { m with run := m.nextRun } := by
  have hr := (sameModel_run d m h).1
  obtain ⟨h0, h1, h2, h3, h4, _⟩ := h
  exact ⟨h0, h1, h2, h3, h4, hr⟩

/-- One round of `Decode` and one round of `Encode` from the same model, with
the same bit, leave the same model. -/
theorem sameModel_step (w : Bool) (d m : CM) (h : d.SameModel m) (f ctx c : Nat)
    (inp : List Byte) (hb : d.decodedBit w f ctx inp = topBit c) :
    (d.decodeStep w f ctx inp).1.SameModel (m.encodeStep w f ctx c).1 := by
  rw [decodeStep_eq, encodeStep_eq, hb, sameModel_mix d m h]
  exact sameModel_update d m h f ctx _ _ _ _

/-- The state after round `k + 1` of `Encode(c)` in terms of the state after
round `k`. -/
theorem encode_round_state (w : Bool) (m : CM) (f c k : Nat) (hk : k < 8) :
    (CM.encodeLoop w (k + 1) m f 1 c).1 =
        ((CM.encodeLoop w k m f 1 c).1.encodeStep w f (CM.encodeLoop w k m f 1 c).2.1
          (c * 2 ^ k)).1 ∧
      (CM.encodeLoop w (k + 1) m f 1 c).2.1 =
        2 * (CM.encodeLoop w k m f 1 c).2.1 + topBit (c * 2 ^ k) := by
  have hx := (encode_ctx w m f c k (by omega)).2.2
  have hc : (CM.encodeLoop w k m f 1 c).2.1 < 256 := by
    have := pow_le_256 (k + 1) (by omega)
    omega
  rw [encodeLoop_add w k 1]
  dsimp only
  rw [CM.encodeLoop, if_pos hc]
  dsimp only
  rw [CM.encodeLoop, encodeStep_ctx, topBit_eq]
  exact ⟨rfl, rfl⟩

/-- The value of `ctx` after `k` rounds of `Decode()` is what the final value
of `ctx` starts with. -/
theorem decode_ctx_head (w : Bool) (d : CM) (f : Nat) (inp : List Byte) (k : Nat)
    (hk : k ≤ 8) :
    (CM.decodeLoop w k d f 1 inp).2.1 = (CM.decodeLoop w 8 d f 1 inp).2.1 / 2 ^ (8 - k) := by
  have hx := decode_ctx w d f inp k hk
  have e : 8 = k + (8 - k) := by omega
  have hr := decodeLoop_ctx_range w (8 - k) (CM.decodeLoop w k d f 1 inp).1 f
    (CM.decodeLoop w k d f 1 inp).2.1 (CM.decodeLoop w k d f 1 inp).2.2 (by omega)
    (by
      have e2 : 9 - (8 - k) = k + 1 := by omega
      rw [e2]
      exact hx.2)
  rw [← decodeLoop_add, ← e] at hr
  symm
  apply Nat.div_eq_of_lt_le
  · exact hr.1
  · exact hr.2

theorem encode_ctx_head (w : Bool) (m : CM) (f c k : Nat) (hk : k ≤ 8) :
    (CM.encodeLoop w k m f 1 c).2.1 = (CM.encodeLoop w 8 m f 1 c).2.1 / 2 ^ (8 - k) := by
  rw [(encode_ctx w m f c k hk).1, encodeLoop_ctx8]
  have e : 256 = 2 ^ k * 2 ^ (8 - k) := by
    rw [← pow_add]
    have : k + (8 - k) = 8 := by omega
    rw [this]
    norm_num
  rw [e, Nat.add_comm (2 ^ k * 2 ^ (8 - k)), Nat.add_mul_div_right _ _ (by positivity),
    Nat.add_comm]

/-- C17: let the decoder state `d` and the encoder state `m` have the same
model (counters, `c1`, `c2`, `run`), and let `Decode()` from `d` return the
byte that `Encode(b)` codes from `m` (that is, let `DecodeBit` return the bits
of `b` in turn). Then before each of the 8 rounds both have the same model and
the same `ctx`, the decoder passes to `DecodeBit` the probability that the
encoder passes to the coder, the bit decoded in round `k + 1` is bit `7 - k` of
`b`, and after the calls both have the same model. -/
theorem model_synchrony (w : Bool) (d m : CM) (b : Nat) (inp : List Byte)
    (hm : d.SameModel m) (hv : (d.Decode w inp).1 = b % 256) :
    (∀ k, k ≤ 8 →
      (CM.decodeLoop w k { d with run := d.nextRun } d.flag 1 inp).1.SameModel
        (CM.encodeLoop w k { m with run := m.nextRun } m.flag 1 b).1 ∧
      (CM.decodeLoop w k { d with run := d.nextRun } d.flag 1 inp).2.1 =
        (CM.encodeLoop w k { m with run := m.nextRun } m.flag 1 b).2.1) ∧
    (∀ k, k < 8 →
      (CM.decodeLoop w k { d with run := d.nextRun } d.flag 1 inp).1.decodedBit w d.flag
          (CM.decodeLoop w k { d with run := d.nextRun } d.flag 1 inp).2.1
          (CM.decodeLoop w k { d with run := d.nextRun } d.flag 1 inp).2.2 =
        b / 2 ^ (7 - k) % 2 ∧
      toU32 ((CM.decodeLoop w k { d with run := d.nextRun } d.flag 1 inp).1.mix d.flag
          (CM.decodeLoop w k { d with run := d.nextRun } d.flag 1 inp).2.1).prob =
        toU32 ((CM.encodeLoop w k { m with run := m.nextRun } m.flag 1 b).1.mix m.flag
          (CM.encodeLoop w k { m with run := m.nextRun } m.flag 1 b).2.1).prob) ∧
    (d.Decode w inp).2.1.SameModel (m.Encode w b).1 := by
  have hf := (sameModel_run d m hm).2
  have h0 := sameModel_start d m hm
  have hval : (d.Decode w inp).1 =
      (CM.decodeLoop w 8 { d with run := d.nextRun } d.flag 1 inp).2.1 % 256 := by
    unfold CM.Decode
    dsimp only
    rw [and_255]
  have hfin : (d.Decode w inp).2.1 =
      { (CM.decodeLoop w 8 { d with run := d.nextRun } d.flag 1 inp).1 with
        c2 := (CM.decodeLoop w 8 { d with run := d.nextRun } d.flag 1 inp).1.c1,
        c1 := (CM.decodeLoop w 8 { d with run := d.nextRun } d.flag 1 inp).2.1 &&& 255 } := rfl
  rw [hval] at hv
  rw [hfin]
  rw [hf] at hv ⊢
  have hx8 := encodeLoop_ctx8 w { m with run := m.nextRun } m.flag b
  have hd8 := decode_ctx w { d with run := d.nextRun } m.flag inp 8 (le_refl _)
  norm_num at hd8
  have hctx8 : (CM.decodeLoop w 8 { d with run := d.nextRun } m.flag 1 inp).2.1 =
      (CM.encodeLoop w 8 { m with run := m.nextRun } m.flag 1 b).2.1 := by
    rw [hx8]
    omega
  have hctx : ∀ k, k ≤ 8 →
      (CM.decodeLoop w k { d with run := d.nextRun } m.flag 1 inp).2.1 =
        (CM.encodeLoop w k { m with run := m.nextRun } m.flag 1 b).2.1 := by
    intro k hk
    rw [decode_ctx_head w _ _ inp k hk, encode_ctx_head w _ _ b k hk, hctx8]
  have hbit : ∀ k, k < 8 →
      (CM.decodeLoop w k { d with run := d.nextRun } m.flag 1 inp).1.decodedBit w m.flag
          (CM.decodeLoop w k { d with run := d.nextRun } m.flag 1 inp).2.1
          (CM.decodeLoop w k { d with run := d.nextRun } m.flag 1 inp).2.2 =
        topBit (b * 2 ^ k) := by
    intro k hk
    have r1 := (decode_round w { d with run := d.nextRun } m.flag inp k hk).2
    have r2 := (encode_round_state w { m with run := m.nextRun } m.flag b k hk).2
    have c1 := hctx k (by omega)
    have c2 := hctx (k + 1) (by omega)
    omega
  have hsm : ∀ k, k ≤ 8 →
      (CM.decodeLoop w k { d with run := d.nextRun } m.flag 1 inp).1.SameModel
        (CM.encodeLoop w k { m with run := m.nextRun } m.flag 1 b).1 := by
    intro k
    induction k with
    | zero => intro _; exact h0
    | succ k ih =>
      intro hk
      have r1 := (decode_round w { d with run := d.nextRun } m.flag inp k (by omega)).1
      have r2 := (encode_round_state w { m with run := m.nextRun } m.flag b k (by omega)).1
      have hb := hbit k (by omega)
      rw [r1, r2, ← hctx k (by omega)]
      exact sameModel_step w _ _ (ih (by omega)) m.flag _ _ _ hb
  refine ⟨fun k hk => ⟨hsm k hk, hctx k hk⟩, ?_, ?_⟩
  · intro k hk
    refine ⟨by rw [hbit k hk, topBit_shift b k hk], ?_⟩
    rw [sameModel_mix _ _ (hsm k (by omega)), hctx k (by omega)]
  · obtain ⟨s0, s1, s2, s3, _, s5⟩ := hsm 8 (le_refl _)
    unfold CM.Encode
    dsimp only
    exact ⟨s0, s1, s2, by rw [hctx8], s3, s5⟩

/-- C17 with the initial state on both sides, the byte 0 and a decoder whose
`code` is all ones, which decodes eight 0 bits. -/
theorem model_synchrony_witness :
    ({ CM.new with enc := { code := 4294967295, low := 0, high := 4294967295 } } : CM).SameModel
      CM.new ∧
    (({ CM.new with enc := { code := 4294967295, low := 0, high := 4294967295 } } : CM).Decode
      false []).1 = 0 % 256 ∧
    (({ CM.new with enc := { code := 4294967295, low := 0, high := 4294967295 } } : CM).Decode
      false []).2.1.SameModel (CM.new.Encode false 0).1 :=
  ⟨⟨rfl, rfl, rfl, rfl, rfl, rfl⟩, by decide,
    (model_synchrony false
      { CM.new with enc := { code := 4294967295, low := 0, high := 4294967295 } } CM.new 0 []
      ⟨rfl, rfl, rfl, rfl, rfl, rfl⟩ (by decide)).2.2⟩

end BCM
